import Mathlib

/-!
Shallow embedding of `src/app.py` (maze generation, BFS/DFS/A* solvers, renderer)
and proofs of the specification claims.

Conventions of the embedding:
* A cell is an integer pair `(x, y)`, as in the Python source.
* A Python dict keyed by cells is a function `Cell → Option v`; `none` models a
  missing key, so a raising access `d[c]` is a `match` whose `none` branch
  aborts the whole computation with `none` (the Python `KeyError`).
* Loops are written as fueled structural recursion; each top-level entry point
  supplies a concrete fuel that is proved sufficient below, so running out of
  fuel (result `none`) never happens on the runs the theorems speak about.
* The module-level `random` generator is modeled by a family
  `f : Nat → Nat → Nat`: after `random.seed(seed)` the successive bounded draws
  are `f seed 0, f seed 1, ...`.  `random.choice(l)` is `l[f seed k % len l]`
  and `random.randrange(a, b)` is `a + f seed k % (b - a)`; quantifying over
  all `f` covers every behaviour of the real Mersenne–Twister generator.
* `heapq` is modeled as a list kept sorted by the Python tuple order on
  `(f, (x, y))`; `heappop` is the head, which is the lexicographic minimum of
  the heap contents, exactly the element `heapq.heappop` returns.
-/

/-- The two grid states of `src/app.py` lines 8-9: `WALL = '⬛'`, `EMPTY = '⬜'`. -/
inductive St where
  | wall : St
  | empty : St
deriving DecidableEq, Repr

/-- The display symbols of `render_maze` (src/app.py lines 121-136): the path
marker `🟩`, the start marker `🚩`, the end marker `🏁`, `WALL`, `EMPTY`, and the
newline appended after each row. -/
inductive Disp where
  | pathS : Disp
  | startS : Disp
  | goalS : Disp
  | wallS : Disp
  | emptyS : Disp
  | newlineS : Disp
deriving DecidableEq, Repr

/-- A cell coordinate pair `(x, y)`. -/
abbrev Cell : Type := Int × Int

/-- A maze dict: a partial map from cells to states (`none` = key absent). -/
abbrev Grid : Type := Cell → Option St

/-- Dict assignment `g[c] = v` for the maze dict. -/
def setCell (g : Grid) (c : Cell) (v : St) : Grid :=
  fun x => if x = c then some v else g x

/-- The rectangle of cells `[0, w) × [0, h)`, the key set of the maze dict
built by `generate_maze` line 15. -/
def rectI (w h : Int) : Finset Cell :=
  Finset.Icc 0 (w - 1) ×ˢ Finset.Icc 0 (h - 1)

/-- The grid `g` is a dense grid of size `w × h`: defined on exactly the
rectangle `[0, w) × [0, h)` (the spec's Grid invariant, §3). -/
def IsGrid (g : Grid) (w h : Int) : Prop :=
  ∀ c : Cell, (c ∈ rectI w h → ∃ s : St, g c = some s) ∧ (c ∉ rectI w h → g c = none)

/-- Association-list lookup, modelling `d.get(c)` / `d[c]` / `c in d` for the
solver-internal dicts (`parents`, `g`), which are kept as insertion-ordered
association lists exactly like Python dicts. -/
def lookupA {α : Type} : List (Cell × α) → Cell → Option α
  | [], _ => none
  | (k, v) :: rest, c => if c = k then some v else lookupA rest c

/-- Dict assignment `d[c] = v`: update in place if the key is present,
else append (Python dicts preserve insertion order). -/
def setA {α : Type} : List (Cell × α) → Cell → α → List (Cell × α)
  | [], c, v => [(c, v)]
  | (k, w) :: rest, c, v => if c = k then (c, v) :: rest else (k, w) :: setA rest c v

/-- The key list of an association list. -/
def keysA {α : Type} (l : List (Cell × α)) : List Cell :=
  l.map Prod.fst

/-- The predecessor map of the solvers: cell ↦ predecessor (`none` for start). -/
abbrev Parents : Type := List (Cell × Option Cell)

/-- The backtracking walk shared by all three solvers (src/app.py lines 64-68,
85-89, 112-116): `while node: path.append(node); node = parents.get(node)`.
The loop variable is `some node` while a cell is at hand and `none` once the
guard `while node:` fails (a cell, being a nonempty tuple, is always truthy).
Fuel exhaustion (`none`) models the infinite loop a cyclic predecessor map
would cause; the fuel chosen in `reconstructO` is proved sufficient for the
maps the solvers build. -/
def reconWalk : Nat → Parents → Option Cell → List Cell → Option (List Cell)
  | _, _, none, path => some path
  | 0, _, some _, _ => none
  | f + 1, parents, some node, path =>
      reconWalk f parents ((lookupA parents node).join) (path ++ [node])

/-- Path reconstruction: the walk from `goal` followed by `path[::-1]`
(src/app.py lines 64-69). -/
def reconstructO (parents : Parents) (goal : Cell) : Option (List Cell) :=
  (reconWalk (parents.length + 1) parents (some goal) []).map List.reverse

/-- The neighbour offsets `[(1,0),(-1,0),(0,1),(0,-1)]` (src/app.py line 59). -/
def dirs : List Cell := [(1, 0), (-1, 0), (0, 1), (0, -1)]

/-- One iteration of the neighbour loop of `bfs`/`dfs` (src/app.py lines 59-63
and 80-84): bounds check, then the dict access `maze[(nx, ny)]` (which raises,
i.e. returns `none`, on a missing key), then the wall and visited checks, then
`parents[(nx, ny)] = (x, y)` and the append to the worklist. -/
def dirStep (maze : Grid) (w h : Int) (cur : Cell) (qp : List Cell × Parents)
    (d : Cell) : Option (List Cell × Parents) :=
  let n : Cell := (cur.1 + d.1, cur.2 + d.2)
  if 0 ≤ n.1 ∧ n.1 < w ∧ 0 ≤ n.2 ∧ n.2 < h then
    match maze n with
    | none => none
    | some v =>
        if v ≠ St.wall ∧ (lookupA qp.2 n).isNone then
          some (qp.1 ++ [n], setA qp.2 n (some cur))
        else
          some qp
  else
    some qp

/-- The whole neighbour loop body shared verbatim by `bfs` and `dfs`. -/
def searchStep (maze : Grid) (w h : Int) (cur : Cell)
    (qp : List Cell × Parents) : Option (List Cell × Parents) :=
  List.foldlM (dirStep maze w h cur) qp dirs

/-- Loop state of `bfs`/`dfs`: the maze dict (carried through the loop, so that
its invariance—the absence of mutation—is a provable statement), the worklist
(`queue` resp. `stack`) and the predecessor dict. -/
structure SState where
  maze : Grid
  frontier : List Cell
  parents : Parents

/-- The `while queue:` loop of `bfs` (src/app.py lines 55-63): pop from the
front (`popleft`), break on the goal, else run the neighbour loop. -/
def bfsAux (goal : Cell) (w h : Int) : Nat → SState → Option SState
  | 0, _ => none
  | f + 1, s =>
    match s.frontier with
    | [] => some s
    | c :: rest =>
        if c = goal then some s
        else
          match searchStep s.maze w h c (rest, s.parents) with
          | none => none
          | some (q, p) => bfsAux goal w h f ⟨s.maze, q, p⟩

/-- BFS solver (src/app.py lines 51-69).  `none` models a raised `KeyError`
(it cannot arise on a dense grid, see the safety claim). -/
def bfs (maze : Grid) (start goal : Cell) (w h : Int) : Option (List Cell) := do
  let s ← bfsAux goal w h (5 * (w.toNat * h.toNat) + 2) ⟨maze, [start], [(start, none)]⟩
  reconstructO s.parents goal

/-- The `while stack:` loop of `dfs` (src/app.py lines 76-84): pop from the
back (`stack.pop()`), break on the goal, else the identical neighbour loop. -/
def dfsAux (goal : Cell) (w h : Int) : Nat → SState → Option SState
  | 0, _ => none
  | f + 1, s =>
    match s.frontier.getLast? with
    | none => some s
    | some c =>
        if c = goal then some s
        else
          match searchStep s.maze w h c (s.frontier.dropLast, s.parents) with
          | none => none
          | some (q, p) => dfsAux goal w h f ⟨s.maze, q, p⟩

/-- DFS solver (src/app.py lines 73-90). -/
def dfs (maze : Grid) (start goal : Cell) (w h : Int) : Option (List Cell) := do
  let s ← dfsAux goal w h (5 * (w.toNat * h.toNat) + 2) ⟨maze, [start], [(start, none)]⟩
  reconstructO s.parents goal

/-- Python tuple order on heap entries `(f, (x, y))`: compare `f`, then `x`,
then `y`.  This is the total order `heapq` pops minima of. -/
def tupLe (a b : Nat × Cell) : Prop :=
  a.1 < b.1 ∨ (a.1 = b.1 ∧ (a.2.1 < b.2.1 ∨ (a.2.1 = b.2.1 ∧ a.2.2 ≤ b.2.2)))

instance (a b : Nat × Cell) : Decidable (tupLe a b) := by
  unfold tupLe; infer_instance

/-- The heap model of `heapq.heappush`: ordered insertion into the list kept
sorted by the Python tuple order.  The multiset of entries and the identity of
the popped minimum agree with the binary heap of `heapq`. -/
def hpush : List (Nat × Cell) → Nat × Cell → List (Nat × Cell)
  | [], e => [e]
  | x :: rest, e => if tupLe e x then e :: x :: rest else x :: hpush rest e

/-- Loop state of `astar`: maze dict, heap (`open_set`), cost dict `g`, and the
predecessor dict. -/
structure AState where
  maze : Grid
  frontier : List (Nat × Cell)
  g : List (Cell × Nat)
  parents : Parents

/-- One iteration of the neighbour loop of `astar` (src/app.py lines 103-111):
bounds check, maze access, wall check, then `new_cost = g[current] + 1` (the
access that raises when `current` has no cost entry), the relaxation test
`(nx, ny) not in g or new_cost < g[(nx, ny)]`, and on success the three updates
`g[...] = new_cost`, `heappush(open_set, (f, ...))`, `parents[...] = current`. -/
def relaxDir (w h : Int) (goal cur : Cell) (s : AState) (d : Cell) :
    Option AState :=
  let n : Cell := (cur.1 + d.1, cur.2 + d.2)
  if 0 ≤ n.1 ∧ n.1 < w ∧ 0 ≤ n.2 ∧ n.2 < h then
    match s.maze n with
    | none => none
    | some v =>
        if v ≠ St.wall then
          match lookupA s.g cur with
          | none => none
          | some gc =>
              let newCost := gc + 1
              let doUpd : Bool :=
                match lookupA s.g n with
                | none => true
                | some gn => decide (newCost < gn)
              if doUpd then
                let fv := newCost + ((n.1 - goal.1).natAbs + (n.2 - goal.2).natAbs)
                some { s with
                        g := setA s.g n newCost,
                        frontier := hpush s.frontier (fv, n),
                        parents := setA s.parents n (some cur) }
              else some s
        else some s
  else some s

/-- The `while open_set:` loop of `astar` (src/app.py lines 98-111): pop the
minimum entry, break on the goal, else relax the four neighbours. -/
def astarAux (goal : Cell) (w h : Int) : Nat → AState → Option AState
  | 0, _ => none
  | f + 1, s =>
    match s.frontier with
    | [] => some s
    | (_, cur) :: rest =>
        if cur = goal then some s
        else
          match List.foldlM (relaxDir w h goal cur) { s with frontier := rest } dirs with
          | none => none
          | some s2 => astarAux goal w h f s2

/-- A* solver (src/app.py lines 94-117). -/
def astar (maze : Grid) (start goal : Cell) (w h : Int) : Option (List Cell) := do
  let a := w.toNat * h.toNat
  let s ← astarAux goal w h ((a + 2) * (a + 3) + 2)
    ⟨maze, [(0, start)], [(start, 0)], [(start, none)]⟩
  reconstructO s.parents goal

/-- The symbol chosen for one cell by `render_maze` (src/app.py lines 125-134),
with the source's test order: path marker first (guarded by `path` being
nonempty and the cell being neither start nor goal), then start, then goal,
then the maze access deciding wall/empty (the only access, and it raises on a
missing key). -/
def symCell (maze : Grid) (path : List Cell) (start goal : Cell) (c : Cell) :
    Option Disp :=
  if path ≠ [] ∧ c ∈ path ∧ (c ≠ start ∧ c ≠ goal) then some Disp.pathS
  else if c = start then some Disp.startS
  else if c = goal then some Disp.goalS
  else
    match maze c with
    | none => none
    | some v => if v = St.wall then some Disp.wallS else some Disp.emptyS

/-- One step of the inner `for x in range(width)` loop of `render_maze`:
`grid += symbol`.  The maze travels through the fold state so that its
invariance is a provable statement. -/
def renderStep (path : List Cell) (start goal : Cell) (st : Grid × List Disp)
    (c : Cell) : Option (Grid × List Disp) :=
  (symCell st.1 path start goal c).map (fun s => (st.1, st.2 ++ [s]))

/-- One iteration of the outer `for y in range(height)` loop of `render_maze`:
the whole row, then `grid += "\n"`. -/
def renderRow (path : List Cell) (start goal : Cell) (w : Int)
    (st : Grid × List Disp) (y : Int) : Option (Grid × List Disp) :=
  (List.foldlM (fun st2 x => renderStep path start goal st2 (x, y)) st
      ((List.range w.toNat).map (fun n : Nat => (n : Int)))).map
    (fun st2 => (st2.1, st2.2 ++ [Disp.newlineS]))

/-- The double loop of `render_maze` over `y` then `x` (src/app.py
lines 122-135), returning the final fold state. -/
def renderRun (maze : Grid) (w h : Int) (path : List Cell) (start goal : Cell) :
    Option (Grid × List Disp) :=
  List.foldlM (renderRow path start goal w) (maze, [])
    ((List.range h.toNat).map (fun n : Nat => (n : Int)))

/-- Renderer (src/app.py lines 121-136), as the produced list of symbols. -/
def render_maze (maze : Grid) (w h : Int) (path : List Cell)
    (start goal : Cell) : Option (List Disp) :=
  (renderRun maze w h path start goal).map Prod.snd

/-- Carving state of `generate_maze`: the maze dict, the `visited` set, and the
number of bounded pseudorandom draws consumed so far. -/
structure CState where
  maze : Grid
  visited : Finset Cell
  pos : Nat

/-- The candidate list of the carver (src/app.py lines 20-28): up, down, left,
right neighbour rooms at distance 2 with their connecting wall cells, kept in
the source's order, filtered by the interior bounds and the `visited` test. -/
def carveNbrs (w h : Int) (x y : Int) (visited : Finset Cell) :
    List (Cell × Cell) :=
  (if 1 < y ∧ ((x, y - 2) : Cell) ∉ visited then [(((x, y - 2) : Cell), ((x, y - 1) : Cell))] else []) ++
  (if y < h - 2 ∧ ((x, y + 2) : Cell) ∉ visited then [(((x, y + 2) : Cell), ((x, y + 1) : Cell))] else []) ++
  (if 1 < x ∧ ((x - 2, y) : Cell) ∉ visited then [(((x - 2, y) : Cell), ((x - 1, y) : Cell))] else []) ++
  (if x < w - 2 ∧ ((x + 2, y) : Cell) ∉ visited then [(((x + 2, y) : Cell), ((x + 1, y) : Cell))] else [])

mutual

/-- The recursive `visit(x, y)` of `generate_maze` (src/app.py lines 17-35):
mark the room empty, then run the `while True:` selection loop. -/
def carveVisit (ρ : Nat → Nat) (w h : Int) : Nat → Cell → CState → Option CState
  | 0, _, _ => none
  | f + 1, c, s => carveLoop ρ w h f c { s with maze := setCell s.maze c St.empty }

/-- The `while True:` loop inside `visit` (src/app.py lines 19-35): build the
candidate list; return when it is empty; else choose a candidate with
`random.choice`, carve the connecting wall, mark the neighbour room visited,
and recurse into it before iterating again. -/
def carveLoop (ρ : Nat → Nat) (w h : Int) : Nat → Cell → CState → Option CState
  | 0, _, _ => none
  | f + 1, c, s =>
    let ns := carveNbrs w h c.1 c.2 s.visited
    if hne : ns = [] then some s
    else
      let pick := ns.get ⟨ρ s.pos % ns.length, Nat.mod_lt _ (List.length_pos.mpr hne)⟩
      let s1 : CState :=
        { maze := setCell s.maze pick.2 St.empty,
          visited := insert pick.1 s.visited,
          pos := s.pos + 1 }
      match carveVisit ρ w h f pick.1 s1 with
      | none => none
      | some s2 => carveLoop ρ w h f c s2

end

/-- The loop-injection phase (src/app.py lines 41-45): `loops` iterations, each
drawing `x = randrange(1, width-1)` and `y = randrange(1, height-1)` and
converting the cell to `EMPTY` when it is currently `WALL`.  The dict access
`maze[(x, y)]` raises (`none`) on a missing key. -/
def loopInject (ρ : Nat → Nat) (w h : Int) : Nat → Grid → Nat → Option (Grid × Nat)
  | 0, g, pos => some (g, pos)
  | k + 1, g, pos =>
    let x : Int := 1 + (ρ pos % (w - 2).toNat : Nat)
    let y : Int := 1 + (ρ (pos + 1) % (h - 2).toNat : Nat)
    match g (x, y) with
    | none => none
    | some v =>
        loopInject ρ w h k (if v = St.wall then setCell g (x, y) St.empty else g) (pos + 2)

/-- The state of the module-level `random` generator: the stream of bounded
draws it will produce and the position of the next draw. -/
abbrev RandomState : Type := (Nat → Nat) × Nat

/-- Maze generator (src/app.py lines 13-47).  `f` is the pseudorandom family
(see the module docstring); `σ` is the state of the global `random` generator
before the call, which `random.seed(seed)` on line 14 overwrites.  Returns the
maze dict and the global generator state left behind. -/
def generate_maze (f : Nat → Nat → Nat) (width height : Int) (seed : Nat)
    (loops : Nat) (σ : RandomState) : Option (Grid × RandomState) :=
  let ρ : Nat → Nat := f seed
  let maze0 : Grid := fun c => if c ∈ rectI width height then some St.wall else none
  match carveVisit ρ width height (2 * (width.toNat * height.toNat) + 2) (1, 1)
      ⟨maze0, {((1 : Int), (1 : Int))}, 0⟩ with
  | none => none
  | some s =>
    match loopInject ρ width height loops s.maze s.pos with
    | none => none
    | some (g2, pos2) => some (g2, (ρ, pos2))

/-- Two cells are 4-directionally adjacent. -/
def adj4 (c d : Cell) : Prop :=
  d = (c.1 + 1, c.2) ∨ d = (c.1 - 1, c.2) ∨ d = (c.1, c.2 + 1) ∨ d = (c.1, c.2 - 1)

/-- The cell is EMPTY in the grid. -/
def okE (g : Grid) (c : Cell) : Prop := g c = some St.empty

/-- The cell passes the solvers' neighbour guard: in bounds and not a wall
(src/app.py line 61). -/
def okG (g : Grid) (w h : Int) (c : Cell) : Prop :=
  (0 ≤ c.1 ∧ c.1 < w ∧ 0 ≤ c.2 ∧ c.2 < h) ∧ g c ≠ some St.wall

/-- Reachability through EMPTY cells: a 4-adjacent chain of EMPTY cells from
`s` (itself EMPTY) to the target. -/
inductive ReachE (g : Grid) (s : Cell) : Cell → Prop where
  | refl : okE g s → ReachE g s s
  | step {c d : Cell} : ReachE g s c → adj4 c d → okE g d → ReachE g s d

/-- Reachability as the solvers explore it: from `s` (whose own state is never
examined) through cells passing the neighbour guard. -/
inductive ReachG (g : Grid) (w h : Int) (s : Cell) : Cell → Prop where
  | refl : ReachG g w h s s
  | step {c d : Cell} : ReachG g w h s c → adj4 c d → okG g w h d → ReachG g w h s d

/-- A valid path from `s` to `t`: nonempty, starts at `s`, ends at `t`,
consecutive cells 4-adjacent, every cell EMPTY (spec §3, Path). -/
def ValidPathE (g : Grid) (s t : Cell) (p : List Cell) : Prop :=
  p.head? = some s ∧ p.getLast? = some t ∧ List.Chain' adj4 p ∧ ∀ c ∈ p, okE g c

/-- The rooms of the maze lattice: both coordinates odd, inside the interior
`[1, w-2] × [1, h-2]` (spec §4.2 and glossary). -/
def roomSet (w h : Int) : Finset Cell :=
  (rectI w h).filter (fun c => c.1 % 2 = 1 ∧ c.2 % 2 = 1 ∧
    1 ≤ c.1 ∧ c.1 ≤ w - 2 ∧ 1 ≤ c.2 ∧ c.2 ≤ h - 2)


/-- The position of the first entry for key `c` (the list length if absent). -/
def idxA {α : Type} : List (Cell × α) → Cell → Nat
  | [], _ => 0
  | (k, _) :: rest, c => if c = k then 0 else idxA rest c + 1
/-! ### The reconstruction walk -/

/-- The exact cell sequence the backtracking walk visits from `c`: `c` first,
then its predecessor chain, ending at the cell whose stored predecessor is
`None` (or that has no entry). -/
inductive PChain (parents : Parents) : Cell → List Cell → Prop where
  | last {c : Cell} : (lookupA parents c).join = none → PChain parents c [c]
  | cons {c p : Cell} {l : List Cell} :
      (lookupA parents c).join = some p → PChain parents p l →
      PChain parents c (c :: l)
/-! ### The renderer -/

/-- The symbol the spec's precedence (start, then goal, then path, then wall,
then empty) assigns to a cell of a dense grid. -/
def specSymD (maze : Grid) (path : List Cell) (start goal : Cell) (c : Cell) : Disp :=
  if c = start then Disp.startS
  else if c = goal then Disp.goalS
  else if c ∈ path then Disp.pathS
  else if maze c = some St.wall then Disp.wallS
  else Disp.emptyS

/-- The solver invariant on the predecessor dict: the start maps to `None`,
only the start does, every other entry points to an earlier entry (so chains
terminate at the start), every recorded cell passed the neighbour guard and is
adjacent to its predecessor, and every key is reachable from the start. -/
structure PInv (maze : Grid) (w h : Int) (start : Cell) (parents : Parents) : Prop where
  hstart : lookupA parents start = some none
  hnone : ∀ c : Cell, lookupA parents c = some none → c = start
  hwf : ∀ c p : Cell, lookupA parents c = some (some p) →
      (lookupA parents p).isSome ∧ idxA parents p < idxA parents c
  hsound : ∀ c p : Cell, lookupA parents c = some (some p) →
      adj4 p c ∧ okG maze w h c
  hreach : ∀ c : Cell, (lookupA parents c).isSome → ReachG maze w h start c
/-! ### Fuel sufficiency for `bfs` and `dfs` -/

/-- The number of rectangle cells without a predecessor entry: the solver
loop's termination measure component. -/
def unseenN (w h : Int) (parents : Parents) : Nat :=
  ((rectI w h).filter (fun c => lookupA parents c = none)).card
/-! ### From the invariant to properties of the reconstructed path -/

/-- The part of a solver invariant that path reconstruction needs, abstracted
over a measure `μ` that parent links strictly decrease (list position for
`bfs`/`dfs`; the `g` cost for `astar`). -/
structure ChainInv (maze : Grid) (w h : Int) (start : Cell) (parents : Parents)
    (mu : Cell → Nat) : Prop where
  hstart : lookupA parents start = some none
  hnone : ∀ c : Cell, lookupA parents c = some none → c = start
  hwf : ∀ c p : Cell, lookupA parents c = some (some p) →
      (lookupA parents p).isSome ∧ mu p < mu c
  hsound : ∀ c p : Cell, lookupA parents c = some (some p) →
      adj4 p c ∧ okG maze w h c
  hmule : ∀ c : Cell, mu c ≤ parents.length

/-- The Manhattan heuristic `abs(nx - goal[0]) + abs(ny - goal[1])` of
src/app.py line 109. -/
def hman (goal c : Cell) : Nat :=
  (c.1 - goal.1).natAbs + (c.2 - goal.2).natAbs

/-- The state-independent core of the `astar` loop invariant. -/
structure ACore (w h : Int) (start goal : Cell) (s : AState) : Prop where
  hg0 : lookupA s.g start = some 0
  hpstart : lookupA s.parents start = some none
  hpnone : ∀ c : Cell, lookupA s.parents c = some none → c = start
  hdom : ∀ c : Cell, (lookupA s.g c).isSome ↔ (lookupA s.parents c).isSome
  hlen : s.g.length = s.parents.length
  hnodup : (keysA s.g).Nodup
  hrect : ∀ c : Cell, (lookupA s.g c).isSome → c = start ∨ c ∈ rectI w h
  hval : ∀ c gv, lookupA s.g c = some gv → gv + 1 ≤ s.g.length
  hopen : ∀ e ∈ s.frontier, ∃ gv, lookupA s.g e.2 = some gv ∧
      (gv + hman goal e.2 ≤ e.1 ∨ (e.2 = start ∧ e.1 = 0))
  hsorted : List.Pairwise tupLe s.frontier
  hwfg : ∀ c p : Cell, lookupA s.parents c = some (some p) →
      ∃ gc gp, lookupA s.g c = some gc ∧ lookupA s.g p = some gp ∧ gp < gc
  hsound : ∀ c p : Cell, lookupA s.parents c = some (some p) →
      adj4 p c ∧ okG s.maze w h c
  hreach : ∀ c : Cell, (lookupA s.g c).isSome → ReachG s.maze w h start c

/-- The expansion progress disjunction: the cell has a heap entry matching its
current cost, or all its guard-passing neighbours have been relaxed from its
current cost, or it is the start with its initial `(0, start)` entry intact. -/
def AProg (w h : Int) (start goal : Cell) (s : AState) (c : Cell) (gv : Nat) : Prop :=
  (∃ fv, (fv, c) ∈ s.frontier ∧ fv = gv + hman goal c) ∨
  (∀ d ∈ dirs, okG s.maze w h (c.1 + d.1, c.2 + d.2) →
    ∃ gn, lookupA s.g (c.1 + d.1, c.2 + d.2) = some gn ∧ gn ≤ gv + 1) ∨
  (c = start ∧ (0, start) ∈ s.frontier)

/-- The full `astar` loop invariant, holding at the top of each iteration. -/
structure AInv (w h : Int) (start goal : Cell) (s : AState) : Prop where
  core : ACore w h start goal s
  hprog : ∀ c gv, lookupA s.g c = some gv → AProg w h start goal s c gv

/-- The invariant in the middle of one iteration: the popped cell `cur` (with
cost `gc0`) is exempt from the progress disjunction, and the directions in
`done` have already been relaxed from it. -/
structure AMid (w h : Int) (start goal cur : Cell) (gc0 : Nat) (done : List Cell)
    (s : AState) : Prop where
  core : ACore w h start goal s
  hcur : lookupA s.g cur = some gc0
  hprog2 : ∀ c gv, lookupA s.g c = some gv → c ≠ cur → AProg w h start goal s c gv
  hdone : ∀ d ∈ done, okG s.maze w h (cur.1 + d.1, cur.2 + d.2) →
      ∃ gn, lookupA s.g (cur.1 + d.1, cur.2 + d.2) = some gn ∧ gn ≤ gc0 + 1
/-! ### Fuel sufficiency for `astar` -/

/-- Termination potential of the `astar` loop: `K` per undiscovered rectangle
cell, plus the sum of all current costs, plus the heap size. -/
def potA (w h : Int) (K : Nat) (s : AState) : Nat :=
  K * ((rectI w h).filter (fun c => lookupA s.g c = none)).card +
  (s.g.map Prod.snd).sum + s.frontier.length

/-- The ghost invariant behind BFS optimality: `dm` is a breadth-first
distance label.  The start is labelled 0, every entry's label is its
predecessor's label plus one, queue labels are sorted and spread at most one
apart, labels of already-popped cells never exceed queue labels, and every
keyed cell is either still queued or fully expanded with labels at most one
larger on its neighbours. -/
structure BOpt (w h : Int) (start : Cell) (dm : Cell → Nat) (s : SState) :
    Prop where
  hstart0 : dm start = 0
  hstart : lookupA s.parents start = some none
  hfr : ∀ c ∈ s.frontier, (lookupA s.parents c).isSome
  hpar : ∀ c p, lookupA s.parents c = some (some p) →
    (lookupA s.parents p).isSome ∧ dm c = dm p + 1
  hsorted : s.frontier.Pairwise (fun a b => dm a ≤ dm b)
  hspread : ∀ a ∈ s.frontier, ∀ b ∈ s.frontier, dm b ≤ dm a + 1
  hmono : ∀ c, (lookupA s.parents c).isSome → c ∉ s.frontier →
    ∀ b ∈ s.frontier, dm c ≤ dm b
  hprog : ∀ c, (lookupA s.parents c).isSome → c ∈ s.frontier ∨
    ∀ d, adj4 c d → okG s.maze w h d →
      (lookupA s.parents d).isSome ∧ dm d ≤ dm c + 1
  hdmle : ∀ c, (lookupA s.parents c).isSome → dm c ≤ s.parents.length
/-! ### DFS completeness: every keyed cell is queued or fully expanded -/

structure DProg (w h : Int) (s : SState) : Prop where
  hfr : ∀ c ∈ s.frontier, (lookupA s.parents c).isSome
  hprog : ∀ c, (lookupA s.parents c).isSome → c ∈ s.frontier ∨
    ∀ d, adj4 c d → okG s.maze w h d → (lookupA s.parents d).isSome
/-! ### The carving phase: invariants and termination -/

def emptyNonRoom (w h : Int) (g : Grid) : Finset Cell :=
  (rectI w h).filter (fun c => g c = some St.empty ∧ c ∉ roomSet w h)

/-- All four lattice neighbours of a room are visited (or out of the
interior): exactly the condition under which the carver's candidate list at
that room is empty. -/
def closedRoom (w h : Int) (r : Cell) (V : Finset Cell) : Prop :=
  (1 < r.2 → ((r.1, r.2 - 2) : Cell) ∈ V) ∧
  (r.2 < h - 2 → ((r.1, r.2 + 2) : Cell) ∈ V) ∧
  (1 < r.1 → ((r.1 - 2, r.2) : Cell) ∈ V) ∧
  (r.1 < w - 2 → ((r.1 + 2, r.2) : Cell) ∈ V)

/-- The carving invariant: visited cells are rooms, `(1,1)` is visited, the
dict is dense on the rectangle, a room is EMPTY exactly when visited, every
EMPTY non-room cell is a connector wall between two visited rooms, the number
of carved connector walls is the number of visited rooms minus one, and every
EMPTY cell is reachable from `(1,1)` through EMPTY cells. -/
structure CInv (w h : Int) (s : CState) : Prop where
  hvis : s.visited ⊆ roomSet w h
  hone : ((1 : Int), (1 : Int)) ∈ s.visited
  hdense : ∀ x : Cell, (s.maze x).isSome ↔ x ∈ rectI w h
  hroomE : ∀ r ∈ roomSet w h, (s.maze r = some St.empty ↔ r ∈ s.visited)
  hwallE : ∀ x : Cell, s.maze x = some St.empty → x ∉ roomSet w h →
    (x.1 % 2 = 1 ∧ ((x.1, x.2 - 1) : Cell) ∈ s.visited ∧
      ((x.1, x.2 + 1) : Cell) ∈ s.visited) ∨
    (x.2 % 2 = 1 ∧ ((x.1 - 1, x.2) : Cell) ∈ s.visited ∧
      ((x.1 + 1, x.2) : Cell) ∈ s.visited)
  hcount : (emptyNonRoom w h s.maze).card + 1 = s.visited.card
  hconn : ∀ x : Cell, s.maze x = some St.empty → ReachE s.maze (1, 1) x
/-! ### Concrete grids for witnesses and counterexamples -/

/-- The all-wall 3×3 grid. -/
def gridWall3 : Grid :=
  fun c => if c ∈ rectI 3 3 then some St.wall else none

/-- The 3×3 grid whose every cell is EMPTY. -/
def gridOpen3 : Grid :=
  fun c => if c ∈ rectI 3 3 then some St.empty else none

/-- The 3×3 grid with a single EMPTY cell at `(1, 1)`, walls elsewhere: the
goal `(2, 2)` is walled off. -/
def gridWalled3 : Grid :=
  fun c => if c ∈ rectI 3 3 then
    some (if c = ((1 : Int), (1 : Int)) then St.empty else St.wall) else none
/-! ### Association-list lemmas -/

theorem lookupA_setA_self {α : Type} (l : List (Cell × α)) (c : Cell) (v : α) :
    lookupA (setA l c v) c = some v := by
  induction l with
  | nil => simp [setA, lookupA]
  | cons kv rest ih =>
      obtain ⟨k, w⟩ := kv
      by_cases hck : c = k
      · subst hck; simp [setA, lookupA]
      · simp [setA, lookupA, hck, ih]

theorem lookupA_setA_ne {α : Type} (l : List (Cell × α)) (c d : Cell) (v : α)
    (h : d ≠ c) : lookupA (setA l c v) d = lookupA l d := by
  induction l with
  | nil => simp [setA, lookupA, h]
  | cons kv rest ih =>
      obtain ⟨k, w⟩ := kv
      by_cases hck : c = k
      · subst hck; simp [setA, lookupA, h]
      · by_cases hdk : d = k
        · subst hdk; simp [setA, lookupA, hck]
        · simp [setA, lookupA, hck, hdk, ih]

theorem setA_of_not_mem {α : Type} (l : List (Cell × α)) (c : Cell) (v : α)
    (h : lookupA l c = none) : setA l c v = l ++ [(c, v)] := by
  induction l with
  | nil => simp [setA]
  | cons kv rest ih =>
      obtain ⟨k, w⟩ := kv
      by_cases hck : c = k
      · subst hck; simp [lookupA] at h
      · simp [lookupA, hck] at h
        simp [setA, hck, ih h]

theorem length_setA {α : Type} (l : List (Cell × α)) (c : Cell) (v : α) :
    (setA l c v).length = if (lookupA l c).isNone then l.length + 1 else l.length := by
  induction l with
  | nil => simp [setA, lookupA]
  | cons kv rest ih =>
      obtain ⟨k, w⟩ := kv
      by_cases hck : c = k
      · subst hck; simp [setA, lookupA]
      · simp [setA, lookupA, hck, ih]
        rcases hr : lookupA rest c with _ | v2 <;> simp [hr, hck]

theorem idxA_le_length {α : Type} (l : List (Cell × α)) (c : Cell) :
    idxA l c ≤ l.length := by
  induction l with
  | nil => simp [idxA]
  | cons kv rest ih =>
      obtain ⟨k, w⟩ := kv
      by_cases hck : c = k <;> simp [idxA, hck, Nat.succ_le_succ ih]

theorem idxA_append_left {α : Type} (l t : List (Cell × α)) (c : Cell)
    (h : lookupA l c ≠ none) : idxA (l ++ t) c = idxA l c := by
  induction l with
  | nil => simp [lookupA] at h
  | cons kv rest ih =>
      obtain ⟨k, w⟩ := kv
      by_cases hck : c = k
      · simp [idxA, hck]
      · simp [lookupA, hck] at h
        simp [idxA, hck, ih h]

theorem idxA_append_fresh {α : Type} (l : List (Cell × α)) (c : Cell) (v : α)
    (h : lookupA l c = none) : idxA (l ++ [(c, v)]) c = l.length := by
  induction l with
  | nil => simp [idxA]
  | cons kv rest ih =>
      obtain ⟨k, w⟩ := kv
      by_cases hck : c = k
      · subst hck; simp [lookupA] at h
      · simp [lookupA, hck] at h
        simp [idxA, hck, ih h]

theorem lookupA_append_left {α : Type} (l t : List (Cell × α)) (c : Cell)
    (h : lookupA l c ≠ none) : lookupA (l ++ t) c = lookupA l c := by
  induction l with
  | nil => simp [lookupA] at h
  | cons kv rest ih =>
      obtain ⟨k, w⟩ := kv
      by_cases hck : c = k
      · simp [lookupA, hck]
      · simp [lookupA, hck] at h ⊢; exact ih h

theorem lookupA_append_fresh {α : Type} (l : List (Cell × α)) (c : Cell) (v : α)
    (h : lookupA l c = none) : lookupA (l ++ [(c, v)]) c = some v := by
  induction l with
  | nil => simp [lookupA]
  | cons kv rest ih =>
      obtain ⟨k, w⟩ := kv
      by_cases hck : c = k
      · subst hck; simp [lookupA] at h
      · simp [lookupA, hck] at h ⊢; exact ih h

theorem lookupA_append_other {α : Type} (l : List (Cell × α)) (c d : Cell) (v : α)
    (h : d ≠ c) : lookupA (l ++ [(c, v)]) d = lookupA l d := by
  induction l with
  | nil => simp [lookupA, h]
  | cons kv rest ih =>
      obtain ⟨k, w⟩ := kv
      by_cases hdk : d = k
      · simp [lookupA, hdk]
      · simp [lookupA, hdk] at ih ⊢; exact ih


theorem PChain_ne_nil {parents : Parents} {c : Cell} {l : List Cell}
    (h : PChain parents c l) : l ≠ [] := by
  cases h <;> simp

theorem PChain_head {parents : Parents} {c : Cell} {l : List Cell}
    (h : PChain parents c l) : l.head? = some c := by
  cases h <;> simp

theorem reconWalk_of_PChain {parents : Parents} {c : Cell} {l : List Cell}
    (h : PChain parents c l) :
    ∀ fuel acc, l.length ≤ fuel →
      reconWalk fuel parents (some c) acc = some (acc ++ l) := by
  induction h with
  | last hnone =>
      intro fuel acc hf
      match fuel, hf with
      | f + 1, _ => rw [reconWalk, hnone, reconWalk]
  | @cons c2 p2 l2 hsome htail ih =>
      intro fuel acc hf
      match fuel, hf with
      | f + 1, hf =>
          have hlen : l2.length ≤ f := by simpa using hf
          rw [reconWalk, hsome, ih f (acc ++ [c2]) hlen]
          simp

theorem reconstructO_eq_of_PChain {parents : Parents} {goal : Cell}
    {l : List Cell} (h : PChain parents goal l)
    (hlen : l.length ≤ parents.length + 1) :
    reconstructO parents goal = some l.reverse := by
  unfold reconstructO
  rw [reconWalk_of_PChain h (parents.length + 1) [] hlen]
  simp

/-- Walk a predecessor map whose links strictly decrease a measure: the chain
exists and its length is bounded by the measure. -/
theorem exists_PChain (parents : Parents) (μ : Cell → Nat)
    (hμ : ∀ c p, (lookupA parents c).join = some p → μ p < μ c) (c : Cell) :
    ∃ l, PChain parents c l ∧ l.length ≤ μ c + 1 := by
  have H : ∀ n c, μ c < n → ∃ l, PChain parents c l ∧ l.length ≤ μ c + 1 := by
    intro n
    induction n with
    | zero => intro c2 hc; omega
    | succ n ih =>
        intro c2 hc
        match hj : (lookupA parents c2).join with
        | none => exact ⟨[c2], PChain.last hj, by simp⟩
        | some p =>
            have hp := hμ c2 p hj
            obtain ⟨l, hl, hlen⟩ := ih p (by omega)
            exact ⟨c2 :: l, PChain.cons hj hl, by simp only [List.length_cons]; omega⟩
  exact H (μ c + 1) c (Nat.lt_succ_self _)

/-- If the goal has no entry at all, the walk yields the one-cell list. -/
theorem reconstructO_no_entry (parents : Parents) (goal : Cell)
    (h : lookupA parents goal = none) :
    reconstructO parents goal = some [goal] := by
  have : PChain parents goal [goal] := PChain.last (by simp [h])
  simpa using reconstructO_eq_of_PChain this (by simp)

/-! ### The loop-injection phase -/

theorem loopInject_spec (ρ : Nat → Nat) (w h : Int) (hw : 3 ≤ w) (hh : 3 ≤ h) :
    ∀ (n : Nat) (g : Grid) (pos : Nat) (g2 : Grid) (pos2 : Nat),
      loopInject ρ w h n g pos = some (g2, pos2) →
      (∀ c : Cell, g c = some St.empty → g2 c = some St.empty) ∧
      (∀ c : Cell, g2 c ≠ g c → g c = some St.wall ∧ g2 c = some St.empty ∧
        1 ≤ c.1 ∧ c.1 ≤ w - 2 ∧ 1 ≤ c.2 ∧ c.2 ≤ h - 2) ∧
      ((rectI w h).filter (fun c => g2 c ≠ g c)).card ≤ n := by
  intro n
  induction n with
  | zero =>
      intro g pos g2 pos2 hrun
      simp [loopInject] at hrun
      obtain ⟨hg, _⟩ := hrun
      subst hg
      refine ⟨fun c hc => hc, fun c hc => absurd rfl hc, ?_⟩
      simp
  | succ n ih =>
      intro g pos g2 pos2 hrun
      rw [loopInject] at hrun
      set x : Int := 1 + (ρ pos % (w - 2).toNat : Nat) with hxdef
      set y : Int := 1 + (ρ (pos + 1) % (h - 2).toNat : Nat) with hydef
      have hxlo : 1 ≤ x := by
        rw [hxdef]; omega
      have hylo : 1 ≤ y := by
        rw [hydef]; omega
      have hxhi : x ≤ w - 2 := by
        have h1 : ρ pos % (w - 2).toNat < (w - 2).toNat :=
          Nat.mod_lt _ (by omega)
        rw [hxdef]; omega
      have hyhi : y ≤ h - 2 := by
        have h1 : ρ (pos + 1) % (h - 2).toNat < (h - 2).toNat :=
          Nat.mod_lt _ (by omega)
        rw [hydef]; omega
      match hv : g (x, y) with
      | none => rw [hv] at hrun; exact absurd hrun (by simp)
      | some v =>
          rw [hv] at hrun
          set g1 : Grid := if v = St.wall then setCell g (x, y) St.empty else g with hg1
          have hmono : ∀ c : Cell, g c = some St.empty → g1 c = some St.empty := by
            intro c hc
            rw [hg1]
            by_cases hvw : v = St.wall
            · simp only [hvw, if_pos rfl]
              unfold setCell
              by_cases hcx : c = (x, y)
              · simp [hcx]
              · simp [hcx, hc]
            · simp [hvw, hc]
          have hchg : ∀ c : Cell, g1 c ≠ g c →
              c = (x, y) ∧ g c = some St.wall ∧ g1 c = some St.empty := by
            intro c hc
            rw [hg1] at hc ⊢
            by_cases hvw : v = St.wall
            · simp only [hvw, if_pos rfl] at hc ⊢
              unfold setCell at hc ⊢
              by_cases hcx : c = (x, y)
              · exact ⟨hcx, by rw [hcx, hv, hvw], by simp [hcx]⟩
              · simp [hcx] at hc
            · simp [hvw] at hc
          obtain ⟨ih1, ih2, ih3⟩ := ih g1 (pos + 2) g2 pos2 hrun
          refine ⟨fun c hc => ih1 c (hmono c hc), ?_, ?_⟩
          · intro c hc
            by_cases h1c : g1 c = g c
            · have h2 : g2 c ≠ g1 c := by rw [h1c]; exact hc
              obtain ⟨hw1, he1, hb⟩ := ih2 c h2
              exact ⟨by rw [← h1c]; exact hw1, he1, hb⟩
            · obtain ⟨hcx, hwall, hemp⟩ := hchg c h1c
              refine ⟨hwall, ih1 c hemp, ?_⟩
              rw [hcx]; exact ⟨hxlo, hxhi, hylo, hyhi⟩
          · have hsub : (rectI w h).filter (fun c => g2 c ≠ g c) ⊆
                ((rectI w h).filter (fun c => g2 c ≠ g1 c)) ∪ {((x, y) : Cell)} := by
              intro c hc
              simp only [Finset.mem_filter, Finset.mem_union, Finset.mem_singleton] at hc ⊢
              obtain ⟨hcr, hcne⟩ := hc
              by_cases h1c : g1 c = g c
              · exact Or.inl ⟨hcr, by rw [h1c]; exact hcne⟩
              · exact Or.inr (hchg c h1c).1
            calc ((rectI w h).filter (fun c => g2 c ≠ g c)).card
                ≤ (((rectI w h).filter (fun c => g2 c ≠ g1 c)) ∪ {((x, y) : Cell)}).card :=
                  Finset.card_le_card hsub
              _ ≤ ((rectI w h).filter (fun c => g2 c ≠ g1 c)).card + 1 := by
                  have := Finset.card_union_le
                    ((rectI w h).filter (fun c => g2 c ≠ g1 c)) ({((x, y) : Cell)})
                  simpa using this
              _ ≤ n + 1 := by omega

/-! ### Grid basics -/

theorem mem_rectI {w h : Int} {c : Cell} :
    c ∈ rectI w h ↔ 0 ≤ c.1 ∧ c.1 < w ∧ 0 ≤ c.2 ∧ c.2 < h := by
  simp only [rectI, Finset.mem_product, Finset.mem_Icc]
  omega

theorem IsGrid.some_of_mem {g : Grid} {w h : Int} (hg : IsGrid g w h) {c : Cell}
    (hc : c ∈ rectI w h) : ∃ s : St, g c = some s :=
  (hg c).1 hc

theorem IsGrid.okG_iff_okE {g : Grid} {w h : Int} (hg : IsGrid g w h) (c : Cell) :
    okG g w h c ↔ okE g c := by
  constructor
  · rintro ⟨hb, hnw⟩
    obtain ⟨s, hs⟩ := hg.some_of_mem (mem_rectI.mpr hb)
    cases s with
    | wall => exact absurd hs hnw
    | empty => exact hs
  · intro he
    have he2 : g c = some St.empty := he
    have hmem : c ∈ rectI w h := by
      by_contra hcon
      rw [(hg c).2 hcon] at he2
      exact Option.noConfusion he2
    exact ⟨mem_rectI.mp hmem, by rw [he2]; simp⟩


theorem symCell_eq_specSymD {maze : Grid} {w h : Int} (hg : IsGrid maze w h)
    (path : List Cell) (start goal c : Cell) (hc : c ∈ rectI w h) :
    symCell maze path start goal c = some (specSymD maze path start goal c) := by
  obtain ⟨s, hs⟩ := hg.some_of_mem hc
  unfold symCell specSymD
  by_cases hcs : c = start
  · simp [hcs]
  · by_cases hcg : c = goal
    · subst hcg; simp [hcs]
    · by_cases hcp : c ∈ path
      · have : path ≠ [] := List.ne_nil_of_mem hcp
        simp [hcs, hcg, hcp, this]
      · cases s with
        | wall => simp [hcs, hcg, hcp, hs]
        | empty => simp [hcs, hcg, hcp, hs]

theorem renderRow_fold {maze : Grid} {w h : Int} (hg : IsGrid maze w h)
    (path : List Cell) (start goal : Cell) (y : Int) :
    ∀ (xs : List Int) (acc : List Disp),
      (∀ x ∈ xs, ((x, y) : Cell) ∈ rectI w h) →
      List.foldlM (fun st2 x => renderStep path start goal st2 (x, y)) (maze, acc) xs =
        some (maze, acc ++ xs.map (fun x => specSymD maze path start goal (x, y))) := by
  intro xs
  induction xs with
  | nil => intro acc _; simp
  | cons x rest ih =>
      intro acc hmem
      have hx : ((x, y) : Cell) ∈ rectI w h := hmem x (by simp)
      have hrest : ∀ x2 ∈ rest, ((x2, y) : Cell) ∈ rectI w h :=
        fun x2 hx2 => hmem x2 (by simp [hx2])
      have hstep : renderStep path start goal (maze, acc) (x, y) =
          some (maze, acc ++ [specSymD maze path start goal (x, y)]) := by
        simp [renderStep, symCell_eq_specSymD hg path start goal _ hx]
      rw [List.foldlM_cons]
      simp only [hstep, Option.bind_eq_bind, Option.some_bind]
      rw [ih (acc ++ [specSymD maze path start goal (x, y)]) hrest]
      simp

theorem renderRun_eq {maze : Grid} {w h : Int} (hg : IsGrid maze w h)
    (path : List Cell) (start goal : Cell) :
    ∀ (ys : List Int) (acc : List Disp),
      (∀ y ∈ ys, 0 ≤ y ∧ y < h) →
      List.foldlM (renderRow path start goal w) (maze, acc) ys =
        some (maze, acc ++ (ys.map (fun y =>
          ((List.range w.toNat).map (fun x : Nat => specSymD maze path start goal ((x : Int), y))) ++
            [Disp.newlineS])).flatten) := by
  intro ys
  induction ys with
  | nil => intro acc _; simp
  | cons y rest ih =>
      intro acc hmem
      obtain ⟨hy0, hyh⟩ := hmem y (by simp)
      have hrest : ∀ y2 ∈ rest, 0 ≤ y2 ∧ y2 < h :=
        fun y2 hy2 => hmem y2 (by simp [hy2])
      have hxs : ∀ x ∈ (List.range w.toNat).map (fun n : Nat => (n : Int)), ((x, y) : Cell) ∈ rectI w h := by
        intro x hx
        simp only [List.mem_map, List.mem_range] at hx
        obtain ⟨k, hk, rfl⟩ := hx
        refine mem_rectI.mpr ?_
        show 0 ≤ (k : Int) ∧ (k : Int) < w ∧ 0 ≤ y ∧ y < h
        refine ⟨by omega, by omega, hy0, hyh⟩
      have hstep : renderRow path start goal w (maze, acc) y =
          some (maze, (acc ++ ((List.range w.toNat).map
            (fun x : Nat => specSymD maze path start goal ((x : Int), y)))) ++ [Disp.newlineS]) := by
        unfold renderRow
        rw [show (List.foldlM (fun st2 x => renderStep path start goal st2 (x, y)) (maze, acc)
              ((List.range w.toNat).map (fun n : Nat => (n : Int)))) =
            some (maze, acc ++ ((List.range w.toNat).map (fun n : Nat => (n : Int))).map
              (fun x => specSymD maze path start goal (x, y))) from
          renderRow_fold hg path start goal y _ acc hxs]
        simp [List.map_map, Function.comp_def]
      rw [List.foldlM_cons]
      simp only [hstep, Option.bind_eq_bind, Option.some_bind]
      rw [ih _ hrest]
      simp

/-! ### Frame lemmas: nothing writes the maze dict -/

theorem renderStep_fst {path : List Cell} {start goal : Cell}
    {st st2 : Grid × List Disp} {c : Cell}
    (h : renderStep path start goal st c = some st2) : st2.1 = st.1 := by
  unfold renderStep at h
  match hs : symCell st.1 path start goal c with
  | none => rw [hs] at h; exact absurd h (by simp)
  | some v => rw [hs] at h; simp at h; rw [← h]

theorem foldlM_fst_eq {β : Type} {f : (Grid × List Disp) → β → Option (Grid × List Disp)}
    (hf : ∀ st b st2, f st b = some st2 → st2.1 = st.1) :
    ∀ (l : List β) (st st2 : Grid × List Disp),
      List.foldlM f st l = some st2 → st2.1 = st.1 := by
  intro l
  induction l with
  | nil => intro st st2 h; simp at h; rw [h]
  | cons b rest ih =>
      intro st st2 h
      rw [List.foldlM_cons] at h
      match hs : f st b with
      | none => rw [hs] at h; exact absurd h (by simp)
      | some st1 =>
          rw [hs] at h
          simp only [Option.bind_eq_bind, Option.some_bind] at h
          rw [ih st1 st2 h, hf st b st1 hs]

theorem renderRun_fst {maze : Grid} {w h : Int} {path : List Cell}
    {start goal : Cell} {st : Grid × List Disp}
    (hrun : renderRun maze w h path start goal = some st) : st.1 = maze := by
  unfold renderRun at hrun
  refine foldlM_fst_eq ?_ _ _ _ hrun
  intro st1 y st2 h2
  unfold renderRow at h2
  match hs : List.foldlM (fun st3 x => renderStep path start goal st3 (x, y)) st1
      ((List.range w.toNat).map (fun n : Nat => (n : Int))) with
  | none => rw [hs] at h2; exact absurd h2 (by simp)
  | some st3 =>
      rw [hs] at h2
      simp at h2
      have : st3.1 = st1.1 :=
        foldlM_fst_eq (fun st b st2 h => renderStep_fst h) _ _ _ hs
      rw [← h2]; exact this

theorem searchStep_maze_free {maze : Grid} {w h : Int} {cur : Cell}
    {qp qp2 : List Cell × Parents} (h : searchStep maze w h cur qp = some qp2) :
    True := trivial

theorem bfsAux_maze {goal : Cell} {w h : Int} :
    ∀ {fuel : Nat} {s s2 : SState}, bfsAux goal w h fuel s = some s2 →
      s2.maze = s.maze := by
  intro fuel
  induction fuel with
  | zero => intro s s2 hrun; exact absurd hrun (by simp [bfsAux])
  | succ f ih =>
      intro s s2 hrun
      rw [bfsAux] at hrun
      match hq : s.frontier with
      | [] => simp only [hq] at hrun; simp at hrun; rw [← hrun]
      | c :: rest =>
          simp only [hq] at hrun
          by_cases hc : c = goal
          · rw [if_pos hc] at hrun; simp at hrun; rw [← hrun]
          · rw [if_neg hc] at hrun
            match hs : searchStep s.maze w h c (rest, s.parents) with
            | none => simp only [hs] at hrun; exact Option.noConfusion hrun
            | some (q, p) =>
                simp only [hs] at hrun
                have h2 := ih hrun
                exact h2

theorem dfsAux_maze {goal : Cell} {w h : Int} :
    ∀ {fuel : Nat} {s s2 : SState}, dfsAux goal w h fuel s = some s2 →
      s2.maze = s.maze := by
  intro fuel
  induction fuel with
  | zero => intro s s2 hrun; exact absurd hrun (by simp [dfsAux])
  | succ f ih =>
      intro s s2 hrun
      rw [dfsAux] at hrun
      match hq : s.frontier.getLast? with
      | none => simp only [hq] at hrun; simp at hrun; rw [← hrun]
      | some c =>
          simp only [hq] at hrun
          by_cases hc : c = goal
          · rw [if_pos hc] at hrun; simp at hrun; rw [← hrun]
          · rw [if_neg hc] at hrun
            match hs : searchStep s.maze w h c (s.frontier.dropLast, s.parents) with
            | none => simp only [hs] at hrun; exact Option.noConfusion hrun
            | some (q, p) =>
                simp only [hs] at hrun
                have h2 := ih hrun
                exact h2

theorem relaxDir_maze {w h : Int} {goal cur : Cell} {s s2 : AState} {d : Cell}
    (hr : relaxDir w h goal cur s d = some s2) : s2.maze = s.maze := by
  unfold relaxDir at hr
  by_cases hb : 0 ≤ cur.1 + d.1 ∧ cur.1 + d.1 < w ∧ 0 ≤ cur.2 + d.2 ∧ cur.2 + d.2 < h
  · rw [if_pos hb] at hr
    match hm : s.maze (cur.1 + d.1, cur.2 + d.2) with
    | none => simp only [hm] at hr; exact Option.noConfusion hr
    | some v =>
        simp only [hm] at hr
        by_cases hv : v = St.wall
        · simp [hv] at hr; rw [← hr]
        · rw [if_pos (by simp [hv])] at hr
          match hg : lookupA s.g cur with
          | none => simp only [hg] at hr; exact Option.noConfusion hr
          | some gc =>
              simp only [hg] at hr
              by_cases hu : (match lookupA s.g (cur.1 + d.1, cur.2 + d.2) with
                | none => true
                | some gn => decide (gc + 1 < gn)) = true
              · rw [if_pos hu] at hr; simp at hr; rw [← hr]
              · rw [if_neg hu] at hr; simp at hr; rw [← hr]
  · rw [if_neg hb] at hr; simp at hr; rw [← hr]

theorem relaxFold_maze {w h : Int} {goal cur : Cell} :
    ∀ {ds : List Cell} {s s2 : AState},
      List.foldlM (relaxDir w h goal cur) s ds = some s2 → s2.maze = s.maze := by
  intro ds
  induction ds with
  | nil => intro s s2 hf; simp at hf; rw [hf]
  | cons d rest ih =>
      intro s s2 hf
      rw [List.foldlM_cons] at hf
      match hd : relaxDir w h goal cur s d with
      | none => simp only [hd] at hf; exact Option.noConfusion hf
      | some s1 =>
          simp only [hd, Option.bind_eq_bind, Option.some_bind] at hf
          rw [ih hf, relaxDir_maze hd]

theorem astarAux_maze {goal : Cell} {w h : Int} :
    ∀ {fuel : Nat} {s s2 : AState}, astarAux goal w h fuel s = some s2 →
      s2.maze = s.maze := by
  intro fuel
  induction fuel with
  | zero => intro s s2 hrun; exact absurd hrun (by simp [astarAux])
  | succ f ih =>
      intro s s2 hrun
      rw [astarAux] at hrun
      match hq : s.frontier with
      | [] => simp only [hq] at hrun; simp at hrun; rw [← hrun]
      | (pr, cur) :: rest =>
          simp only [hq] at hrun
          by_cases hc : cur = goal
          · rw [if_pos hc] at hrun; simp at hrun; rw [← hrun]
          · rw [if_neg hc] at hrun
            match hs : List.foldlM (relaxDir w h goal cur)
                { s with frontier := rest } dirs with
            | none => simp only [hs] at hrun; exact Option.noConfusion hrun
            | some s1 =>
                simp only [hs] at hrun
                have h2 := ih hrun
                have h3 := relaxFold_maze hs
                rw [h2, h3]

/-! ### Characterisation of the shared neighbour loop -/

theorem idxA_lt_length_of_found {α : Type} (l : List (Cell × α)) (c : Cell)
    (h : lookupA l c ≠ none) : idxA l c < l.length := by
  induction l with
  | nil => simp [lookupA] at h
  | cons kv rest ih =>
      obtain ⟨k, w⟩ := kv
      by_cases hck : c = k
      · simp [idxA, hck]
      · simp [lookupA, hck] at h
        simp [idxA, hck, Nat.succ_lt_succ (ih h)]

theorem lookupA_none_of_append {α : Type} {l t : List (Cell × α)} {c : Cell}
    (h : lookupA (l ++ t) c = none) : lookupA l c = none ∧ lookupA t c = none := by
  induction l with
  | nil => simpa [lookupA] using h
  | cons kv rest ih =>
      obtain ⟨k, w⟩ := kv
      by_cases hck : c = k
      · simp [lookupA, hck] at h
      · simp only [List.cons_append, lookupA, if_neg hck] at h ⊢
        exact ih h

theorem lookupA_map_none {l : List Cell} {v : Cell → Option Cell} {c : Cell}
    (h : lookupA (l.map (fun n => (n, v n))) c = none) : c ∉ l := by
  induction l with
  | nil => simp
  | cons n rest ih =>
      by_cases hcn : c = n
      · simp [lookupA, hcn] at h
      · simp only [List.map_cons, lookupA, if_neg hcn] at h
        simp [hcn, ih h]

theorem adj4_of_dirs {cur : Cell} {d : Cell} (hd : d ∈ dirs) :
    adj4 cur (cur.1 + d.1, cur.2 + d.2) := by
  simp only [dirs, List.mem_cons, List.not_mem_nil, or_false] at hd
  rcases hd with rfl | rfl | rfl | rfl <;> simp [adj4, Prod.ext_iff] <;> omega

theorem dirStep_spec {maze : Grid} {w h : Int} {cur : Cell}
    {qp qp2 : List Cell × Parents} {d : Cell}
    (hd : dirStep maze w h cur qp d = some qp2) :
    qp2 = qp ∨
    ∃ n : Cell, n = (cur.1 + d.1, cur.2 + d.2) ∧
      qp2 = (qp.1 ++ [n], qp.2 ++ [(n, some cur)]) ∧
      okG maze w h n ∧ lookupA qp.2 n = none := by
  unfold dirStep at hd
  by_cases hb : 0 ≤ cur.1 + d.1 ∧ cur.1 + d.1 < w ∧ 0 ≤ cur.2 + d.2 ∧ cur.2 + d.2 < h
  · rw [if_pos hb] at hd
    match hm : maze (cur.1 + d.1, cur.2 + d.2) with
    | none => simp only [hm] at hd; exact Option.noConfusion hd
    | some v =>
        simp only [hm] at hd
        by_cases hcond : v ≠ St.wall ∧ (lookupA qp.2 (cur.1 + d.1, cur.2 + d.2)).isNone
        · rw [if_pos hcond] at hd
          refine Or.inr ⟨(cur.1 + d.1, cur.2 + d.2), rfl, ?_, ⟨⟨hb.1, hb.2.1, hb.2.2.1, hb.2.2.2⟩, ?_⟩, ?_⟩
          · have hfresh : lookupA qp.2 (cur.1 + d.1, cur.2 + d.2) = none :=
              Option.isNone_iff_eq_none.mp hcond.2
            have hd2 := hd.symm
            injection hd2 with hd3
            rw [hd3, setA_of_not_mem _ _ _ hfresh]
          · rw [hm]
            intro hcontra
            exact hcond.1 (by injection hcontra)
          · exact Option.isNone_iff_eq_none.mp hcond.2
        · rw [if_neg hcond] at hd
          injection hd with hd2
          exact Or.inl hd2.symm
  · rw [if_neg hb] at hd
    injection hd with hd2
    exact Or.inl hd2.symm

theorem searchFold_spec {maze : Grid} {w h : Int} {cur : Cell} :
    ∀ (ds : List Cell) (qp qp2 : List Cell × Parents),
      (∀ d ∈ ds, d ∈ dirs) →
      List.foldlM (dirStep maze w h cur) qp ds = some qp2 →
      ∃ news : List Cell,
        qp2.1 = qp.1 ++ news ∧
        qp2.2 = qp.2 ++ news.map (fun n => (n, some cur)) ∧
        news.Nodup ∧
        ∀ n ∈ news, adj4 cur n ∧ okG maze w h n ∧ lookupA qp.2 n = none := by
  intro ds
  induction ds with
  | nil =>
      intro qp qp2 _ hf
      simp at hf
      exact ⟨[], by simp [hf.symm], by simp [hf.symm], by simp, by simp⟩
  | cons d rest ih =>
      intro qp qp2 hds hf
      rw [List.foldlM_cons] at hf
      match hd : dirStep maze w h cur qp d with
      | none => simp only [hd] at hf; exact Option.noConfusion hf
      | some qp1 =>
          simp only [hd, Option.bind_eq_bind, Option.some_bind] at hf
          have hrest : ∀ d2 ∈ rest, d2 ∈ dirs := fun d2 h2 => hds d2 (by simp [h2])
          obtain ⟨news1, h21, h22, hnd1, hprops1⟩ := ih qp1 qp2 hrest hf
          rcases dirStep_spec hd with heq | ⟨n, hn, hqp1, hok, hfresh⟩
          · subst heq
            exact ⟨news1, h21, h22, hnd1, hprops1⟩
          · subst hqp1
            refine ⟨n :: news1, ?_, ?_, ?_, ?_⟩
            · simpa [List.append_assoc] using h21
            · simpa [List.append_assoc] using h22
            · refine List.nodup_cons.mpr ⟨?_, hnd1⟩
              intro hmem
              have := (hprops1 n hmem).2.2
              have h3 := (lookupA_none_of_append this).2
              simp [lookupA] at h3
            · intro m hm
              rcases List.mem_cons.mp hm with rfl | hm1
              · exact ⟨hn ▸ adj4_of_dirs (hds d (by simp)), hok, hfresh⟩
              · obtain ⟨ha, ho, hl⟩ := hprops1 m hm1
                exact ⟨ha, ho, (lookupA_none_of_append hl).1⟩

theorem searchStep_spec {maze : Grid} {w h : Int} {cur : Cell}
    {q : List Cell} {parents : Parents} {q2 : List Cell} {p2 : Parents}
    (hs : searchStep maze w h cur (q, parents) = some (q2, p2)) :
    ∃ news : List Cell,
      q2 = q ++ news ∧
      p2 = parents ++ news.map (fun n => (n, some cur)) ∧
      news.Nodup ∧
      ∀ n ∈ news, adj4 cur n ∧ okG maze w h n ∧ lookupA parents n = none := by
  have := searchFold_spec dirs (q, parents) (q2, p2) (fun d hd => hd) hs
  simpa using this

theorem dirStep_isSome {maze : Grid} {w h : Int} (hg : IsGrid maze w h)
    (cur : Cell) (qp : List Cell × Parents) (d : Cell) :
    (dirStep maze w h cur qp d).isSome := by
  unfold dirStep
  by_cases hb : 0 ≤ cur.1 + d.1 ∧ cur.1 + d.1 < w ∧ 0 ≤ cur.2 + d.2 ∧ cur.2 + d.2 < h
  · rw [if_pos hb]
    obtain ⟨s, hsv⟩ := hg.some_of_mem (c := (cur.1 + d.1, cur.2 + d.2))
      (mem_rectI.mpr ⟨hb.1, hb.2.1, hb.2.2.1, hb.2.2.2⟩)
    simp only [hsv]
    by_cases hcond : s ≠ St.wall ∧ (lookupA qp.2 (cur.1 + d.1, cur.2 + d.2)).isNone
    · rw [if_pos hcond]; simp
    · rw [if_neg hcond]; simp
  · rw [if_neg hb]; simp

theorem searchStep_isSome {maze : Grid} {w h : Int} (hg : IsGrid maze w h)
    (cur : Cell) (qp : List Cell × Parents) :
    (searchStep maze w h cur qp).isSome := by
  unfold searchStep
  have H : ∀ (ds : List Cell) (qp0 : List Cell × Parents),
      (List.foldlM (dirStep maze w h cur) qp0 ds).isSome := by
    intro ds
    induction ds with
    | nil => intro qp0; simp
    | cons d rest ih =>
        intro qp0
        rw [List.foldlM_cons]
        obtain ⟨qp1, hqp1⟩ := Option.isSome_iff_exists.mp (dirStep_isSome hg cur qp0 d)
        rw [hqp1]
        simpa using ih qp1
  exact H dirs qp

/-! ### The predecessor-map invariant of `bfs` and `dfs` -/

theorem lookupA_append_none_left {α : Type} {l : List (Cell × α)} (t : List (Cell × α))
    {c : Cell} (h : lookupA l c = none) : lookupA (l ++ t) c = lookupA t c := by
  induction l with
  | nil => simp
  | cons kv rest ih =>
      obtain ⟨k, w⟩ := kv
      by_cases hck : c = k
      · simp [lookupA, hck] at h
      · simp only [lookupA, if_neg hck] at h
        simp only [List.cons_append, lookupA, if_neg hck]
        exact ih h

theorem PInv_init {maze : Grid} {w h : Int} (start : Cell) :
    PInv maze w h start [(start, none)] := by
  refine ⟨by simp [lookupA], ?_, ?_, ?_, ?_⟩
  · intro c hc
    by_cases hcs : c = start
    · exact hcs
    · simp [lookupA, hcs] at hc
  · intro c p hc
    by_cases hcs : c = start <;> simp [lookupA, hcs] at hc
  · intro c p hc
    by_cases hcs : c = start <;> simp [lookupA, hcs] at hc
  · intro c hc
    by_cases hcs : c = start
    · subst hcs; exact ReachG.refl
    · simp [lookupA, hcs] at hc

theorem PInv_snoc {maze : Grid} {w h : Int} {start : Cell} {parents : Parents}
    (hinv : PInv maze w h start parents) {cur : Cell}
    (hcur : (lookupA parents cur).isSome) {n : Cell}
    (hadj : adj4 cur n) (hok : okG maze w h n)
    (hfresh : lookupA parents n = none) :
    PInv maze w h start (parents ++ [(n, some cur)]) := by
  have hstart2 : lookupA (parents ++ [(n, some cur)]) start = some none :=
    (lookupA_append_left _ _ _ (by rw [hinv.hstart]; simp)).trans hinv.hstart
  have hext_old : ∀ c : Cell, lookupA parents c ≠ none →
      lookupA (parents ++ [(n, some cur)]) c = lookupA parents c :=
    fun c hc => lookupA_append_left _ _ _ hc
  have hext_n : lookupA (parents ++ [(n, some cur)]) n = some (some cur) :=
    lookupA_append_fresh _ _ _ hfresh
  have hext_miss : ∀ c : Cell, lookupA parents c = none → c ≠ n →
      lookupA (parents ++ [(n, some cur)]) c = none := by
    intro c hc hcn
    rw [lookupA_append_none_left _ hc]
    simp [lookupA, hcn]
  refine ⟨hstart2, ?_, ?_, ?_, ?_⟩
  · intro c hc
    by_cases hco : lookupA parents c = none
    · by_cases hcn : c = n
      · rw [hcn, hext_n] at hc; exact absurd hc (by simp)
      · rw [hext_miss c hco hcn] at hc; exact absurd hc (by simp)
    · rw [hext_old c hco] at hc
      exact hinv.hnone c hc
  · intro c p hc
    by_cases hco : lookupA parents c = none
    · by_cases hcn : c = n
      · subst hcn
        rw [hext_n] at hc
        have hpcur : p = cur := by injection hc with h1; injection h1 with h2; exact h2.symm
        subst hpcur
        constructor
        · rw [hext_old p (Option.isSome_iff_ne_none.mp hcur)]
          exact hcur
        · rw [idxA_append_left _ _ _ (Option.isSome_iff_ne_none.mp hcur),
            idxA_append_fresh _ _ _ hfresh]
          exact idxA_lt_length_of_found _ _ (Option.isSome_iff_ne_none.mp hcur)
      · rw [hext_miss c hco hcn] at hc; exact absurd hc (by simp)
    · rw [hext_old c hco] at hc
      obtain ⟨h1, h2⟩ := hinv.hwf c p hc
      have hpo : lookupA parents p ≠ none := Option.isSome_iff_ne_none.mp h1
      constructor
      · rw [hext_old p hpo]; exact h1
      · rw [idxA_append_left _ _ _ hpo, idxA_append_left _ _ _ hco]
        exact h2
  · intro c p hc
    by_cases hco : lookupA parents c = none
    · by_cases hcn : c = n
      · subst hcn
        rw [hext_n] at hc
        have hpcur : p = cur := by injection hc with h1; injection h1 with h2; exact h2.symm
        subst hpcur
        exact ⟨hadj, hok⟩
      · rw [hext_miss c hco hcn] at hc; exact absurd hc (by simp)
    · rw [hext_old c hco] at hc
      exact hinv.hsound c p hc
  · intro c hc
    by_cases hco : lookupA parents c = none
    · by_cases hcn : c = n
      · subst hcn
        exact ReachG.step (hinv.hreach cur hcur) hadj hok
      · rw [hext_miss c hco hcn] at hc; exact absurd hc (by simp)
    · exact hinv.hreach c (Option.isSome_iff_ne_none.mpr hco)

theorem PInv_append {maze : Grid} {w h : Int} {start : Cell} :
    ∀ (news : List Cell) (parents : Parents), PInv maze w h start parents →
      ∀ {cur : Cell}, (lookupA parents cur).isSome → news.Nodup →
      (∀ n ∈ news, adj4 cur n ∧ okG maze w h n ∧ lookupA parents n = none) →
      PInv maze w h start (parents ++ news.map (fun n => (n, some cur))) := by
  intro news
  induction news with
  | nil => intro parents hinv cur _ _ _; simpa using hinv
  | cons n rest ih =>
      intro parents hinv cur hcur hnd hprops
      obtain ⟨hadj, hok, hfresh⟩ := hprops n (by simp)
      have hinv1 := PInv_snoc hinv hcur hadj hok hfresh
      have hcur1 : (lookupA (parents ++ [(n, some cur)]) cur).isSome := by
        rw [lookupA_append_left _ _ _ (Option.isSome_iff_ne_none.mp hcur)]
        exact hcur
      have hnd1 : rest.Nodup := (List.nodup_cons.mp hnd).2
      have hprops1 : ∀ m ∈ rest, adj4 cur m ∧ okG maze w h m ∧
          lookupA (parents ++ [(n, some cur)]) m = none := by
        intro m hm
        obtain ⟨ha, ho, hf⟩ := hprops m (by simp [hm])
        refine ⟨ha, ho, ?_⟩
        rw [lookupA_append_none_left _ hf]
        have hmn : m ≠ n := by
          intro hmn2
          rw [hmn2] at hm
          exact (List.nodup_cons.mp hnd).1 hm
        simp [lookupA, hmn]
      have := ih (parents ++ [(n, some cur)]) hinv1 hcur1 hnd1 hprops1
      simpa [List.append_assoc] using this

theorem lookupA_map_mem {news : List Cell} {cur : Cell} {n : Cell}
    (hn : n ∈ news) :
    lookupA (news.map (fun m => (m, some cur))) n = some (some cur) := by
  induction news with
  | nil => simp at hn
  | cons m rest ih =>
      by_cases hnm : n = m
      · simp [lookupA, hnm]
      · simp only [List.mem_cons] at hn
        rcases hn with h1 | h1
        · exact absurd h1 hnm
        · simp only [List.map_cons, lookupA, if_neg hnm]
          exact ih h1

theorem lookupA_map_not_mem {news : List Cell} {v : Cell → Option Cell} {n : Cell}
    (hn : n ∉ news) :
    lookupA (news.map (fun m => (m, v m))) n = none := by
  induction news with
  | nil => simp [lookupA]
  | cons m rest ih =>
      have hnm : n ≠ m := fun hc => hn (by simp [hc])
      simp only [List.map_cons, lookupA, if_neg hnm]
      exact ih (fun hc => hn (by simp [hc]))

/-- One solver iteration preserves the predecessor invariant, keeps all
frontier cells keyed, and only extends the dict. -/
theorem step_pinv {maze : Grid} {w h : Int} {start cur : Cell}
    {parents : Parents} {news : List Cell}
    (hinv : PInv maze w h start parents)
    (hcur : (lookupA parents cur).isSome)
    (hnd : news.Nodup)
    (hprops : ∀ n ∈ news, adj4 cur n ∧ okG maze w h n ∧ lookupA parents n = none) :
    PInv maze w h start (parents ++ news.map (fun n => (n, some cur))) ∧
    (∀ n ∈ news, (lookupA (parents ++ news.map (fun n2 => (n2, some cur))) n).isSome) ∧
    (∀ c : Cell, (lookupA parents c).isSome →
      (lookupA (parents ++ news.map (fun n2 => (n2, some cur))) c).isSome) := by
  refine ⟨PInv_append news parents hinv hcur hnd hprops, ?_, ?_⟩
  · intro n hn
    obtain ⟨_, _, hfresh⟩ := hprops n hn
    rw [lookupA_append_none_left _ hfresh, lookupA_map_mem hn]
    simp
  · intro c hc
    rw [lookupA_append_left _ _ _ (Option.isSome_iff_ne_none.mp hc)]
    exact hc

theorem bfsAux_pinv {goal : Cell} {w h : Int} {start : Cell} :
    ∀ {fuel : Nat} {s s2 : SState}, bfsAux goal w h fuel s = some s2 →
      PInv s.maze w h start s.parents →
      (∀ c ∈ s.frontier, (lookupA s.parents c).isSome) →
      PInv s.maze w h start s2.parents := by
  intro fuel
  induction fuel with
  | zero => intro s s2 hrun; exact absurd hrun (by simp [bfsAux])
  | succ f ih =>
      intro s s2 hrun hinv hq
      rw [bfsAux] at hrun
      match hfr : s.frontier with
      | [] =>
          simp only [hfr] at hrun; simp at hrun; rw [← hrun]; exact hinv
      | c :: rest =>
          simp only [hfr] at hrun
          by_cases hc : c = goal
          · rw [if_pos hc] at hrun; simp at hrun; rw [← hrun]; exact hinv
          · rw [if_neg hc] at hrun
            match hs : searchStep s.maze w h c (rest, s.parents) with
            | none => simp only [hs] at hrun; exact Option.noConfusion hrun
            | some (q2, p2) =>
                simp only [hs] at hrun
                obtain ⟨news, hq2, hp2, hnd, hprops⟩ := searchStep_spec hs
                have hckey : (lookupA s.parents c).isSome :=
                  hq c (by rw [hfr]; simp)
                obtain ⟨hinv2, hnews, hold⟩ := step_pinv hinv hckey hnd hprops
                have hq2keys : ∀ m ∈ q2, (lookupA p2 m).isSome := by
                  intro m hm
                  rw [hq2] at hm
                  rcases List.mem_append.mp hm with h1 | h1
                  · rw [hp2]
                    exact hold m (hq m (by rw [hfr]; simp [h1]))
                  · rw [hp2]
                    exact hnews m h1
                have := ih hrun (by rw [← hp2] at hinv2; exact hinv2) hq2keys
                exact this

theorem dfsAux_pinv {goal : Cell} {w h : Int} {start : Cell} :
    ∀ {fuel : Nat} {s s2 : SState}, dfsAux goal w h fuel s = some s2 →
      PInv s.maze w h start s.parents →
      (∀ c ∈ s.frontier, (lookupA s.parents c).isSome) →
      PInv s.maze w h start s2.parents := by
  intro fuel
  induction fuel with
  | zero => intro s s2 hrun; exact absurd hrun (by simp [dfsAux])
  | succ f ih =>
      intro s s2 hrun hinv hq
      rw [dfsAux] at hrun
      match hfr : s.frontier.getLast? with
      | none =>
          simp only [hfr] at hrun; simp at hrun; rw [← hrun]; exact hinv
      | some c =>
          simp only [hfr] at hrun
          by_cases hc : c = goal
          · rw [if_pos hc] at hrun; simp at hrun; rw [← hrun]; exact hinv
          · rw [if_neg hc] at hrun
            match hs : searchStep s.maze w h c (s.frontier.dropLast, s.parents) with
            | none => simp only [hs] at hrun; exact Option.noConfusion hrun
            | some (q2, p2) =>
                simp only [hs] at hrun
                obtain ⟨news, hq2, hp2, hnd, hprops⟩ := searchStep_spec hs
                have hckey : (lookupA s.parents c).isSome :=
                  hq c (List.mem_of_getLast?_eq_some hfr)
                obtain ⟨hinv2, hnews, hold⟩ := step_pinv hinv hckey hnd hprops
                have hq2keys : ∀ m ∈ q2, (lookupA p2 m).isSome := by
                  intro m hm
                  rw [hq2] at hm
                  rcases List.mem_append.mp hm with h1 | h1
                  · rw [hp2]
                    exact hold m (hq m (List.dropLast_subset _ h1))
                  · rw [hp2]
                    exact hnews m h1
                have := ih hrun (by rw [← hp2] at hinv2; exact hinv2) hq2keys
                exact this


theorem lookupA_append_eq_none_iff {α : Type} {l t : List (Cell × α)} {c : Cell} :
    lookupA (l ++ t) c = none ↔ lookupA l c = none ∧ lookupA t c = none := by
  constructor
  · exact lookupA_none_of_append
  · rintro ⟨h1, h2⟩
    rw [lookupA_append_none_left _ h1]
    exact h2

theorem unseenN_append {w h : Int} {parents : Parents} {cur : Cell}
    {news : List Cell} (hnd : news.Nodup)
    (hprops : ∀ n ∈ news, n ∈ rectI w h ∧ lookupA parents n = none) :
    unseenN w h (parents ++ news.map (fun n => (n, some cur))) + news.length =
      unseenN w h parents := by
  have hset : (rectI w h).filter
      (fun c => lookupA (parents ++ news.map (fun n => (n, some cur))) c = none) =
      ((rectI w h).filter (fun c => lookupA parents c = none)) \ news.toFinset := by
    ext c
    simp only [Finset.mem_filter, Finset.mem_sdiff, List.mem_toFinset,
      lookupA_append_eq_none_iff]
    constructor
    · rintro ⟨hr, h1, h2⟩
      exact ⟨⟨hr, h1⟩, lookupA_map_none h2⟩
    · rintro ⟨⟨hr, h1⟩, h2⟩
      exact ⟨hr, h1, lookupA_map_not_mem h2⟩
  have hsub : news.toFinset ⊆ (rectI w h).filter (fun c => lookupA parents c = none) := by
    intro n hn
    rw [List.mem_toFinset] at hn
    obtain ⟨hr, hf⟩ := hprops n hn
    exact Finset.mem_filter.mpr ⟨hr, hf⟩
  unfold unseenN
  rw [hset, Finset.card_sdiff hsub, List.toFinset_card_of_nodup hnd]
  have hle : news.length ≤
      ((rectI w h).filter (fun c => lookupA parents c = none)).card := by
    rw [← List.toFinset_card_of_nodup hnd]
    exact Finset.card_le_card hsub
  omega

theorem rectI_card (w h : Int) : (rectI w h).card = w.toNat * h.toNat := by
  unfold rectI
  rw [Finset.card_product, Int.card_Icc, Int.card_Icc]
  simp

theorem bfsAux_isSome {goal : Cell} {w h : Int} :
    ∀ (fuel : Nat) (s : SState), IsGrid s.maze w h →
      5 * unseenN w h s.parents + s.frontier.length + 1 ≤ fuel →
      (bfsAux goal w h fuel s).isSome := by
  intro fuel
  induction fuel with
  | zero => intro s _ hf; omega
  | succ f ih =>
      intro s hg hf
      rcases hfr : s.frontier with _ | ⟨c, rest⟩
      · rw [bfsAux]; simp only [hfr]; simp
      · rw [bfsAux]
        simp only [hfr]
        by_cases hc : c = goal
        · rw [if_pos hc]; simp
        · rw [if_neg hc]
          obtain ⟨⟨q2, p2⟩, hs⟩ := Option.isSome_iff_exists.mp
            (searchStep_isSome hg c (rest, s.parents))
          rw [hs]
          obtain ⟨news, hq2, hp2, hnd, hprops⟩ := searchStep_spec hs
          have hrect : ∀ n ∈ news, n ∈ rectI w h ∧ lookupA s.parents n = none := by
            intro n hn
            obtain ⟨_, hok, hfresh⟩ := hprops n hn
            exact ⟨mem_rectI.mpr hok.1, hfresh⟩
          have hu : unseenN w h (s.parents ++ news.map (fun n => (n, some c))) +
              news.length = unseenN w h s.parents := unseenN_append hnd hrect
          rw [← hp2] at hu
          refine ih ⟨s.maze, q2, p2⟩ hg ?_
          have hlen : q2.length = rest.length + news.length := by
            rw [hq2]; simp
          have hfr_len : s.frontier.length = rest.length + 1 := by
            rw [hfr]; simp
          simp only [hlen]
          omega

theorem dfsAux_isSome {goal : Cell} {w h : Int} :
    ∀ (fuel : Nat) (s : SState), IsGrid s.maze w h →
      5 * unseenN w h s.parents + s.frontier.length + 1 ≤ fuel →
      (dfsAux goal w h fuel s).isSome := by
  intro fuel
  induction fuel with
  | zero => intro s _ hf; omega
  | succ f ih =>
      intro s hg hf
      rcases hfr : s.frontier.getLast? with _ | c
      · rw [dfsAux]; simp only [hfr]; simp
      · rw [dfsAux]
        simp only [hfr]
        by_cases hc : c = goal
        · rw [if_pos hc]; simp
        · rw [if_neg hc]
          obtain ⟨⟨q2, p2⟩, hs⟩ := Option.isSome_iff_exists.mp
            (searchStep_isSome hg c (s.frontier.dropLast, s.parents))
          rw [hs]
          obtain ⟨news, hq2, hp2, hnd, hprops⟩ := searchStep_spec hs
          have hrect : ∀ n ∈ news, n ∈ rectI w h ∧ lookupA s.parents n = none := by
            intro n hn
            obtain ⟨_, hok, hfresh⟩ := hprops n hn
            exact ⟨mem_rectI.mpr hok.1, hfresh⟩
          have hu : unseenN w h (s.parents ++ news.map (fun n => (n, some c))) +
              news.length = unseenN w h s.parents := unseenN_append hnd hrect
          rw [← hp2] at hu
          refine ih ⟨s.maze, q2, p2⟩ hg ?_
          have hne : s.frontier ≠ [] := by
            intro hcon
            rw [hcon] at hfr
            simp at hfr
          have hlen : q2.length = (s.frontier.length - 1) + news.length := by
            rw [hq2]
            simp [List.length_dropLast]
          have hfl : 1 ≤ s.frontier.length := by
            cases hfe : s.frontier with
            | nil => exact absurd hfe hne
            | cons a as => simp
          simp only [hlen]
          omega


theorem PInv_toChain {maze : Grid} {w h : Int} {start : Cell} {parents : Parents}
    (hinv : PInv maze w h start parents) :
    ChainInv maze w h start parents (fun c => idxA parents c) :=
  ⟨hinv.hstart, hinv.hnone, hinv.hwf, hinv.hsound,
    fun c => idxA_le_length parents c⟩

theorem PInv_reconstruct {maze : Grid} {w h : Int} {start : Cell}
    {parents : Parents} {mu : Cell → Nat}
    (hinv : ChainInv maze w h start parents mu) (goal : Cell) :
    ∃ l : List Cell, PChain parents goal l ∧
      reconstructO parents goal = some l.reverse ∧
      l.length ≤ mu goal + 1 := by
  obtain ⟨l, hch, hlen⟩ := exists_PChain parents mu
    (fun c p hj => by
      have hl : lookupA parents c = some (some p) := by
        match hlc : lookupA parents c with
        | none => rw [hlc] at hj; simp [Option.join] at hj
        | some none => rw [hlc] at hj; simp [Option.join] at hj
        | some (some p2) =>
            rw [hlc] at hj
            simp [Option.join] at hj
            rw [hj]
      exact (hinv.hwf c p hl).2) goal
  exact ⟨l, hch, reconstructO_eq_of_PChain hch
    (hlen.trans (Nat.succ_le_succ (hinv.hmule goal))), hlen⟩

theorem PChain_props {maze : Grid} {w h : Int} {start : Cell}
    {parents : Parents} {mu : Cell → Nat}
    (hinv : ChainInv maze w h start parents mu) :
    ∀ {c : Cell} {l : List Cell}, PChain parents c l →
      (lookupA parents c).isSome →
      l.getLast? = some start ∧ List.Chain' (fun a b => adj4 b a) l ∧
      (∀ e ∈ l, e ≠ start → okG maze w h e) := by
  intro c l hch
  induction hch with
  | @last c2 hnone =>
      intro hkey
      have : lookupA parents c2 = some none := by
        match hlc : lookupA parents c2 with
        | none => rw [hlc] at hkey; simp at hkey
        | some none => rfl
        | some (some p) => rw [hlc] at hnone; simp [Option.join] at hnone
      have hc2 : c2 = start := hinv.hnone c2 this
      subst hc2
      refine ⟨by simp, by simp, ?_⟩
      intro e he hne
      simp at he
      exact absurd he hne
  | @cons c2 p l2 hsome htail ih =>
      intro hkey
      have hl : lookupA parents c2 = some (some p) := by
        match hlc : lookupA parents c2 with
        | none => rw [hlc] at hsome; simp [Option.join] at hsome
        | some none => rw [hlc] at hsome; simp [Option.join] at hsome
        | some (some p2) =>
            rw [hlc] at hsome
            simp [Option.join] at hsome
            rw [hsome]
      have hpkey : (lookupA parents p).isSome := (hinv.hwf c2 p hl).1
      obtain ⟨hlast, hchain, hok⟩ := ih hpkey
      have hne : l2 ≠ [] := PChain_ne_nil htail
      refine ⟨?_, ?_, ?_⟩
      · cases l2 with
        | nil => exact absurd rfl hne
        | cons a as => rw [List.getLast?_cons_cons]; exact hlast
      · refine List.chain'_cons'.mpr ⟨?_, hchain⟩
        intro y hy
        rw [PChain_head htail] at hy
        injection hy with hy2
        rw [← hy2] at *
        exact (hinv.hsound c2 p hl).1
      · intro e he hnes
        rcases List.mem_cons.mp he with rfl | h2
        · exact (hinv.hsound e p hl).2
        · exact hok e h2 hnes

theorem sound_path {maze : Grid} {w h : Int} {start : Cell} {parents : Parents}
    {mu : Cell → Nat} (hinv : ChainInv maze w h start parents mu) (goal : Cell) :
    ∃ p : List Cell, reconstructO parents goal = some p ∧
      (lookupA parents goal = none → p = [goal]) ∧
      ((lookupA parents goal).isSome →
        p.head? = some start ∧ p.getLast? = some goal ∧ List.Chain' adj4 p ∧
        ∀ e ∈ p, e ≠ start → okG maze w h e) := by
  obtain ⟨l, hch, hrec, hlen⟩ := PInv_reconstruct hinv goal
  refine ⟨l.reverse, hrec, ?_, ?_⟩
  · intro hnone
    cases hch with
    | last hj => simp
    | cons hj htail =>
        rw [hnone] at hj
        simp [Option.join] at hj
  · intro hkey
    obtain ⟨hlast, hchain, hok⟩ := PChain_props hinv hch hkey
    refine ⟨?_, ?_, ?_, ?_⟩
    · rw [List.head?_reverse]; exact hlast
    · rw [List.getLast?_reverse]; exact PChain_head hch
    · rw [List.chain'_reverse]
      have : (fun a b => adj4 b a) = flip adj4 := rfl
      rw [← this]
      exact hchain
    · intro e he hne
      exact hok e (List.mem_reverse.mp he) hne

theorem ReachG_to_ReachE {maze : Grid} {w h : Int} {start : Cell}
    (hg : IsGrid maze w h) (hs : okE maze start) :
    ∀ {c : Cell}, ReachG maze w h start c → ReachE maze start c := by
  intro c hr
  induction hr with
  | refl => exact ReachE.refl hs
  | step h1 hadj hok ih => exact ReachE.step ih hadj ((hg.okG_iff_okE _).mp hok)

theorem ReachE_to_ReachG {maze : Grid} {w h : Int} {start : Cell}
    (hg : IsGrid maze w h) :
    ∀ {c : Cell}, ReachE maze start c → ReachG maze w h start c := by
  intro c hr
  induction hr with
  | refl _ => exact ReachG.refl
  | step h1 hadj hok ih => exact ReachG.step ih hadj ((hg.okG_iff_okE _).mpr hok)

/-! ### Solver-level soundness for `bfs` and `dfs` -/

theorem unseenN_le (w h : Int) (parents : Parents) :
    unseenN w h parents ≤ w.toNat * h.toNat := by
  rw [← rectI_card w h]
  exact Finset.card_le_card (Finset.filter_subset _ _)

theorem bfs_run (maze : Grid) (start goal : Cell) (w h : Int)
    (hg : IsGrid maze w h) :
    ∃ s2 : SState,
      bfsAux goal w h (5 * (w.toNat * h.toNat) + 2) ⟨maze, [start], [(start, none)]⟩ =
        some s2 ∧ PInv maze w h start s2.parents ∧ s2.maze = maze := by
  have hfuel : 5 * unseenN w h [(start, none)] + 1 + 1 ≤ 5 * (w.toNat * h.toNat) + 2 := by
    have := unseenN_le w h [(start, none)]
    omega
  obtain ⟨s2, hs2⟩ := Option.isSome_iff_exists.mp
    (@bfsAux_isSome goal w h (5 * (w.toNat * h.toNat) + 2)
      ⟨maze, [start], [(start, none)]⟩ hg (by simpa using hfuel))
  refine ⟨s2, hs2, ?_, bfsAux_maze hs2⟩
  have hq0 : ∀ c ∈ ((⟨maze, [start], [(start, none)]⟩ : SState)).frontier,
      (lookupA ((⟨maze, [start], [(start, none)]⟩ : SState)).parents c).isSome := by
    intro c hc
    have hc2 : c ∈ [start] := hc
    simp at hc2
    subst hc2
    simp [lookupA]
  have h2 := bfsAux_pinv (s := ⟨maze, [start], [(start, none)]⟩) hs2 (PInv_init start) hq0
  exact h2

theorem dfs_run (maze : Grid) (start goal : Cell) (w h : Int)
    (hg : IsGrid maze w h) :
    ∃ s2 : SState,
      dfsAux goal w h (5 * (w.toNat * h.toNat) + 2) ⟨maze, [start], [(start, none)]⟩ =
        some s2 ∧ PInv maze w h start s2.parents ∧ s2.maze = maze := by
  have hfuel : 5 * unseenN w h [(start, none)] + 1 + 1 ≤ 5 * (w.toNat * h.toNat) + 2 := by
    have := unseenN_le w h [(start, none)]
    omega
  obtain ⟨s2, hs2⟩ := Option.isSome_iff_exists.mp
    (@dfsAux_isSome goal w h (5 * (w.toNat * h.toNat) + 2)
      ⟨maze, [start], [(start, none)]⟩ hg (by simpa using hfuel))
  refine ⟨s2, hs2, ?_, dfsAux_maze hs2⟩
  have hq0 : ∀ c ∈ ((⟨maze, [start], [(start, none)]⟩ : SState)).frontier,
      (lookupA ((⟨maze, [start], [(start, none)]⟩ : SState)).parents c).isSome := by
    intro c hc
    have hc2 : c ∈ [start] := hc
    simp at hc2
    subst hc2
    simp [lookupA]
  have h2 := dfsAux_pinv (s := ⟨maze, [start], [(start, none)]⟩) hs2 (PInv_init start) hq0
  exact h2

theorem bfs_isSome (maze : Grid) (start goal : Cell) (w h : Int)
    (hg : IsGrid maze w h) : (bfs maze start goal w h).isSome := by
  obtain ⟨s2, hs2, hinv, _⟩ := bfs_run maze start goal w h hg
  obtain ⟨p, hp, _, _⟩ := sound_path (PInv_toChain hinv) goal
  unfold bfs
  rw [hs2]
  simp [hp]

theorem dfs_isSome (maze : Grid) (start goal : Cell) (w h : Int)
    (hg : IsGrid maze w h) : (dfs maze start goal w h).isSome := by
  obtain ⟨s2, hs2, hinv, _⟩ := dfs_run maze start goal w h hg
  obtain ⟨p, hp, _, _⟩ := sound_path (PInv_toChain hinv) goal
  unfold dfs
  rw [hs2]
  simp [hp]

theorem bfs_props {maze : Grid} {start goal : Cell} {w h : Int} {p : List Cell}
    (hp : bfs maze start goal w h = some p) (hlen : 2 ≤ p.length) :
    p.head? = some start ∧ p.getLast? = some goal ∧ List.Chain' adj4 p ∧
      ∀ e ∈ p, e ≠ start → okG maze w h e := by
  unfold bfs at hp
  obtain ⟨s2, hs2, hrec⟩ := Option.bind_eq_some.mp hp
  have hq0 : ∀ c ∈ ((⟨maze, [start], [(start, none)]⟩ : SState)).frontier,
      (lookupA ((⟨maze, [start], [(start, none)]⟩ : SState)).parents c).isSome := by
    intro c hc
    have hc2 : c ∈ [start] := hc
    simp at hc2
    subst hc2
    simp [lookupA]
  have hinv : PInv maze w h start s2.parents := by
    have h2 := bfsAux_pinv (s := ⟨maze, [start], [(start, none)]⟩) hs2 (PInv_init start) hq0
    exact h2
  obtain ⟨p2, hp2, hnil, hsome⟩ := sound_path (PInv_toChain hinv) goal
  rw [hp2] at hrec
  injection hrec with hrec2
  subst hrec2
  match hkey : lookupA s2.parents goal with
  | none =>
      rw [hnil hkey] at hlen
      simp at hlen
  | some v =>
      exact hsome (by rw [hkey]; simp)

theorem dfs_props {maze : Grid} {start goal : Cell} {w h : Int} {p : List Cell}
    (hp : dfs maze start goal w h = some p) (hlen : 2 ≤ p.length) :
    p.head? = some start ∧ p.getLast? = some goal ∧ List.Chain' adj4 p ∧
      ∀ e ∈ p, e ≠ start → okG maze w h e := by
  unfold dfs at hp
  obtain ⟨s2, hs2, hrec⟩ := Option.bind_eq_some.mp hp
  have hq0 : ∀ c ∈ ((⟨maze, [start], [(start, none)]⟩ : SState)).frontier,
      (lookupA ((⟨maze, [start], [(start, none)]⟩ : SState)).parents c).isSome := by
    intro c hc
    have hc2 : c ∈ [start] := hc
    simp at hc2
    subst hc2
    simp [lookupA]
  have hinv : PInv maze w h start s2.parents := by
    have h2 := dfsAux_pinv (s := ⟨maze, [start], [(start, none)]⟩) hs2 (PInv_init start) hq0
    exact h2
  obtain ⟨p2, hp2, hnil, hsome⟩ := sound_path (PInv_toChain hinv) goal
  rw [hp2] at hrec
  injection hrec with hrec2
  subst hrec2
  match hkey : lookupA s2.parents goal with
  | none =>
      rw [hnil hkey] at hlen
      simp at hlen
  | some v =>
      exact hsome (by rw [hkey]; simp)

theorem bfs_unreach {maze : Grid} {start goal : Cell} {w h : Int}
    (hg : IsGrid maze w h) (hse : okE maze start)
    (hur : ¬ ReachE maze start goal) :
    bfs maze start goal w h = some [goal] := by
  obtain ⟨s2, hs2, hinv, _⟩ := bfs_run maze start goal w h hg
  have hkey : lookupA s2.parents goal = none := by
    match hlc : lookupA s2.parents goal with
    | none => rfl
    | some v =>
        have := hinv.hreach goal (by rw [hlc]; simp)
        exact absurd (ReachG_to_ReachE hg hse this) hur
  unfold bfs
  rw [hs2]
  simp [reconstructO_no_entry _ _ hkey]

theorem dfs_unreach {maze : Grid} {start goal : Cell} {w h : Int}
    (hg : IsGrid maze w h) (hse : okE maze start)
    (hur : ¬ ReachE maze start goal) :
    dfs maze start goal w h = some [goal] := by
  obtain ⟨s2, hs2, hinv, _⟩ := dfs_run maze start goal w h hg
  have hkey : lookupA s2.parents goal = none := by
    match hlc : lookupA s2.parents goal with
    | none => rfl
    | some v =>
        have := hinv.hreach goal (by rw [hlc]; simp)
        exact absurd (ReachG_to_ReachE hg hse this) hur
  unfold dfs
  rw [hs2]
  simp [reconstructO_no_entry _ _ hkey]

/-! ### The heap model and auxiliary facts for `astar` -/

theorem tupLe_total (a b : Nat × Cell) : tupLe a b ∨ tupLe b a := by
  unfold tupLe
  rcases Nat.lt_trichotomy a.1 b.1 with h | h | h
  · exact Or.inl (Or.inl h)
  · rcases Int.lt_trichotomy a.2.1 b.2.1 with h2 | h2 | h2
    · exact Or.inl (Or.inr ⟨h, Or.inl h2⟩)
    · rcases Int.le_total a.2.2 b.2.2 with h3 | h3
      · exact Or.inl (Or.inr ⟨h, Or.inr ⟨h2, h3⟩⟩)
      · exact Or.inr (Or.inr ⟨h.symm, Or.inr ⟨h2.symm, h3⟩⟩)
    · exact Or.inr (Or.inr ⟨h.symm, Or.inl h2⟩)
  · exact Or.inr (Or.inl h)

theorem tupLe_trans {a b c : Nat × Cell} (h1 : tupLe a b) (h2 : tupLe b c) :
    tupLe a c := by
  unfold tupLe at *
  rcases h1 with h1 | ⟨he1, h1⟩
  · rcases h2 with h2 | ⟨he2, _⟩
    · exact Or.inl (h1.trans h2)
    · exact Or.inl (he2 ▸ h1)
  · rcases h2 with h2 | ⟨he2, h2⟩
    · exact Or.inl (he1 ▸ h2)
    · refine Or.inr ⟨he1.trans he2, ?_⟩
      rcases h1 with h1 | ⟨hx1, h1⟩
      · rcases h2 with h2 | ⟨hx2, _⟩
        · exact Or.inl (h1.trans h2)
        · exact Or.inl (hx2 ▸ h1)
      · rcases h2 with h2 | ⟨hx2, h2⟩
        · exact Or.inl (hx1 ▸ h2)
        · exact Or.inr ⟨hx1.trans hx2, h1.trans h2⟩

theorem mem_hpush {l : List (Nat × Cell)} {e x : Nat × Cell} :
    x ∈ hpush l e ↔ x ∈ l ∨ x = e := by
  induction l with
  | nil => simp [hpush]
  | cons a rest ih =>
      unfold hpush
      by_cases hle : tupLe e a
      · rw [if_pos hle]
        simp [List.mem_cons]
        tauto
      · rw [if_neg hle]
        simp [List.mem_cons, ih]
        tauto

theorem length_hpush (l : List (Nat × Cell)) (e : Nat × Cell) :
    (hpush l e).length = l.length + 1 := by
  induction l with
  | nil => simp [hpush]
  | cons a rest ih =>
      unfold hpush
      by_cases hle : tupLe e a
      · rw [if_pos hle]; simp
      · rw [if_neg hle]; simp [ih]

theorem pairwise_hpush {l : List (Nat × Cell)} (hs : List.Pairwise tupLe l)
    (e : Nat × Cell) : List.Pairwise tupLe (hpush l e) := by
  induction l with
  | nil => simp [hpush]
  | cons a rest ih =>
      obtain ⟨ha, hrest⟩ := List.pairwise_cons.mp hs
      unfold hpush
      by_cases hle : tupLe e a
      · rw [if_pos hle]
        refine List.pairwise_cons.mpr ⟨?_, hs⟩
        intro x hx
        rcases List.mem_cons.mp hx with rfl | hx2
        · exact hle
        · exact tupLe_trans hle (ha x hx2)
      · rw [if_neg hle]
        refine List.pairwise_cons.mpr ⟨?_, ih hrest⟩
        intro x hx
        rcases mem_hpush.mp hx with hx2 | rfl
        · exact ha x hx2
        · rcases tupLe_total a x with h2 | h2
          · exact h2
          · exact absurd h2 hle

theorem dirs_of_adj4 {a b : Cell} (h : adj4 a b) :
    ∃ d ∈ dirs, b = (a.1 + d.1, a.2 + d.2) := by
  rcases h with h | h | h | h
  · exact ⟨(1, 0), by simp [dirs], by rw [h]; simp [Prod.ext_iff]⟩
  · exact ⟨(-1, 0), by simp [dirs], by rw [h]; simp [Prod.ext_iff]; omega⟩
  · exact ⟨(0, 1), by simp [dirs], by rw [h]; simp [Prod.ext_iff]⟩
  · exact ⟨(0, -1), by simp [dirs], by rw [h]; simp [Prod.ext_iff]; omega⟩

theorem hman_self (goal : Cell) : hman goal goal = 0 := by
  simp [hman]

theorem hman_adj {goal a b : Cell} (h : adj4 a b) :
    hman goal a ≤ hman goal b + 1 := by
  rcases h with h | h | h | h <;> (rw [h]; unfold hman; simp; omega)

theorem sum_setA (l : List (Cell × Nat)) (c : Cell) (v oldv : Nat)
    (h : lookupA l c = some oldv) :
    ((setA l c v).map Prod.snd).sum + oldv = (l.map Prod.snd).sum + v := by
  induction l with
  | nil => simp [lookupA] at h
  | cons kv rest ih =>
      obtain ⟨k, w⟩ := kv
      by_cases hck : c = k
      · subst hck
        simp [lookupA] at h
        subst h
        simp [setA]
        omega
      · simp only [lookupA, if_neg hck] at h
        simp only [setA, if_neg hck, List.map_cons, List.sum_cons]
        have := ih h
        omega

theorem sum_setA_fresh (l : List (Cell × Nat)) (c : Cell) (v : Nat)
    (h : lookupA l c = none) :
    ((setA l c v).map Prod.snd).sum = (l.map Prod.snd).sum + v := by
  rw [setA_of_not_mem _ _ _ h]
  simp

theorem keysA_setA {α : Type} (l : List (Cell × α)) (c : Cell) (v : α) :
    keysA (setA l c v) = if (lookupA l c).isNone then keysA l ++ [c] else keysA l := by
  induction l with
  | nil => simp [setA, keysA, lookupA]
  | cons kv rest ih =>
      obtain ⟨k, w⟩ := kv
      by_cases hck : c = k
      · subst hck; simp [setA, keysA, lookupA]
      · rcases hr : lookupA rest c with _ | v2
        · have ih2 : List.map Prod.fst (setA rest c v) = List.map Prod.fst rest ++ [c] := by
            have h3 := ih
            rw [hr] at h3
            simpa [keysA] using h3
          simp [setA, keysA, lookupA, hck, hr, ih2]
        · have ih2 : List.map Prod.fst (setA rest c v) = List.map Prod.fst rest := by
            have h3 := ih
            rw [hr] at h3
            simpa [keysA] using h3
          simp [setA, keysA, lookupA, hck, hr, ih2]

theorem lookupA_mem_keysA {α : Type} {l : List (Cell × α)} {c : Cell} :
    (lookupA l c).isSome ↔ c ∈ keysA l := by
  induction l with
  | nil => simp [lookupA, keysA]
  | cons kv rest ih =>
      obtain ⟨k, w⟩ := kv
      by_cases hck : c = k
      · subst hck; simp [lookupA, keysA]
      · simp [lookupA, keysA, hck, ih]

theorem nodup_keysA_setA {α : Type} {l : List (Cell × α)} (c : Cell) (v : α)
    (h : (keysA l).Nodup) : (keysA (setA l c v)).Nodup := by
  rw [keysA_setA]
  by_cases hr : (lookupA l c).isNone
  · rw [if_pos hr, List.nodup_append]
    refine ⟨h, by simp, ?_⟩
    intro a ha hb
    simp at hb
    subst hb
    rw [← lookupA_mem_keysA] at ha
    rw [Option.isNone_iff_eq_none.mp hr] at ha
    simp at ha
  · rw [if_neg hr]
    exact h

theorem length_le_of_keys {α : Type} {l : List (Cell × α)} {w h : Int}
    {start : Cell} (hnd : (keysA l).Nodup)
    (hsub : ∀ c ∈ keysA l, c = start ∨ c ∈ rectI w h) :
    l.length ≤ (rectI w h).card + 1 := by
  have h1 : l.length = (keysA l).length := by simp [keysA]
  rw [h1, ← List.toFinset_card_of_nodup hnd]
  have h2 : (keysA l).toFinset ⊆ insert start (rectI w h) := by
    intro c hc
    rw [List.mem_toFinset] at hc
    rcases hsub c hc with h3 | h3
    · simp [h3]
    · simp [h3, Finset.mem_insert]
  calc (keysA l).toFinset.card ≤ (insert start (rectI w h)).card :=
        Finset.card_le_card h2
    _ ≤ (rectI w h).card + 1 := Finset.card_insert_le _ _

theorem dirs_ne_self {cur : Cell} {d : Cell} (hd : d ∈ dirs) :
    (cur.1 + d.1, cur.2 + d.2) ≠ cur := by
  simp only [dirs, List.mem_cons, List.not_mem_nil, or_false] at hd
  rcases hd with rfl | rfl | rfl | rfl <;> (intro hc; rw [Prod.ext_iff] at hc; simp at hc)

theorem relaxDir_spec {w h : Int} {goal cur : Cell} {s s2 : AState} {d : Cell}
    (hr : relaxDir w h goal cur s d = some s2) :
    (s2 = s ∧ (¬ okG s.maze w h (cur.1 + d.1, cur.2 + d.2) ∨
       ∃ gc gn, lookupA s.g cur = some gc ∧
         lookupA s.g (cur.1 + d.1, cur.2 + d.2) = some gn ∧ gn ≤ gc + 1)) ∨
    ∃ gc, lookupA s.g cur = some gc ∧
      okG s.maze w h (cur.1 + d.1, cur.2 + d.2) ∧
      (lookupA s.g (cur.1 + d.1, cur.2 + d.2) = none ∨
        ∃ gn, lookupA s.g (cur.1 + d.1, cur.2 + d.2) = some gn ∧ gc + 1 < gn) ∧
      s2 = { s with
              g := setA s.g (cur.1 + d.1, cur.2 + d.2) (gc + 1),
              frontier := hpush s.frontier
                (gc + 1 + hman goal (cur.1 + d.1, cur.2 + d.2), (cur.1 + d.1, cur.2 + d.2)),
              parents := setA s.parents (cur.1 + d.1, cur.2 + d.2) (some cur) } := by
  unfold relaxDir at hr
  by_cases hb : 0 ≤ cur.1 + d.1 ∧ cur.1 + d.1 < w ∧ 0 ≤ cur.2 + d.2 ∧ cur.2 + d.2 < h
  · rw [if_pos hb] at hr
    match hm : s.maze (cur.1 + d.1, cur.2 + d.2) with
    | none => simp only [hm] at hr; exact Option.noConfusion hr
    | some v =>
        simp only [hm] at hr
        by_cases hv : v = St.wall
        · simp only [hv, ne_eq, not_true_eq_false, if_false] at hr
          injection hr with hr2
          refine Or.inl ⟨hr2.symm, Or.inl ?_⟩
          intro hok
          exact hok.2 (by rw [hm, hv])
        · rw [if_pos (by simp [hv])] at hr
          match hgc : lookupA s.g cur with
          | none => simp only [hgc] at hr; exact Option.noConfusion hr
          | some gc =>
              simp only [hgc] at hr
              have hok : okG s.maze w h (cur.1 + d.1, cur.2 + d.2) := by
                refine ⟨⟨hb.1, hb.2.1, hb.2.2.1, hb.2.2.2⟩, ?_⟩
                rw [hm]
                intro hcontra
                injection hcontra with hcv
                exact hv hcv
              match hgn : lookupA s.g (cur.1 + d.1, cur.2 + d.2) with
              | none =>
                  simp only [hgn] at hr
                  simp at hr
                  exact Or.inr ⟨gc, rfl, hok, Or.inl rfl, hr.symm⟩
              | some gn =>
                  simp only [hgn] at hr
                  by_cases hlt : gc + 1 < gn
                  · rw [if_pos (by simp [hlt])] at hr
                    injection hr with hr2
                    exact Or.inr ⟨gc, rfl, hok, Or.inr ⟨gn, rfl, hlt⟩, hr2.symm⟩
                  · rw [if_neg (by simp [hlt])] at hr
                    injection hr with hr2
                    exact Or.inl ⟨hr2.symm, Or.inr ⟨gc, gn, rfl, rfl, by omega⟩⟩
  · rw [if_neg hb] at hr
    injection hr with hr2
    refine Or.inl ⟨hr2.symm, Or.inl ?_⟩
    intro hok
    exact hb hok.1

theorem relaxDir_isSome {w h : Int} {goal cur : Cell} {s : AState} {d : Cell}
    (hg : IsGrid s.maze w h) (hcur : (lookupA s.g cur).isSome) :
    (relaxDir w h goal cur s d).isSome := by
  unfold relaxDir
  by_cases hb : 0 ≤ cur.1 + d.1 ∧ cur.1 + d.1 < w ∧ 0 ≤ cur.2 + d.2 ∧ cur.2 + d.2 < h
  · rw [if_pos hb]
    obtain ⟨v, hv⟩ := hg.some_of_mem (c := (cur.1 + d.1, cur.2 + d.2))
      (mem_rectI.mpr ⟨hb.1, hb.2.1, hb.2.2.1, hb.2.2.2⟩)
    simp only [hv]
    by_cases hw : v = St.wall
    · simp [hw]
    · rw [if_pos (by simp [hw])]
      obtain ⟨gc, hgc⟩ := Option.isSome_iff_exists.mp hcur
      simp only [hgc]
      match hgn : lookupA s.g (cur.1 + d.1, cur.2 + d.2) with
      | none => simp
      | some gn =>
          by_cases hlt : gc + 1 < gn
          · rw [if_pos (by simp [hlt])]; simp
          · rw [if_neg (by simp [hlt])]; simp
  · rw [if_neg hb]; simp

theorem relaxDir_gcur {w h : Int} {goal cur : Cell} {s s2 : AState} {d : Cell}
    (hd : d ∈ dirs) (hr : relaxDir w h goal cur s d = some s2) {gc : Nat}
    (hcur : lookupA s.g cur = some gc) : lookupA s2.g cur = some gc := by
  rcases relaxDir_spec hr with ⟨rfl, _⟩ | ⟨gc2, _, _, _, hs2⟩
  · exact hcur
  · rw [hs2]
    simpa [lookupA_setA_ne _ _ _ _ (fun hc => dirs_ne_self hd hc.symm)] using hcur

theorem lookupA_setA {α : Type} (l : List (Cell × α)) (c d : Cell) (v : α) :
    lookupA (setA l c v) d = if d = c then some v else lookupA l d := by
  by_cases hdc : d = c
  · subst hdc; simp [lookupA_setA_self]
  · simp [hdc, lookupA_setA_ne _ _ _ _ hdc]

theorem AMid_relax {w h : Int} {start goal cur : Cell} {gc0 : Nat}
    {done : List Cell} {s s2 : AState} {d : Cell} (hd : d ∈ dirs)
    (hmid : AMid w h start goal cur gc0 done s)
    (hr : relaxDir w h goal cur s d = some s2) :
    AMid w h start goal cur gc0 (done ++ [d]) s2 := by
  have hne : (cur.1 + d.1, cur.2 + d.2) ≠ cur := dirs_ne_self hd
  rcases relaxDir_spec hr with ⟨rfl, hcase⟩ | ⟨gc, hgc, hok, himpr, hs2⟩
  · refine ⟨hmid.core, hmid.hcur, hmid.hprog2, ?_⟩
    intro d2 hd2 hok2
    rcases List.mem_append.mp hd2 with h1 | h1
    · exact hmid.hdone d2 h1 hok2
    · simp at h1
      subst h1
      rcases hcase with hnok | ⟨gc, gn, hgc, hgn, hle⟩
      · exact absurd hok2 hnok
      · have hgg : gc = gc0 := by
          rw [hmid.hcur] at hgc
          injection hgc with h1
          omega
        exact ⟨gn, hgn, by omega⟩
  · -- an update happened at n := cur + d
    have hgceq : gc = gc0 := by
      rw [hmid.hcur] at hgc
      injection hgc with h1
      exact h1.symm
    subst hgceq
    set n : Cell := (cur.1 + d.1, cur.2 + d.2) with hndef
    obtain ⟨core, hcur0, hprog0, hdone0⟩ := hmid
    -- n is never the start (its cost 0 cannot be improved and is present)
    have hnstart : n ≠ start := by
      intro hns
      rcases himpr with hfresh | ⟨gn, hgn, hlt⟩
      · rw [hns, core.hg0] at hfresh
        exact Option.noConfusion hfresh
      · rw [hns, core.hg0] at hgn
        injection hgn with h1
        omega
    have hlookg : ∀ c : Cell, lookupA s2.g c =
        if c = n then some (gc + 1) else lookupA s.g c := by
      intro c
      rw [hs2]
      exact lookupA_setA _ _ _ _
    have hlookp : ∀ c : Cell, lookupA s2.parents c =
        if c = n then some (some cur) else lookupA s.parents c := by
      intro c
      rw [hs2]
      exact lookupA_setA _ _ _ _
    have hfr2 : s2.frontier = hpush s.frontier (gc + 1 + hman goal n, n) := by
      rw [hs2]
    have hmz2 : s2.maze = s.maze := by rw [hs2]
    have hglen2 : s2.g.length = s.g.length + (if n ∈ keysA s.g then 0 else 1) := by
      rw [hs2]
      show (setA s.g n (gc + 1)).length = _
      rw [length_setA]
      by_cases hmem : n ∈ keysA s.g
      · rw [if_pos hmem]
        have := lookupA_mem_keysA.mpr hmem
        rcases hv2 : lookupA s.g n with _ | v2
        · rw [hv2] at this; simp at this
        · simp [hv2]
      · rw [if_neg hmem]
        have : lookupA s.g n = none := by
          match hv2 : lookupA s.g n with
          | none => rfl
          | some v2 => exact absurd (lookupA_mem_keysA.mp (by rw [hv2]; simp)) hmem
        simp [this]
    -- the g-value of any cell only decreases, stays defined, and n gets gc+1
    have hmono : ∀ c gv2, lookupA s2.g c = some gv2 →
        (lookupA s.g c = some gv2 ∧ c ≠ n) ∨
        (c = n ∧ gv2 = gc + 1 ∧ ∀ gvo, lookupA s.g c = some gvo → gv2 < gvo) := by
      intro c gv2 hc
      rw [hlookg c] at hc
      by_cases hcn : c = n
      · rw [if_pos hcn] at hc
        injection hc with h1
        refine Or.inr ⟨hcn, h1.symm, ?_⟩
        intro gvo hgvo
        rcases himpr with hfresh | ⟨gn, hgn, hlt⟩
        · rw [hcn, hfresh] at hgvo; exact Option.noConfusion hgvo
        · rw [hcn, hgn] at hgvo
          injection hgvo with h2
          omega
      · rw [if_neg hcn] at hc
        exact Or.inl ⟨hc, hcn⟩
    have hkeep : ∀ c gv2, lookupA s.g c = some gv2 →
        ∃ gv3, lookupA s2.g c = some gv3 ∧ gv3 ≤ gv2 := by
      intro c gv2 hc
      rw [hlookg c]
      by_cases hcn : c = n
      · refine ⟨gc + 1, by rw [if_pos hcn], ?_⟩
        rcases himpr with hfresh | ⟨gn, hgn, hlt⟩
        · rw [hcn] at hc; rw [hc] at hfresh; exact Option.noConfusion hfresh
        · rw [hcn] at hc; rw [hc] at hgn
          injection hgn with h1
          omega
      · exact ⟨gv2, by rw [if_neg hcn]; exact hc, le_refl _⟩
    refine ⟨⟨?_, ?_, ?_, ?_, ?_, ?_, ?_, ?_, ?_, ?_, ?_, ?_, ?_⟩, ?_, ?_, ?_⟩
    · rw [hlookg, if_neg (fun hc => hnstart hc.symm)]
      exact core.hg0
    · rw [hlookp, if_neg (fun hc => hnstart hc.symm)]
      exact core.hpstart
    · intro c hc
      rw [hlookp c] at hc
      by_cases hcn : c = n
      · rw [if_pos hcn] at hc
        injection hc with h1
        exact Option.noConfusion h1
      · rw [if_neg hcn] at hc
        exact core.hpnone c hc
    · intro c
      rw [hlookg c, hlookp c]
      by_cases hcn : c = n
      · simp [hcn]
      · simp only [if_neg hcn]
        exact core.hdom c
    · rw [hs2]
      show (setA s.g n (gc + 1)).length = (setA s.parents n (some cur)).length
      rw [length_setA, length_setA, core.hlen]
      have : (lookupA s.g n).isNone = (lookupA s.parents n).isNone := by
        rcases hv2 : lookupA s.g n with _ | v2 <;> rcases hp2 : lookupA s.parents n with _ | p2
        · simp
        · have := (core.hdom n).mpr (by rw [hp2]; simp)
          rw [hv2] at this; simp at this
        · have := (core.hdom n).mp (by rw [hv2]; simp)
          rw [hp2] at this; simp at this
        · simp
      rw [this]
    · rw [hs2]
      exact nodup_keysA_setA _ _ core.hnodup
    · intro c hc
      rw [hlookg c] at hc
      by_cases hcn : c = n
      · right
        rw [hcn]
        exact mem_rectI.mpr hok.1
      · rw [if_neg hcn] at hc
        exact core.hrect c hc
    · intro c gv hc
      rw [hglen2]
      rw [hlookg c] at hc
      by_cases hcn : c = n
      · rw [if_pos hcn] at hc
        injection hc with h1
        subst h1
        have hcurval := core.hval cur gc hcur0
        rcases himpr with hfresh | ⟨gn, hgn, hlt⟩
        · have : n ∉ keysA s.g := by
            intro hmem
            have := lookupA_mem_keysA.mpr hmem
            rw [hfresh] at this; simp at this
          rw [if_neg this]
          omega
        · have hnv := core.hval n gn hgn
          have : n ∈ keysA s.g := lookupA_mem_keysA.mp (by rw [hgn]; simp)
          rw [if_pos this]
          omega
      · rw [if_neg hcn] at hc
        have := core.hval c gv hc
        by_cases hmem : n ∈ keysA s.g <;> simp [hmem] <;> omega
    · intro e he
      rw [hfr2] at he
      rcases mem_hpush.mp he with hold | rfl
      · obtain ⟨gv, hgv, hb⟩ := core.hopen e hold
        obtain ⟨gv3, hgv3, hle3⟩ := hkeep e.2 gv hgv
        refine ⟨gv3, hgv3, ?_⟩
        rcases hb with hb | hb
        · exact Or.inl (by omega)
        · exact Or.inr hb
      · refine ⟨gc + 1, ?_, Or.inl (le_refl _)⟩
        show lookupA s2.g n = some (gc + 1)
        rw [hlookg n, if_pos rfl]
    · rw [hfr2]
      exact pairwise_hpush core.hsorted _
    · intro c p hc
      rw [hlookp c] at hc
      by_cases hcn : c = n
      · rw [if_pos hcn] at hc
        injection hc with h1
        injection h1 with h2
        subst h2
        refine ⟨gc + 1, gc, ?_, ?_, by omega⟩
        · rw [hlookg c, if_pos hcn]
        · rw [hlookg cur, if_neg (fun hcc => hne hcc.symm)]
          exact hcur0
      · rw [if_neg hcn] at hc
        obtain ⟨gcv, gpv, hgcv, hgpv, hlt⟩ := core.hwfg c p hc
        obtain ⟨gp3, hgp3, hle3⟩ := hkeep p gpv hgpv
        refine ⟨gcv, gp3, ?_, hgp3, by omega⟩
        rw [hlookg c, if_neg hcn]
        exact hgcv
    · intro c p hc
      rw [hlookp c] at hc
      rw [hmz2]
      by_cases hcn : c = n
      · rw [if_pos hcn] at hc
        injection hc with h1
        injection h1 with h2
        subst h2
        subst hcn
        exact ⟨adj4_of_dirs hd, hok⟩
      · rw [if_neg hcn] at hc
        exact core.hsound c p hc
    · intro c hc
      rw [hmz2]
      rw [hlookg c] at hc
      by_cases hcn : c = n
      · subst hcn
        exact ReachG.step (core.hreach cur (by rw [hcur0]; simp))
          (adj4_of_dirs hd) hok
      · rw [if_neg hcn] at hc
        exact core.hreach c hc
    · rw [hlookg cur, if_neg (fun hc => hne hc.symm)]
      exact hcur0
    · intro c gv hc hccur
      rw [hlookg c] at hc
      by_cases hcn : c = n
      · rw [if_pos hcn] at hc
        injection hc with h1
        subst hcn
        left
        refine ⟨gc + 1 + hman goal n, ?_, by omega⟩
        rw [hfr2]
        exact mem_hpush.mpr (Or.inr rfl)
      · rw [if_neg hcn] at hc
        rcases hprog0 c gv hc hccur with ⟨fv, hmem, hfv⟩ | hmid2 | ⟨hcs, hmem⟩
        · left
          refine ⟨fv, ?_, hfv⟩
          rw [hfr2]
          exact mem_hpush.mpr (Or.inl hmem)
        · right; left
          intro d2 hd2 hok2
          rw [hmz2] at hok2
          obtain ⟨gn, hgn, hle2⟩ := hmid2 d2 hd2 hok2
          obtain ⟨gn3, hgn3, hle3⟩ := hkeep _ gn hgn
          exact ⟨gn3, hgn3, by omega⟩
        · right; right
          refine ⟨hcs, ?_⟩
          rw [hfr2]
          exact mem_hpush.mpr (Or.inl hmem)
    · intro d2 hd2 hok2
      rw [hmz2] at hok2
      rcases List.mem_append.mp hd2 with h1 | h1
      · obtain ⟨gn, hgn, hle2⟩ := hdone0 d2 h1 hok2
        obtain ⟨gn3, hgn3, hle3⟩ := hkeep _ gn hgn
        exact ⟨gn3, hgn3, by omega⟩
      · simp at h1
        subst h1
        refine ⟨gc + 1, ?_, le_refl _⟩
        rw [hlookg, if_pos rfl]

theorem AMid_fold {w h : Int} {start goal cur : Cell} {gc : Nat} :
    ∀ (ds done : List Cell) (s s2 : AState), (∀ d ∈ ds, d ∈ dirs) →
      AMid w h start goal cur gc done s →
      List.foldlM (relaxDir w h goal cur) s ds = some s2 →
      AMid w h start goal cur gc (done ++ ds) s2 := by
  intro ds
  induction ds with
  | nil =>
      intro done s s2 _ hmid hf
      simp at hf
      simpa [hf.symm] using hmid
  | cons d rest ih =>
      intro done s s2 hds hmid hf
      rw [List.foldlM_cons] at hf
      match hr : relaxDir w h goal cur s d with
      | none => simp only [hr] at hf; exact Option.noConfusion hf
      | some s1 =>
          simp only [hr, Option.bind_eq_bind, Option.some_bind] at hf
          have h1 := AMid_relax (hds d (by simp)) hmid hr
          have h2 := ih (done ++ [d]) s1 s2
            (fun d2 hd2 => hds d2 (by simp [hd2])) h1 hf
          simpa [List.append_assoc] using h2

theorem AInv_iter {w h : Int} {start goal : Cell} {s s2 : AState}
    {fstar : Nat} {cur : Cell} {rest : List (Nat × Cell)}
    (hinv : AInv w h start goal s)
    (hfr : s.frontier = (fstar, cur) :: rest)
    (hfold : List.foldlM (relaxDir w h goal cur) { s with frontier := rest } dirs =
      some s2) :
    AInv w h start goal s2 := by
  obtain ⟨gc, hgc, _⟩ := hinv.core.hopen (fstar, cur) (by rw [hfr]; simp)
  have hmid0 : AMid w h start goal cur gc [] { s with frontier := rest } := by
    refine ⟨⟨hinv.core.hg0, hinv.core.hpstart, hinv.core.hpnone, hinv.core.hdom,
      hinv.core.hlen, hinv.core.hnodup, hinv.core.hrect, hinv.core.hval, ?_, ?_,
      hinv.core.hwfg, hinv.core.hsound, hinv.core.hreach⟩, hgc, ?_, by simp⟩
    · intro e he
      exact hinv.core.hopen e (by rw [hfr]; simp [he])
    · have := hinv.core.hsorted
      rw [hfr] at this
      exact (List.pairwise_cons.mp this).2
    · intro c gv hc hccur
      rcases hinv.hprog c gv hc with ⟨fv, hmem, hfv⟩ | hmid2 | ⟨hcs, hmem⟩
      · left
        refine ⟨fv, ?_, hfv⟩
        rw [hfr] at hmem
        rcases List.mem_cons.mp hmem with heq | hmem2
        · injection heq with h1 h2
          exact absurd h2 hccur
        · exact hmem2
      · right; left
        exact hmid2
      · right; right
        refine ⟨hcs, ?_⟩
        rw [hfr] at hmem
        rcases List.mem_cons.mp hmem with heq | hmem2
        · injection heq with h1 h2
          rw [hcs] at hccur
          exact absurd h2.symm (fun hc2 => hccur hc2.symm)
        · exact hmem2
  have hmid2 := AMid_fold dirs [] _ s2 (fun d hd => hd) hmid0 hfold
  refine ⟨hmid2.core, ?_⟩
  intro c gv hc
  by_cases hccur : c = cur
  · subst hccur
    have hgv : gv = gc := by
      rw [hmid2.hcur] at hc
      injection hc with h1
      omega
    right; left
    intro d hd hok
    obtain ⟨gn, hgn, hle⟩ := hmid2.hdone d (by simpa using hd) hok
    exact ⟨gn, hgn, by omega⟩
  · exact hmid2.hprog2 c gv hc hccur

theorem AInv_init {maze : Grid} {w h : Int} (start goal : Cell) :
    AInv w h start goal ⟨maze, [(0, start)], [(start, 0)], [(start, none)]⟩ := by
  refine ⟨⟨?_, ?_, ?_, ?_, rfl, ?_, ?_, ?_, ?_, ?_, ?_, ?_, ?_⟩, ?_⟩
  · simp [lookupA]
  · simp [lookupA]
  · intro c hc
    by_cases hcs : c = start
    · exact hcs
    · simp [lookupA, hcs] at hc
  · intro c
    by_cases hcs : c = start <;> simp [lookupA, hcs]
  · simp [keysA]
  · intro c hc
    by_cases hcs : c = start
    · exact Or.inl hcs
    · simp [lookupA, hcs] at hc
  · intro c gv hc
    by_cases hcs : c = start
    · subst hcs
      have hgv : gv = 0 := by simp [lookupA] at hc; omega
      subst hgv
      simp
    · simp [lookupA, hcs] at hc
  · intro e he
    simp at he
    subst he
    refine ⟨0, by simp [lookupA], Or.inr ⟨rfl, rfl⟩⟩
  · simp
  · intro c p hc
    by_cases hcs : c = start <;> simp [lookupA, hcs] at hc
  · intro c p hc
    by_cases hcs : c = start <;> simp [lookupA, hcs] at hc
  · intro c hc
    by_cases hcs : c = start
    · subst hcs; exact ReachG.refl
    · simp [lookupA, hcs] at hc
  · intro c gv hc
    by_cases hcs : c = start
    · subst hcs
      right; right
      exact ⟨rfl, by simp⟩
    · simp [lookupA, hcs] at hc

theorem relaxFold_isSome {w h : Int} {goal cur : Cell} :
    ∀ (ds : List Cell) (s : AState), (∀ d ∈ ds, d ∈ dirs) →
      IsGrid s.maze w h → (lookupA s.g cur).isSome →
      (List.foldlM (relaxDir w h goal cur) s ds).isSome := by
  intro ds
  induction ds with
  | nil => intro s _ _ _; simp
  | cons d rest ih =>
      intro s hds hg hcur
      rw [List.foldlM_cons]
      obtain ⟨s1, hs1⟩ := Option.isSome_iff_exists.mp (relaxDir_isSome hg hcur)
      rw [hs1]
      simp only [Option.bind_eq_bind, Option.some_bind]
      obtain ⟨gc, hgc⟩ := Option.isSome_iff_exists.mp hcur
      refine ih s1 (fun d2 hd2 => hds d2 (by simp [hd2])) ?_ ?_
      · rw [relaxDir_maze hs1]; exact hg
      · rw [relaxDir_gcur (hds d (by simp)) hs1 hgc]; simp

theorem astarAux_exit {goal : Cell} {w h : Int} :
    ∀ {fuel : Nat} {s s2 : AState}, astarAux goal w h fuel s = some s2 →
      s2.frontier = [] ∨ ∃ f r, s2.frontier = (f, goal) :: r := by
  intro fuel
  induction fuel with
  | zero => intro s s2 hrun; exact absurd hrun (by simp [astarAux])
  | succ f ih =>
      intro s s2 hrun
      rw [astarAux] at hrun
      match hq : s.frontier with
      | [] =>
          simp only [hq] at hrun; simp at hrun
          rw [← hrun]
          exact Or.inl hq
      | (pr, cur) :: rest =>
          simp only [hq] at hrun
          by_cases hc : cur = goal
          · rw [if_pos hc] at hrun
            simp at hrun
            rw [← hrun]
            subst hc
            exact Or.inr ⟨pr, rest, hq⟩
          · rw [if_neg hc] at hrun
            match hs : List.foldlM (relaxDir w h goal cur)
                { s with frontier := rest } dirs with
            | none => simp only [hs] at hrun; exact Option.noConfusion hrun
            | some s1 =>
                simp only [hs] at hrun
                exact ih hrun

theorem bfsAux_exit {goal : Cell} {w h : Int} :
    ∀ {fuel : Nat} {s s2 : SState}, bfsAux goal w h fuel s = some s2 →
      s2.frontier = [] ∨ ∃ r, s2.frontier = goal :: r := by
  intro fuel
  induction fuel with
  | zero => intro s s2 hrun; exact absurd hrun (by simp [bfsAux])
  | succ f ih =>
      intro s s2 hrun
      rw [bfsAux] at hrun
      match hq : s.frontier with
      | [] =>
          simp only [hq] at hrun; simp at hrun
          rw [← hrun]
          exact Or.inl hq
      | c :: rest =>
          simp only [hq] at hrun
          by_cases hc : c = goal
          · rw [if_pos hc] at hrun
            simp at hrun
            rw [← hrun]
            subst hc
            exact Or.inr ⟨rest, hq⟩
          · rw [if_neg hc] at hrun
            match hs : searchStep s.maze w h c (rest, s.parents) with
            | none => simp only [hs] at hrun; exact Option.noConfusion hrun
            | some (q, p) =>
                simp only [hs] at hrun
                exact ih hrun

theorem dfsAux_exit {goal : Cell} {w h : Int} :
    ∀ {fuel : Nat} {s s2 : SState}, dfsAux goal w h fuel s = some s2 →
      s2.frontier.getLast? = none ∨ s2.frontier.getLast? = some goal := by
  intro fuel
  induction fuel with
  | zero => intro s s2 hrun; exact absurd hrun (by simp [dfsAux])
  | succ f ih =>
      intro s s2 hrun
      rw [dfsAux] at hrun
      match hq : s.frontier.getLast? with
      | none =>
          simp only [hq] at hrun; simp at hrun
          rw [← hrun]
          exact Or.inl hq
      | some c =>
          simp only [hq] at hrun
          by_cases hc : c = goal
          · rw [if_pos hc] at hrun
            simp at hrun
            rw [← hrun]
            subst hc
            exact Or.inr hq
          · rw [if_neg hc] at hrun
            match hs : searchStep s.maze w h c (s.frontier.dropLast, s.parents) with
            | none => simp only [hs] at hrun; exact Option.noConfusion hrun
            | some (q, p) =>
                simp only [hs] at hrun
                exact ih hrun

theorem astarAux_ainv {goal : Cell} {w h : Int} {start : Cell} :
    ∀ {fuel : Nat} {s s2 : AState}, astarAux goal w h fuel s = some s2 →
      AInv w h start goal s → AInv w h start goal s2 := by
  intro fuel
  induction fuel with
  | zero => intro s s2 hrun; exact absurd hrun (by simp [astarAux])
  | succ f ih =>
      intro s s2 hrun hinv
      rw [astarAux] at hrun
      match hq : s.frontier with
      | [] => simp only [hq] at hrun; simp at hrun; rw [← hrun]; exact hinv
      | (pr, cur) :: rest =>
          simp only [hq] at hrun
          by_cases hc : cur = goal
          · rw [if_pos hc] at hrun; simp at hrun; rw [← hrun]; exact hinv
          · rw [if_neg hc] at hrun
            match hs : List.foldlM (relaxDir w h goal cur)
                { s with frontier := rest } dirs with
            | none => simp only [hs] at hrun; exact Option.noConfusion hrun
            | some s1 =>
                simp only [hs] at hrun
                exact ih hrun (AInv_iter hinv hq hs)


theorem potA_relax {w h : Int} {start goal cur : Cell} {s s2 : AState} {d : Cell}
    {K : Nat} (hK : (rectI w h).card + 3 ≤ K)
    (hcore : ACore w h start goal s) (hd : d ∈ dirs)
    (hr : relaxDir w h goal cur s d = some s2) :
    potA w h K s2 ≤ potA w h K s := by
  rcases relaxDir_spec hr with ⟨rfl, _⟩ | ⟨gc, hgc, hok, himpr, hs2⟩
  · exact le_refl _
  · set n : Cell := (cur.1 + d.1, cur.2 + d.2) with hndef
    have hgcb : gc + 1 ≤ (rectI w h).card + 1 := by
      have h1 := hcore.hval cur gc hgc
      have h2 := @length_le_of_keys Nat s.g w h start hcore.hnodup
        (fun c hc => hcore.hrect c (lookupA_mem_keysA.mpr hc))
      omega
    have hfr2 : s2.frontier.length = s.frontier.length + 1 := by
      rw [hs2]
      exact length_hpush _ _
    rcases himpr with hfresh | ⟨gn, hgn, hlt⟩
    · -- new key: the K-weighted term drops
      have hmemf : n ∈ (rectI w h).filter (fun c => lookupA s.g c = none) :=
        Finset.mem_filter.mpr ⟨mem_rectI.mpr hok.1, hfresh⟩
      have hfilter : (rectI w h).filter (fun c => lookupA s2.g c = none) =
          ((rectI w h).filter (fun c => lookupA s.g c = none)).erase n := by
        ext c
        simp only [Finset.mem_filter, Finset.mem_erase]
        constructor
        · rintro ⟨hcr, hcl⟩
          rw [hs2] at hcl
          have hcl2 : lookupA (setA s.g n (gc + 1)) c = none := hcl
          rw [lookupA_setA] at hcl2
          by_cases hcn : c = n
          · rw [if_pos hcn] at hcl2; exact Option.noConfusion hcl2
          · rw [if_neg hcn] at hcl2
            exact ⟨hcn, hcr, hcl2⟩
        · rintro ⟨hcn, hcr, hcl⟩
          refine ⟨hcr, ?_⟩
          rw [hs2]
          show lookupA (setA s.g n (gc + 1)) c = none
          rw [lookupA_setA, if_neg hcn]
          exact hcl
      have hsum : (s2.g.map Prod.snd).sum = (s.g.map Prod.snd).sum + (gc + 1) := by
        rw [hs2]
        exact sum_setA_fresh _ _ _ hfresh
      have hcpos : 0 < ((rectI w h).filter (fun c => lookupA s.g c = none)).card :=
        Finset.card_pos.mpr ⟨n, hmemf⟩
      have hcerase := Finset.card_erase_of_mem hmemf
      unfold potA
      rw [hfilter, hsum, hfr2, hcerase]
      have hcle : ((rectI w h).filter (fun c => lookupA s.g c = none)).card ≤
          (rectI w h).card := Finset.card_le_card (Finset.filter_subset _ _)
      have hKm : K * (((rectI w h).filter (fun c => lookupA s.g c = none)).card - 1) + K =
          K * ((rectI w h).filter (fun c => lookupA s.g c = none)).card := by
        have : ((rectI w h).filter (fun c => lookupA s.g c = none)).card - 1 + 1 =
            ((rectI w h).filter (fun c => lookupA s.g c = none)).card := by omega
        calc K * (((rectI w h).filter (fun c => lookupA s.g c = none)).card - 1) + K
            = K * ((((rectI w h).filter (fun c => lookupA s.g c = none)).card - 1) + 1) := by ring
          _ = _ := by rw [this]
      omega
    · -- existing key improved: the sum term drops
      have hfilter : (rectI w h).filter (fun c => lookupA s2.g c = none) =
          (rectI w h).filter (fun c => lookupA s.g c = none) := by
        ext c
        simp only [Finset.mem_filter]
        rw [hs2]
        show _ ∧ lookupA (setA s.g n (gc + 1)) c = none ↔ _
        rw [lookupA_setA]
        by_cases hcn : c = n
        · rw [if_pos hcn, hcn, hgn]
          simp
        · rw [if_neg hcn]
      have hsum : (s2.g.map Prod.snd).sum + gn = (s.g.map Prod.snd).sum + (gc + 1) := by
        rw [hs2]
        exact sum_setA _ _ _ _ hgn
      unfold potA
      rw [hfilter, hfr2]
      omega

theorem potA_fold {w h : Int} {start goal cur : Cell} {gc : Nat} {K : Nat}
    (hK : (rectI w h).card + 3 ≤ K) :
    ∀ (ds done : List Cell) (s s2 : AState), (∀ d ∈ ds, d ∈ dirs) →
      AMid w h start goal cur gc done s →
      List.foldlM (relaxDir w h goal cur) s ds = some s2 →
      potA w h K s2 ≤ potA w h K s := by
  intro ds
  induction ds with
  | nil =>
      intro done s s2 _ _ hf
      simp at hf
      rw [hf]
  | cons d rest ih =>
      intro done s s2 hds hmid hf
      rw [List.foldlM_cons] at hf
      match hr : relaxDir w h goal cur s d with
      | none => simp only [hr] at hf; exact Option.noConfusion hf
      | some s1 =>
          simp only [hr, Option.bind_eq_bind, Option.some_bind] at hf
          have h1 := potA_relax hK hmid.core (hds d (by simp)) hr
          have hmid1 := AMid_relax (hds d (by simp)) hmid hr
          have h2 := ih (done ++ [d]) s1 s2
            (fun d2 hd2 => hds d2 (by simp [hd2])) hmid1 hf
          omega

theorem AMid_of_pop {w h : Int} {start goal : Cell} {s : AState}
    {fstar : Nat} {cur : Cell} {rest : List (Nat × Cell)}
    (hinv : AInv w h start goal s)
    (hfr : s.frontier = (fstar, cur) :: rest) :
    ∃ gc, AMid w h start goal cur gc [] { s with frontier := rest } := by
  obtain ⟨gc, hgc, _⟩ := hinv.core.hopen (fstar, cur) (by rw [hfr]; simp)
  refine ⟨gc, ⟨⟨hinv.core.hg0, hinv.core.hpstart, hinv.core.hpnone, hinv.core.hdom,
    hinv.core.hlen, hinv.core.hnodup, hinv.core.hrect, hinv.core.hval, ?_, ?_,
    hinv.core.hwfg, hinv.core.hsound, hinv.core.hreach⟩, hgc, ?_, by simp⟩⟩
  · intro e he
    exact hinv.core.hopen e (by rw [hfr]; simp [he])
  · have := hinv.core.hsorted
    rw [hfr] at this
    exact (List.pairwise_cons.mp this).2
  · intro c gv hc hccur
    rcases hinv.hprog c gv hc with ⟨fv, hmem, hfv⟩ | hmid2 | ⟨hcs, hmem⟩
    · left
      refine ⟨fv, ?_, hfv⟩
      rw [hfr] at hmem
      rcases List.mem_cons.mp hmem with heq | hmem2
      · injection heq with h1 h2
        exact absurd h2 hccur
      · exact hmem2
    · right; left
      exact hmid2
    · right; right
      refine ⟨hcs, ?_⟩
      rw [hfr] at hmem
      rcases List.mem_cons.mp hmem with heq | hmem2
      · injection heq with h1 h2
        rw [hcs] at hccur
        exact absurd h2.symm (fun hc2 => hccur hc2.symm)
      · exact hmem2

theorem astarAux_isSome {goal : Cell} {w h : Int} {start : Cell} {K : Nat}
    (hK : (rectI w h).card + 3 ≤ K) :
    ∀ (fuel : Nat) (s : AState), AInv w h start goal s → IsGrid s.maze w h →
      potA w h K s + 1 ≤ fuel → (astarAux goal w h fuel s).isSome := by
  intro fuel
  induction fuel with
  | zero => intro s _ _ hf; omega
  | succ f ih =>
      intro s hinv hg hf
      rcases hfr : s.frontier with _ | ⟨⟨pr, cur⟩, rest⟩
      · rw [astarAux]; simp only [hfr]; simp
      · rw [astarAux]
        simp only [hfr]
        by_cases hc : cur = goal
        · rw [if_pos hc]; simp
        · rw [if_neg hc]
          obtain ⟨gc, hmid0⟩ := AMid_of_pop hinv hfr
          have hcur : (lookupA ({ s with frontier := rest } : AState).g cur).isSome := by
            rw [hmid0.hcur]; simp
          obtain ⟨s2, hs2⟩ := Option.isSome_iff_exists.mp
            (relaxFold_isSome dirs { s with frontier := rest } (fun d hd => hd) hg hcur)
          rw [hs2]
          have hpot2 := potA_fold hK dirs [] _ s2 (fun d hd => hd) hmid0 hs2
          have hpotmid : potA w h K ({ s with frontier := rest } : AState) + 1 =
              potA w h K s := by
            unfold potA
            rw [hfr]
            simp
            omega
          refine ih s2 (AInv_iter hinv hfr hs2) ?_ ?_
          · rw [relaxFold_maze hs2]
            exact hg
          · omega

/-! ### Optimality bound for `astar` -/

theorem AInv_toChain {w h : Int} {start goal : Cell} {s : AState}
    (hinv : AInv w h start goal s) :
    ChainInv s.maze w h start s.parents (fun c => (lookupA s.g c).getD 0) := by
  refine ⟨hinv.core.hpstart, hinv.core.hpnone, ?_, hinv.core.hsound, ?_⟩
  · intro c p hc
    obtain ⟨gc, gp, hgc, hgp, hlt⟩ := hinv.core.hwfg c p hc
    refine ⟨(hinv.core.hdom p).mp (by rw [hgp]; simp), ?_⟩
    rw [hgc, hgp]
    simpa using hlt
  · intro c
    rcases hgc : lookupA s.g c with _ | gv
    · simp
    · have := hinv.core.hval c gv hgc
      have hl := hinv.core.hlen
      simp
      omega

theorem astar_path_bound {w h : Int} {start goal : Cell} {s : AState}
    (hinv : AInv w h start goal s) :
    ∀ (p : List Cell) (t : Cell), p.getLast? = some t → p.head? = some start →
      List.Chain' adj4 p → (∀ e ∈ p.tail, okG s.maze w h e) →
      (∃ gv, lookupA s.g t = some gv ∧ gv + 1 ≤ p.length) ∨
      (∃ fv c, (fv, c) ∈ s.frontier ∧ fv + 1 ≤ p.length + hman goal t) := by
  intro p
  induction p using List.reverseRecOn with
  | nil => intro t ht; simp at ht
  | append_singleton q a ih =>
      intro t ht hhead hchain htail
      rw [List.getLast?_concat] at ht
      injection ht with ht2
      subst ht2
      cases hq : q with
      | nil =>
          subst hq
          simp at hhead
          subst hhead
          left
          exact ⟨0, hinv.core.hg0, by simp⟩
      | cons q0 qrest =>
          have hqne : q ≠ [] := by rw [hq]; simp
          obtain ⟨t2, ht2⟩ := Option.isSome_iff_exists.mp
            (by rw [List.getLast?_isSome]; exact hqne)
          have hchq : List.Chain' adj4 q ∧ adj4 t2 a := by
            rw [List.chain'_append] at hchain
            refine ⟨hchain.1, ?_⟩
            exact hchain.2.2 t2 ht2 a (by simp)
          have hheadq : q.head? = some start := by
            rw [List.head?_append_of_ne_nil _ hqne] at hhead
            exact hhead
          have htailq : ∀ e ∈ q.tail, okG s.maze w h e := by
            intro e he
            refine htail e ?_
            rw [List.tail_append_of_ne_nil hqne]
            exact List.mem_append_left _ he
          have hta : okG s.maze w h a := by
            refine htail a ?_
            rw [List.tail_append_of_ne_nil hqne]
            rw [hq]
            simp
          have hql : q.length = qrest.length + 1 := by rw [hq]; simp
          have hadj : adj4 t2 a := hchq.2
          have hman2 : hman goal t2 ≤ hman goal a + 1 := hman_adj hadj
          rcases ih t2 ht2 hheadq hchq.1 htailq with ⟨gv, hgv, hb⟩ | ⟨fv, c, hmem, hb⟩
          · rcases hinv.hprog t2 gv hgv with ⟨fv, hmem, hfv⟩ | hmid | ⟨hcs, hmem⟩
            · right
              refine ⟨fv, t2, hmem, ?_⟩
              subst hfv
              simp only [List.length_append, List.length_cons, List.length_nil]
              omega
            · obtain ⟨d, hd, hdt⟩ := dirs_of_adj4 hadj
              obtain ⟨gn, hgn, hle⟩ := hmid d hd (by rw [← hdt]; exact hta)
              left
              refine ⟨gn, by rw [← hdt] at hgn; exact hgn, ?_⟩
              simp only [List.length_append, List.length_cons, List.length_nil]
              omega
            · right
              refine ⟨0, start, hmem, ?_⟩
              simp only [List.length_append, List.length_cons, List.length_nil]
              omega
          · right
            refine ⟨fv, c, hmem, ?_⟩
            simp only [List.length_append, List.length_cons, List.length_nil]
            omega

theorem tupLe_fst {a b : Nat × Cell} (h : tupLe a b) : a.1 ≤ b.1 := by
  rcases h with h | ⟨h, _⟩
  · omega
  · omega

theorem astar_final_bound {w h : Int} {start goal : Cell} {s : AState}
    (hinv : AInv w h start goal s)
    (hexit : s.frontier = [] ∨ ∃ f r, s.frontier = (f, goal) :: r)
    {p : List Cell} (hlast : p.getLast? = some goal) (hhead : p.head? = some start)
    (hchain : List.Chain' adj4 p) (htail : ∀ e ∈ p.tail, okG s.maze w h e) :
    ∃ gv, lookupA s.g goal = some gv ∧ gv + 1 ≤ p.length := by
  rcases astar_path_bound hinv p goal hlast hhead hchain htail with
    ⟨gv, hgv, hb⟩ | ⟨fv, c, hmem, hb⟩
  · exact ⟨gv, hgv, hb⟩
  · rcases hexit with hemp | ⟨fstar, r, hfr⟩
    · rw [hemp] at hmem
      simp at hmem
    · have hfle : fstar ≤ fv := by
        rw [hfr] at hmem
        rcases List.mem_cons.mp hmem with heq | hmem2
        · injection heq with h1 h2
          omega
        · have hsorted := hinv.core.hsorted
          rw [hfr] at hsorted
          have := (List.pairwise_cons.mp hsorted).1 (fv, c) hmem2
          exact tupLe_fst this
      obtain ⟨gg, hgg, hbnd⟩ := hinv.core.hopen (fstar, goal) (by rw [hfr]; simp)
      refine ⟨gg, hgg, ?_⟩
      rcases hbnd with hbnd | ⟨hgs, hf0⟩
      · rw [hman_self] at hbnd hb
        omega
      · have hgg0 : gg = 0 := by
          rw [hgs] at hgg
          rw [hinv.core.hg0] at hgg
          injection hgg with h1
          omega
        have hppos : 1 ≤ p.length := by
          cases p with
          | nil => simp at hlast
          | cons a as => simp
        omega

/-! ### Solver-level results for `astar` -/

theorem astar_eq (maze : Grid) (start goal : Cell) (w h : Int) :
    astar maze start goal w h =
      (astarAux goal w h ((w.toNat * h.toNat + 2) * (w.toNat * h.toNat + 3) + 2)
        ⟨maze, [(0, start)], [(start, 0)], [(start, none)]⟩).bind
        (fun s => reconstructO s.parents goal) := rfl

theorem astar_run (maze : Grid) (start goal : Cell) (w h : Int)
    (hg : IsGrid maze w h) :
    ∃ s2 : AState,
      astarAux goal w h ((w.toNat * h.toNat + 2) * (w.toNat * h.toNat + 3) + 2)
        ⟨maze, [(0, start)], [(start, 0)], [(start, none)]⟩ = some s2 ∧
      AInv w h start goal s2 ∧ s2.maze = maze ∧
      (s2.frontier = [] ∨ ∃ f r, s2.frontier = (f, goal) :: r) := by
  set a := w.toNat * h.toNat with ha
  set K := (rectI w h).card + 3 with hK
  have hrc : (rectI w h).card = a := by rw [rectI_card, ha]
  have hinit : AInv w h start goal ⟨maze, [(0, start)], [(start, 0)], [(start, none)]⟩ :=
    AInv_init start goal
  have hpot : potA w h K ⟨maze, [(0, start)], [(start, 0)], [(start, none)]⟩ + 1 ≤
      (a + 2) * (a + 3) + 2 := by
    unfold potA
    have hF : ((rectI w h).filter
        (fun c => lookupA ([(start, 0)] : List (Cell × Nat)) c = none)).card ≤ a := by
      rw [← hrc]
      exact Finset.card_le_card (Finset.filter_subset _ _)
    have h1 : K * ((rectI w h).filter
        (fun c => lookupA ([(start, 0)] : List (Cell × Nat)) c = none)).card ≤ K * a :=
      Nat.mul_le_mul_left K hF
    have h2 : K * a = (a + 3) * a := by rw [hK, hrc]
    have h3 : (a + 3) * a ≤ (a + 3) * (a + 2) := Nat.mul_le_mul_left _ (by omega)
    have h4 : (a + 3) * (a + 2) = (a + 2) * (a + 3) := Nat.mul_comm _ _
    simp only [List.map_cons, List.map_nil, List.sum_cons, List.sum_nil,
      List.length_cons, List.length_nil]
    omega
  obtain ⟨s2, hs2⟩ := Option.isSome_iff_exists.mp
    (@astarAux_isSome goal w h start K (by rw [hK]) ((a + 2) * (a + 3) + 2)
      ⟨maze, [(0, start)], [(start, 0)], [(start, none)]⟩ hinit hg hpot)
  refine ⟨s2, hs2, astarAux_ainv hs2 hinit, astarAux_maze hs2, astarAux_exit hs2⟩

theorem astar_state_inv {maze : Grid} {start goal : Cell} {w h : Int} {s2 : AState}
    {fuel : Nat}
    (hs2 : astarAux goal w h fuel ⟨maze, [(0, start)], [(start, 0)], [(start, none)]⟩ =
      some s2) : AInv w h start goal s2 ∧ s2.maze = maze :=
  ⟨astarAux_ainv hs2 (AInv_init start goal), astarAux_maze hs2⟩

theorem astar_isSome (maze : Grid) (start goal : Cell) (w h : Int)
    (hg : IsGrid maze w h) : (astar maze start goal w h).isSome := by
  obtain ⟨s2, hs2, hinv, hmz, _⟩ := astar_run maze start goal w h hg
  obtain ⟨p, hp, _, _⟩ := sound_path (AInv_toChain hinv) goal
  rw [astar_eq, hs2]
  simp [hp]

theorem astar_props {maze : Grid} {start goal : Cell} {w h : Int} {p : List Cell}
    (hp : astar maze start goal w h = some p) (hlen : 2 ≤ p.length) :
    p.head? = some start ∧ p.getLast? = some goal ∧ List.Chain' adj4 p ∧
      ∀ e ∈ p, e ≠ start → okG maze w h e := by
  rw [astar_eq] at hp
  obtain ⟨s2, hs2, hrec⟩ := Option.bind_eq_some.mp hp
  obtain ⟨hinv, hmz⟩ := astar_state_inv hs2
  obtain ⟨p2, hp2, hnil, hsome⟩ := sound_path (AInv_toChain hinv) goal
  rw [hp2] at hrec
  injection hrec with hrec2
  subst hrec2
  rw [hmz] at hsome
  match hkey : lookupA s2.parents goal with
  | none =>
      rw [hnil hkey] at hlen
      simp at hlen
  | some v =>
      exact hsome (by rw [hkey]; simp)

theorem astar_unreach {maze : Grid} {start goal : Cell} {w h : Int}
    (hg : IsGrid maze w h) (hse : okE maze start)
    (hur : ¬ ReachE maze start goal) :
    astar maze start goal w h = some [goal] := by
  obtain ⟨s2, hs2, hinv, hmz, _⟩ := astar_run maze start goal w h hg
  have hkey : lookupA s2.parents goal = none := by
    match hlc : lookupA s2.parents goal with
    | none => rfl
    | some v =>
        have hgd : (lookupA s2.g goal).isSome :=
          (hinv.core.hdom goal).mpr (by rw [hlc]; simp)
        have := hinv.core.hreach goal hgd
        rw [hmz] at this
        exact absurd (ReachG_to_ReachE hg hse this) hur
  rw [astar_eq, hs2]
  simp [reconstructO_no_entry _ _ hkey]

theorem ReachE_start {g : Grid} {s c : Cell} (hr : ReachE g s c) : okE g s := by
  induction hr with
  | refl hs => exact hs
  | step _ _ _ ih => exact ih

theorem ReachE_exists_path {g : Grid} {s : Cell} :
    ∀ {t : Cell}, ReachE g s t → ∃ p : List Cell, ValidPathE g s t p := by
  intro t hr
  induction hr with
  | refl hs => exact ⟨[s], by simp, by simp, by simp, by simpa using hs⟩
  | @step c d hrc hadj hok ih =>
      obtain ⟨p, hp1, hp2, hp3, hp4⟩ := ih
      have hpne : p ≠ [] := by
        intro hcon
        rw [hcon] at hp1
        simp at hp1
      refine ⟨p ++ [d], ?_, ?_, ?_, ?_⟩
      · rw [List.head?_append_of_ne_nil _ hpne]
        exact hp1
      · rw [List.getLast?_concat]
      · rw [List.chain'_append]
        refine ⟨hp3, by simp, ?_⟩
        intro x hx y hy
        simp at hy
        subst hy
        rw [hp2] at hx
        injection hx with hx2
        subst hx2
        exact hadj
      · intro e he
        rcases List.mem_append.mp he with h1 | h1
        · exact hp4 e h1
        · simp at h1
          subst h1
          exact hok

theorem astar_optimal {maze : Grid} {start goal : Cell} {w h : Int}
    (hg : IsGrid maze w h) (hre : ReachE maze start goal) :
    ∃ pa : List Cell, astar maze start goal w h = some pa ∧
      ValidPathE maze start goal pa ∧
      ∀ q : List Cell, ValidPathE maze start goal q → pa.length ≤ q.length := by
  obtain ⟨s2, hs2, hinv, hmz, hexit⟩ := astar_run maze start goal w h hg
  have hbound : ∀ q : List Cell, ValidPathE maze start goal q →
      ∃ gv, lookupA s2.g goal = some gv ∧ gv + 1 ≤ q.length := by
    rintro q ⟨hq1, hq2, hq3, hq4⟩
    refine astar_final_bound hinv hexit hq2 hq1 hq3 ?_
    intro e he
    rw [hmz]
    exact (hg.okG_iff_okE e).mpr (hq4 e (List.mem_of_mem_tail he))
  obtain ⟨q0, hq0⟩ := ReachE_exists_path hre
  obtain ⟨gv, hgv, _⟩ := hbound q0 hq0
  have hkey : (lookupA s2.parents goal).isSome :=
    (hinv.core.hdom goal).mp (by rw [hgv]; simp)
  obtain ⟨l, hch, hrec, hlen⟩ := PInv_reconstruct (AInv_toChain hinv) goal
  obtain ⟨hlast, hchain, hok⟩ := PChain_props (AInv_toChain hinv) hch hkey
  have hse : okE maze start := ReachE_start hre
  refine ⟨l.reverse, ?_, ⟨?_, ?_, ?_, ?_⟩, ?_⟩
  · rw [astar_eq, hs2]
    simp [hrec]
  · rw [List.head?_reverse]
    exact hlast
  · rw [List.getLast?_reverse]
    exact PChain_head hch
  · rw [List.chain'_reverse]
    exact hchain
  · intro e he
    rw [List.mem_reverse] at he
    by_cases hes : e = start
    · rw [hes]; exact hse
    · have := hok e he hes
      rw [hmz] at this
      exact (hg.okG_iff_okE e).mp this
  · intro q hq
    obtain ⟨gv2, hgv2, hb2⟩ := hbound q hq
    have hgveq : gv2 = gv := by
      rw [hgv] at hgv2
      injection hgv2 with h1
      omega
    subst hgveq
    have hmu : (lookupA s2.g goal).getD 0 = gv2 := by rw [hgv2]; simp
    rw [List.length_reverse]
    rw [hmu] at hlen
    omega

/-! ### BFS optimality: a ghost breadth-first distance map -/

theorem pairwise_of_rel {α : Type} {R : α → α → Prop} :
    ∀ (l : List α), (∀ a ∈ l, ∀ b ∈ l, R a b) → l.Pairwise R := by
  intro l
  induction l with
  | nil => intro _; exact List.Pairwise.nil
  | cons a rest ih =>
      intro hall
      refine List.Pairwise.cons ?_ (ih ?_)
      · intro b hb
        exact hall a (by simp) b (by simp [hb])
      · intro x hx y hy
        exact hall x (by simp [hx]) y (by simp [hy])

theorem dirStep_expands {maze : Grid} {w h : Int} {cur : Cell}
    {qp qp2 : List Cell × Parents} {d : Cell}
    (hd : dirStep maze w h cur qp d = some qp2)
    (hok : okG maze w h (cur.1 + d.1, cur.2 + d.2)) :
    (lookupA qp2.2 (cur.1 + d.1, cur.2 + d.2)).isSome := by
  obtain ⟨hb, hwall⟩ := hok
  unfold dirStep at hd
  rw [if_pos ⟨hb.1, hb.2.1, hb.2.2.1, hb.2.2.2⟩] at hd
  match hm : maze (cur.1 + d.1, cur.2 + d.2) with
  | none => simp only [hm] at hd; exact Option.noConfusion hd
  | some v =>
      simp only [hm] at hd
      have hvw : v ≠ St.wall := by
        intro hcon
        exact hwall (by rw [hm, hcon])
      by_cases hcond : v ≠ St.wall ∧ (lookupA qp.2 (cur.1 + d.1, cur.2 + d.2)).isNone
      · rw [if_pos hcond] at hd
        injection hd with hd2
        rw [← hd2]
        rw [lookupA_setA_self]
        simp
      · rw [if_neg hcond] at hd
        injection hd with hd2
        rw [← hd2]
        match hlk : lookupA qp.2 (cur.1 + d.1, cur.2 + d.2) with
        | none => exact absurd ⟨hvw, by rw [hlk]; rfl⟩ hcond
        | some u => rfl

theorem searchFold_mono {maze : Grid} {w h : Int} {cur : Cell} {n : Cell} :
    ∀ (ds : List Cell) (qp qp2 : List Cell × Parents),
      List.foldlM (dirStep maze w h cur) qp ds = some qp2 →
      (lookupA qp.2 n).isSome → (lookupA qp2.2 n).isSome := by
  intro ds
  induction ds with
  | nil =>
      intro qp qp2 hf hn
      simp at hf
      rw [← hf]
      exact hn
  | cons d0 rest ih =>
      intro qp qp2 hf hn
      rw [List.foldlM_cons] at hf
      match hd0 : dirStep maze w h cur qp d0 with
      | none => simp only [hd0] at hf; exact Option.noConfusion hf
      | some qp1 =>
          simp only [hd0, Option.bind_eq_bind, Option.some_bind] at hf
          refine ih qp1 qp2 hf ?_
          rcases dirStep_spec hd0 with heq | ⟨m, _, hqp1, _, _⟩
          · rw [heq]; exact hn
          · rw [hqp1]
            obtain ⟨v, hv⟩ := Option.isSome_iff_exists.mp hn
            rw [lookupA_append_left _ _ _ (by rw [hv]; simp), hv]
            simp

theorem searchFold_expands {maze : Grid} {w h : Int} {cur : Cell} :
    ∀ (ds : List Cell) (qp qp2 : List Cell × Parents),
      List.foldlM (dirStep maze w h cur) qp ds = some qp2 →
      ∀ d ∈ ds, okG maze w h (cur.1 + d.1, cur.2 + d.2) →
        (lookupA qp2.2 (cur.1 + d.1, cur.2 + d.2)).isSome := by
  intro ds
  induction ds with
  | nil =>
      intro qp qp2 _ d hd
      simp at hd
  | cons d0 rest ih =>
      intro qp qp2 hf d hd hok
      rw [List.foldlM_cons] at hf
      match hd0 : dirStep maze w h cur qp d0 with
      | none => simp only [hd0] at hf; exact Option.noConfusion hf
      | some qp1 =>
          simp only [hd0, Option.bind_eq_bind, Option.some_bind] at hf
          rcases List.mem_cons.mp hd with rfl | hdr
          · exact searchFold_mono rest qp1 qp2 hf (dirStep_expands hd0 hok)
          · exact ih qp1 qp2 hf d hdr hok

theorem searchStep_expands {maze : Grid} {w h : Int} {cur : Cell}
    {q q2 : List Cell} {parents p2 : Parents}
    (hs : searchStep maze w h cur (q, parents) = some (q2, p2))
    {d : Cell} (hd : d ∈ dirs) (hok : okG maze w h (cur.1 + d.1, cur.2 + d.2)) :
    (lookupA p2 (cur.1 + d.1, cur.2 + d.2)).isSome := by
  have h2 := searchFold_expands dirs (q, parents) (q2, p2) hs d hd hok
  exact h2

theorem BOpt_init (maze : Grid) (w h : Int) (start : Cell) :
    BOpt w h start (fun _ => 0) ⟨maze, [start], [(start, none)]⟩ := by
  refine ⟨rfl, by simp [lookupA], ?_, ?_, ?_, ?_, ?_, ?_, ?_⟩
  · intro c hc
    have hc2 : c ∈ [start] := hc
    simp at hc2
    subst hc2
    simp [lookupA]
  · intro c p hc
    by_cases hcs : c = start <;> simp [lookupA, hcs] at hc
  · simp
  · intro a _ b _
    omega
  · intro c hc hcf b _
    by_cases hcs : c = start
    · exact absurd (by simp [hcs] : c ∈ [start]) hcf
    · simp [lookupA, hcs] at hc
  · intro c hc
    by_cases hcs : c = start
    · subst hcs
      left
      simp
    · simp [lookupA, hcs] at hc
  · intro c _
    simp

theorem BOpt_iter {w h : Int} {start : Cell} {dm : Cell → Nat} {s : SState}
    {c : Cell} {rest q : List Cell} {p : Parents}
    (hfr0 : s.frontier = c :: rest)
    (hss : searchStep s.maze w h c (rest, s.parents) = some (q, p))
    (hinv : BOpt w h start dm s) :
    ∃ dm2 : Cell → Nat, BOpt w h start dm2 ⟨s.maze, q, p⟩ := by
  obtain ⟨news, hq, hp, hnd, hprops⟩ := searchStep_spec hss
  have hcfr : c ∈ s.frontier := by rw [hfr0]; exact List.mem_cons_self c rest
  have hcent : (lookupA s.parents c).isSome := hinv.hfr c hcfr
  have hfresh : ∀ n ∈ news, lookupA s.parents n = none :=
    fun n hn => (hprops n hn).2.2
  have hnot : ∀ x : Cell, (lookupA s.parents x).isSome → x ∉ news := by
    intro x hx hmem
    rw [hfresh x hmem] at hx
    simp at hx
  have hold : ∀ x : Cell, (lookupA s.parents x).isSome →
      lookupA p x = lookupA s.parents x := by
    intro x hx
    rw [hp]
    exact lookupA_append_left _ _ _ (by intro hcon; rw [hcon] at hx; simp at hx)
  have hnew : ∀ n ∈ news, lookupA p n = some (some c) := by
    intro n hn
    rw [hp, lookupA_append_none_left _ (hfresh n hn)]
    exact lookupA_map_mem hn
  have hchar : ∀ x : Cell, (lookupA p x).isSome →
      (lookupA s.parents x).isSome ∨ x ∈ news := by
    intro x hx
    by_cases hxo : (lookupA s.parents x).isSome
    · exact Or.inl hxo
    · right
      by_cases hxn : x ∈ news
      · exact hxn
      · exfalso
        have ho : lookupA s.parents x = none := by
          rcases hlo : lookupA s.parents x with _ | v
          · rfl
          · rw [hlo] at hxo; simp at hxo
        rw [hp, lookupA_append_none_left _ ho, lookupA_map_not_mem hxn] at hx
        simp at hx
  have hhead : ∀ a ∈ rest, dm c ≤ dm a := by
    have hs2 := hinv.hsorted
    rw [hfr0] at hs2
    exact (List.pairwise_cons.mp hs2).1
  have hrestp : List.Pairwise (fun a b => dm a ≤ dm b) rest := by
    have hs2 := hinv.hsorted
    rw [hfr0] at hs2
    exact (List.pairwise_cons.mp hs2).2
  have hrfr : ∀ a ∈ rest, a ∈ s.frontier := by
    intro a ha
    rw [hfr0]
    exact List.mem_cons_of_mem _ ha
  have hsse : (lookupA s.parents start).isSome := by rw [hinv.hstart]; simp
  refine ⟨fun x => if x ∈ news then dm c + 1 else dm x,
    ?_, ?_, ?_, ?_, ?_, ?_, ?_, ?_, ?_⟩
  · show (if start ∈ news then dm c + 1 else dm start) = 0
    rw [if_neg (hnot start hsse), hinv.hstart0]
  · show lookupA p start = some none
    rw [hold start hsse, hinv.hstart]
  · intro x hx
    have hx2 : x ∈ rest ++ news := by rw [← hq]; exact hx
    rcases List.mem_append.mp hx2 with hr | hn
    · have h2 := hinv.hfr x (hrfr x hr)
      rw [hold x h2]
      exact h2
    · rw [hnew x hn]
      simp
  · intro x px hx
    by_cases hxo : (lookupA s.parents x).isSome
    · rw [hold x hxo] at hx
      obtain ⟨hpe, hde⟩ := hinv.hpar x px hx
      refine ⟨by rw [hold px hpe]; exact hpe, ?_⟩
      show (if x ∈ news then dm c + 1 else dm x) =
        (if px ∈ news then dm c + 1 else dm px) + 1
      rw [if_neg (hnot x hxo), if_neg (hnot px hpe)]
      exact hde
    · have hxn : x ∈ news := by
        rcases hchar x (by rw [hx]; simp) with h1 | h1
        · exact absurd h1 hxo
        · exact h1
      rw [hnew x hxn] at hx
      injection hx with hx2
      injection hx2 with hx3
      subst hx3
      refine ⟨by rw [hold c hcent]; exact hcent, ?_⟩
      show (if x ∈ news then dm c + 1 else dm x) =
        (if c ∈ news then dm c + 1 else dm c) + 1
      rw [if_pos hxn, if_neg (hnot c hcent)]
  · show List.Pairwise _ q
    rw [hq, List.pairwise_append]
    refine ⟨?_, ?_, ?_⟩
    · refine List.Pairwise.imp_of_mem ?_ hrestp
      intro a b ha hb hab
      show (if a ∈ news then dm c + 1 else dm a) ≤
        (if b ∈ news then dm c + 1 else dm b)
      rw [if_neg (hnot a (hinv.hfr a (hrfr a ha))),
        if_neg (hnot b (hinv.hfr b (hrfr b hb)))]
      exact hab
    · refine pairwise_of_rel news ?_
      intro a ha b hb
      show (if a ∈ news then dm c + 1 else dm a) ≤
        (if b ∈ news then dm c + 1 else dm b)
      rw [if_pos ha, if_pos hb]
    · intro a ha b hb
      show (if a ∈ news then dm c + 1 else dm a) ≤
        (if b ∈ news then dm c + 1 else dm b)
      rw [if_neg (hnot a (hinv.hfr a (hrfr a ha))), if_pos hb]
      exact hinv.hspread c hcfr a (hrfr a ha)
  · intro a ha b hb
    have ha2 : a ∈ rest ++ news := by rw [← hq]; exact ha
    have hb2 : b ∈ rest ++ news := by rw [← hq]; exact hb
    show (if b ∈ news then dm c + 1 else dm b) ≤
      (if a ∈ news then dm c + 1 else dm a) + 1
    rcases List.mem_append.mp ha2 with har | han
    · rw [if_neg (hnot a (hinv.hfr a (hrfr a har)))]
      rcases List.mem_append.mp hb2 with hbr | hbn
      · rw [if_neg (hnot b (hinv.hfr b (hrfr b hbr)))]
        exact hinv.hspread a (hrfr a har) b (hrfr b hbr)
      · rw [if_pos hbn]
        have := hhead a har
        omega
    · rw [if_pos han]
      rcases List.mem_append.mp hb2 with hbr | hbn
      · rw [if_neg (hnot b (hinv.hfr b (hrfr b hbr)))]
        have := hinv.hspread c hcfr b (hrfr b hbr)
        omega
      · rw [if_pos hbn]
        omega
  · intro x hx hxf b hb
    have hxn : x ∉ news := by
      intro hmem
      exact hxf (by rw [hq]; exact List.mem_append_right _ hmem)
    have hxo : (lookupA s.parents x).isSome := by
      rcases hchar x hx with h1 | h1
      · exact h1
      · exact absurd h1 hxn
    have hb2 : b ∈ rest ++ news := by rw [← hq]; exact hb
    show (if x ∈ news then dm c + 1 else dm x) ≤
      (if b ∈ news then dm c + 1 else dm b)
    rw [if_neg hxn]
    by_cases hxc : x = c
    · subst hxc
      rcases List.mem_append.mp hb2 with hbr | hbn
      · rw [if_neg (hnot b (hinv.hfr b (hrfr b hbr)))]
        exact hhead b hbr
      · rw [if_pos hbn]
        omega
    · have hxf0 : x ∉ s.frontier := by
        rw [hfr0]
        intro hmem
        rcases List.mem_cons.mp hmem with h1 | h1
        · exact hxc h1
        · exact hxf (by rw [hq]; exact List.mem_append_left _ h1)
      rcases List.mem_append.mp hb2 with hbr | hbn
      · rw [if_neg (hnot b (hinv.hfr b (hrfr b hbr)))]
        exact hinv.hmono x hxo hxf0 b (hrfr b hbr)
      · rw [if_pos hbn]
        have := hinv.hmono x hxo hxf0 c hcfr
        omega
  · intro x hx
    by_cases hxn : x ∈ news
    · left
      rw [hq]
      exact List.mem_append_right _ hxn
    · have hxo : (lookupA s.parents x).isSome := by
        rcases hchar x hx with h1 | h1
        · exact h1
        · exact absurd h1 hxn
      rcases hinv.hprog x hxo with hmem | hexp
      · rw [hfr0] at hmem
        rcases List.mem_cons.mp hmem with hxc | hxr
        · subst hxc
          right
          intro d hadj hok
          obtain ⟨dd, hdd, hdeq⟩ := dirs_of_adj4 hadj
          have hds : (lookupA p d).isSome := by
            rw [hdeq]
            exact searchStep_expands hss hdd (by rw [← hdeq]; exact hok)
          refine ⟨hds, ?_⟩
          show (if d ∈ news then dm x + 1 else dm d) ≤
            (if x ∈ news then dm x + 1 else dm x) + 1
          rw [if_neg hxn]
          by_cases hdn : d ∈ news
          · rw [if_pos hdn]
          · rw [if_neg hdn]
            have hdo : (lookupA s.parents d).isSome := by
              rcases hchar d hds with h1 | h1
              · exact h1
              · exact absurd h1 hdn
            by_cases hdf : d ∈ s.frontier
            · have := hinv.hspread x hcfr d hdf
              omega
            · have := hinv.hmono d hdo hdf x hcfr
              omega
        · left
          rw [hq]
          exact List.mem_append_left _ hxr
      · right
        intro d hadj hok
        obtain ⟨hde, hdb⟩ := hexp d hadj hok
        refine ⟨by rw [hold d hde]; exact hde, ?_⟩
        show (if d ∈ news then dm c + 1 else dm d) ≤
          (if x ∈ news then dm c + 1 else dm x) + 1
        rw [if_neg (hnot d hde), if_neg hxn]
        exact hdb
  · intro x hx
    have hlen : p.length = s.parents.length + news.length := by
      rw [hp]
      simp
    by_cases hxn : x ∈ news
    · show (if x ∈ news then dm c + 1 else dm x) ≤ p.length
      rw [if_pos hxn]
      have h1 := hinv.hdmle c hcent
      have h2 : 1 ≤ news.length := by
        cases hnc : news with
        | nil => rw [hnc] at hxn; simp at hxn
        | cons y ys => simp
      omega
    · have hxo : (lookupA s.parents x).isSome := by
        rcases hchar x hx with h1 | h1
        · exact h1
        · exact absurd h1 hxn
      show (if x ∈ news then dm c + 1 else dm x) ≤ p.length
      rw [if_neg hxn]
      have := hinv.hdmle x hxo
      omega

theorem bfsAux_bopt {goal : Cell} {w h : Int} {start : Cell} :
    ∀ {fuel : Nat} {s s2 : SState} {dm : Cell → Nat},
      bfsAux goal w h fuel s = some s2 → BOpt w h start dm s →
      ∃ dm2 : Cell → Nat, BOpt w h start dm2 s2 := by
  intro fuel
  induction fuel with
  | zero => intro s s2 dm hrun; exact absurd hrun (by simp [bfsAux])
  | succ f ih =>
      intro s s2 dm hrun hinv
      rw [bfsAux] at hrun
      match hfr : s.frontier with
      | [] =>
          simp only [hfr] at hrun
          simp at hrun
          rw [← hrun]
          exact ⟨dm, hinv⟩
      | c :: rest =>
          simp only [hfr] at hrun
          by_cases hcg : c = goal
          · rw [if_pos hcg] at hrun
            simp at hrun
            rw [← hrun]
            exact ⟨dm, hinv⟩
          · rw [if_neg hcg] at hrun
            match hs : searchStep s.maze w h c (rest, s.parents) with
            | none => simp only [hs] at hrun; exact Option.noConfusion hrun
            | some (q, p) =>
                simp only [hs] at hrun
                obtain ⟨dm2, hinv2⟩ := BOpt_iter hfr hs hinv
                exact ih hrun hinv2

theorem bfs_path_bound {w h : Int} {start : Cell} {dm : Cell → Nat} {s : SState}
    (hinv : BOpt w h start dm s) :
    ∀ (p : List Cell) (t : Cell), p.getLast? = some t → p.head? = some start →
      List.Chain' adj4 p → (∀ e ∈ p.tail, okG s.maze w h e) →
      ((lookupA s.parents t).isSome ∧ dm t + 1 ≤ p.length) ∨
      (∃ c ∈ s.frontier, dm c + 1 ≤ p.length) := by
  intro p
  induction p using List.reverseRecOn with
  | nil => intro t ht; simp at ht
  | append_singleton q a ih =>
      intro t ht hhead hchain htail
      rw [List.getLast?_concat] at ht
      injection ht with ht2
      subst ht2
      cases hq : q with
      | nil =>
          subst hq
          simp at hhead
          subst hhead
          left
          refine ⟨by rw [hinv.hstart]; simp, ?_⟩
          rw [hinv.hstart0]
          simp
      | cons q0 qrest =>
          have hqne : q ≠ [] := by rw [hq]; simp
          obtain ⟨t2, ht2⟩ := Option.isSome_iff_exists.mp
            (by rw [List.getLast?_isSome]; exact hqne)
          have hchq : List.Chain' adj4 q ∧ adj4 t2 a := by
            rw [List.chain'_append] at hchain
            refine ⟨hchain.1, ?_⟩
            exact hchain.2.2 t2 ht2 a (by simp)
          have hheadq : q.head? = some start := by
            rw [List.head?_append_of_ne_nil _ hqne] at hhead
            exact hhead
          have htailq : ∀ e ∈ q.tail, okG s.maze w h e := by
            intro e he
            refine htail e ?_
            rw [List.tail_append_of_ne_nil hqne]
            exact List.mem_append_left _ he
          have hta : okG s.maze w h a := by
            refine htail a ?_
            rw [List.tail_append_of_ne_nil hqne]
            rw [hq]
            simp
          have hadj : adj4 t2 a := hchq.2
          have hql : q.length = qrest.length + 1 := by rw [hq]; simp
          rcases ih t2 ht2 hheadq hchq.1 htailq with ⟨hent, hb⟩ | ⟨c2, hmem, hb⟩
          · rcases hinv.hprog t2 hent with hmem | hexp
            · right
              refine ⟨t2, hmem, ?_⟩
              simp only [List.length_append, List.length_cons, List.length_nil]
              omega
            · obtain ⟨hde, hdb⟩ := hexp a hadj hta
              left
              refine ⟨hde, ?_⟩
              simp only [List.length_append, List.length_cons, List.length_nil]
              omega
          · right
            refine ⟨c2, hmem, ?_⟩
            simp only [List.length_append, List.length_cons, List.length_nil]
            omega

theorem bfs_final_bound {w h : Int} {start goal : Cell} {dm : Cell → Nat}
    {s : SState} (hinv : BOpt w h start dm s)
    (hexit : s.frontier = [] ∨ ∃ r, s.frontier = goal :: r)
    {p : List Cell} (hlast : p.getLast? = some goal) (hhead : p.head? = some start)
    (hchain : List.Chain' adj4 p) (htail : ∀ e ∈ p.tail, okG s.maze w h e) :
    (lookupA s.parents goal).isSome ∧ dm goal + 1 ≤ p.length := by
  rcases bfs_path_bound hinv p goal hlast hhead hchain htail with
    h1 | ⟨c, hmem, hb⟩
  · exact h1
  · rcases hexit with hemp | ⟨r, hfr⟩
    · rw [hemp] at hmem
      simp at hmem
    · have hge : (lookupA s.parents goal).isSome :=
        hinv.hfr goal (by rw [hfr]; exact List.mem_cons_self _ _)
      refine ⟨hge, ?_⟩
      have hgc : dm goal ≤ dm c := by
        rw [hfr] at hmem
        rcases List.mem_cons.mp hmem with h1 | h1
        · rw [h1]
        · have hs2 := hinv.hsorted
          rw [hfr] at hs2
          exact (List.pairwise_cons.mp hs2).1 c h1
      omega

theorem BOpt_chain {maze : Grid} {w h : Int} {start : Cell} {dm : Cell → Nat}
    {s : SState} (hpinv : PInv maze w h start s.parents)
    (hinv : BOpt w h start dm s) :
    ChainInv maze w h start s.parents
      (fun c => min (dm c) s.parents.length) := by
  refine ⟨hpinv.hstart, hpinv.hnone, ?_, hpinv.hsound, ?_⟩
  · intro c p hc
    obtain ⟨hpe, hde⟩ := hinv.hpar c p hc
    refine ⟨hpe, ?_⟩
    have h1 := hinv.hdmle p hpe
    have h2 := hinv.hdmle c (by rw [hc]; simp)
    show min (dm p) s.parents.length < min (dm c) s.parents.length
    rw [Nat.min_eq_left h1, Nat.min_eq_left h2]
    omega
  · intro c
    show min (dm c) s.parents.length ≤ s.parents.length
    exact Nat.min_le_right _ _

theorem bfs_run_opt (maze : Grid) (start goal : Cell) (w h : Int)
    (hg : IsGrid maze w h) :
    ∃ (s2 : SState) (dm2 : Cell → Nat),
      bfsAux goal w h (5 * (w.toNat * h.toNat) + 2) ⟨maze, [start], [(start, none)]⟩ =
        some s2 ∧ PInv maze w h start s2.parents ∧ s2.maze = maze ∧
      BOpt w h start dm2 s2 ∧ (s2.frontier = [] ∨ ∃ r, s2.frontier = goal :: r) := by
  obtain ⟨s2, hs2, hpinv, hmz⟩ := bfs_run maze start goal w h hg
  obtain ⟨dm2, hb⟩ := bfsAux_bopt hs2 (BOpt_init maze w h start)
  exact ⟨s2, dm2, hs2, hpinv, hmz, hb, bfsAux_exit hs2⟩

theorem bfs_optimal {maze : Grid} {start goal : Cell} {w h : Int}
    (hg : IsGrid maze w h) (hre : ReachE maze start goal) :
    ∃ pa : List Cell, bfs maze start goal w h = some pa ∧
      ValidPathE maze start goal pa ∧
      ∀ q : List Cell, ValidPathE maze start goal q → pa.length ≤ q.length := by
  obtain ⟨s2, dm2, hs2, hpinv, hmz, hbo, hexit⟩ := bfs_run_opt maze start goal w h hg
  have hbound : ∀ q : List Cell, ValidPathE maze start goal q →
      (lookupA s2.parents goal).isSome ∧ dm2 goal + 1 ≤ q.length := by
    rintro q ⟨hq1, hq2, hq3, hq4⟩
    refine bfs_final_bound hbo hexit hq2 hq1 hq3 ?_
    intro e he
    rw [hmz]
    exact (hg.okG_iff_okE e).mpr (hq4 e (List.mem_of_mem_tail he))
  obtain ⟨q0, hq0⟩ := ReachE_exists_path hre
  obtain ⟨hgent, _⟩ := hbound q0 hq0
  obtain ⟨l, hch, hrec, hlen⟩ := PInv_reconstruct (BOpt_chain hpinv hbo) goal
  obtain ⟨hlast, hchain, hok⟩ := PChain_props (BOpt_chain hpinv hbo) hch hgent
  have hse : okE maze start := ReachE_start hre
  refine ⟨l.reverse, ?_, ⟨?_, ?_, ?_, ?_⟩, ?_⟩
  · unfold bfs
    rw [hs2]
    simp [hrec]
  · rw [List.head?_reverse]
    exact hlast
  · rw [List.getLast?_reverse]
    exact PChain_head hch
  · rw [List.chain'_reverse]
    exact hchain
  · intro e he
    rw [List.mem_reverse] at he
    by_cases hes : e = start
    · rw [hes]
      exact hse
    · exact (hg.okG_iff_okE e).mp (hok e he hes)
  · intro q hq
    obtain ⟨_, hb2⟩ := hbound q hq
    rw [List.length_reverse]
    have hmle : min (dm2 goal) s2.parents.length ≤ dm2 goal := Nat.min_le_left _ _
    omega


theorem DProg_init (maze : Grid) (w h : Int) (start : Cell) :
    DProg w h ⟨maze, [start], [(start, none)]⟩ := by
  refine ⟨?_, ?_⟩
  · intro c hc
    have hc2 : c ∈ [start] := hc
    simp at hc2
    subst hc2
    simp [lookupA]
  · intro c hc
    by_cases hcs : c = start
    · left
      simp [hcs]
    · simp [lookupA, hcs] at hc

theorem DProg_iter {w h : Int} {s : SState} {cur : Cell} {rem q : List Cell}
    {p : Parents}
    (hcur : cur ∈ s.frontier)
    (hrem : ∀ x ∈ rem, x ∈ s.frontier)
    (hsub : ∀ x ∈ s.frontier, x = cur ∨ x ∈ rem)
    (hss : searchStep s.maze w h cur (rem, s.parents) = some (q, p))
    (hinv : DProg w h s) :
    DProg w h ⟨s.maze, q, p⟩ := by
  obtain ⟨news, hq, hp, hnd, hprops⟩ := searchStep_spec hss
  have hold : ∀ x : Cell, (lookupA s.parents x).isSome → (lookupA p x).isSome := by
    intro x hx
    rw [hp, lookupA_append_left _ _ _ (by intro hcon; rw [hcon] at hx; simp at hx)]
    exact hx
  have hnewent : ∀ n ∈ news, (lookupA p n).isSome := by
    intro n hn
    rw [hp, lookupA_append_none_left _ ((hprops n hn).2.2), lookupA_map_mem hn]
    simp
  refine ⟨?_, ?_⟩
  · intro x hx
    have hx2 : x ∈ rem ++ news := by rw [← hq]; exact hx
    rcases List.mem_append.mp hx2 with hr | hn
    · exact hold x (hinv.hfr x (hrem x hr))
    · exact hnewent x hn
  · intro x hx
    by_cases hxn : x ∈ news
    · left
      rw [hq]
      exact List.mem_append_right _ hxn
    · have hxo : (lookupA s.parents x).isSome := by
        by_contra hxo2
        have ho : lookupA s.parents x = none := by
          rcases hlo : lookupA s.parents x with _ | v
          · rfl
          · rw [hlo] at hxo2; simp at hxo2
        rw [hp, lookupA_append_none_left _ ho, lookupA_map_not_mem hxn] at hx
        simp at hx
      rcases hinv.hprog x hxo with hmem | hexp
      · rcases hsub x hmem with hxc | hxr
        · subst hxc
          right
          intro d hadj hok
          obtain ⟨dd, hdd, hdeq⟩ := dirs_of_adj4 hadj
          rw [hdeq]
          exact searchStep_expands hss hdd (by rw [← hdeq]; exact hok)
        · left
          rw [hq]
          exact List.mem_append_left _ hxr
      · right
        intro d hadj hok
        exact hold d (hexp d hadj hok)

theorem dfsAux_dprog {goal : Cell} {w h : Int} :
    ∀ {fuel : Nat} {s s2 : SState}, dfsAux goal w h fuel s = some s2 →
      DProg w h s → DProg w h s2 := by
  intro fuel
  induction fuel with
  | zero => intro s s2 hrun; exact absurd hrun (by simp [dfsAux])
  | succ f ih =>
      intro s s2 hrun hinv
      rw [dfsAux] at hrun
      match hfr : s.frontier.getLast? with
      | none =>
          simp only [hfr] at hrun
          simp at hrun
          rw [← hrun]
          exact hinv
      | some c =>
          simp only [hfr] at hrun
          by_cases hcg : c = goal
          · rw [if_pos hcg] at hrun
            simp at hrun
            rw [← hrun]
            exact hinv
          · rw [if_neg hcg] at hrun
            match hs : searchStep s.maze w h c (s.frontier.dropLast, s.parents) with
            | none => simp only [hs] at hrun; exact Option.noConfusion hrun
            | some (q, p) =>
                simp only [hs] at hrun
                have hne : s.frontier ≠ [] := by
                  intro hcon
                  rw [hcon] at hfr
                  simp at hfr
                have hdecomp : s.frontier.dropLast ++ [c] = s.frontier := by
                  have hgl := List.getLast?_eq_getLast s.frontier hne
                  rw [hgl] at hfr
                  injection hfr with hfr2
                  rw [← hfr2]
                  exact List.dropLast_append_getLast hne
                have hsub : ∀ x ∈ s.frontier, x = c ∨ x ∈ s.frontier.dropLast := by
                  intro x hx
                  rw [← hdecomp] at hx
                  rcases List.mem_append.mp hx with h1 | h1
                  · exact Or.inr h1
                  · left
                    simpa using h1
                have hinv2 := DProg_iter (List.mem_of_getLast?_eq_some hfr)
                  (fun x hx => List.dropLast_subset _ hx) hsub hs hinv
                exact ih hrun hinv2

theorem bfsAux_dprog {goal : Cell} {w h : Int} :
    ∀ {fuel : Nat} {s s2 : SState}, bfsAux goal w h fuel s = some s2 →
      DProg w h s → DProg w h s2 := by
  intro fuel
  induction fuel with
  | zero => intro s s2 hrun; exact absurd hrun (by simp [bfsAux])
  | succ f ih =>
      intro s s2 hrun hinv
      rw [bfsAux] at hrun
      match hfr : s.frontier with
      | [] =>
          simp only [hfr] at hrun
          simp at hrun
          rw [← hrun]
          exact hinv
      | c :: rest =>
          simp only [hfr] at hrun
          by_cases hcg : c = goal
          · rw [if_pos hcg] at hrun
            simp at hrun
            rw [← hrun]
            exact hinv
          · rw [if_neg hcg] at hrun
            match hs : searchStep s.maze w h c (rest, s.parents) with
            | none => simp only [hs] at hrun; exact Option.noConfusion hrun
            | some (q, p) =>
                simp only [hs] at hrun
                have hsub : ∀ x ∈ s.frontier, x = c ∨ x ∈ rest := by
                  intro x hx
                  rw [hfr] at hx
                  exact List.mem_cons.mp hx
                have hinv2 := DProg_iter (by rw [hfr]; exact List.mem_cons_self c rest)
                  (fun x hx => by rw [hfr]; exact List.mem_cons_of_mem _ hx) hsub hs hinv
                exact ih hrun hinv2

/-- At a state whose worklist is exhausted, the keyed cells are closed under
the neighbour guard, so every guard-reachable cell is keyed. -/
theorem closure_complete {maze : Grid} {w h : Int} {start : Cell} {s : SState}
    (hmz : s.maze = maze) (hfr : s.frontier = [])
    (hdp : DProg w h s) (hst : (lookupA s.parents start).isSome) :
    ∀ {c : Cell}, ReachG maze w h start c → (lookupA s.parents c).isSome := by
  intro c hr
  induction hr with
  | refl => exact hst
  | step h1 hadj hok ih =>
      rcases hdp.hprog _ ih with hmem | hexp
      · rw [hfr] at hmem
        simp at hmem
      · exact hexp _ hadj (by rw [hmz]; exact hok)

theorem dfs_complete_valid {maze : Grid} {start goal : Cell} {w h : Int}
    (hg : IsGrid maze w h) (hre : ReachE maze start goal) :
    ∃ pd : List Cell, dfs maze start goal w h = some pd ∧
      ValidPathE maze start goal pd := by
  obtain ⟨s2, hs2, hpinv, hmz⟩ := dfs_run maze start goal w h hg
  have hdp : DProg w h s2 := dfsAux_dprog hs2 (DProg_init maze w h start)
  have hst : (lookupA s2.parents start).isSome := by rw [hpinv.hstart]; simp
  have hgent : (lookupA s2.parents goal).isSome := by
    rcases dfsAux_exit hs2 with hemp | hgl
    · have hfr2 : s2.frontier = [] := by
        cases hf2 : s2.frontier with
        | nil => rfl
        | cons a as => rw [hf2] at hemp; simp at hemp
      exact closure_complete hmz hfr2 hdp hst (ReachE_to_ReachG hg hre)
    · exact hdp.hfr goal (List.mem_of_getLast?_eq_some hgl)
  obtain ⟨p2, hp2, _, hsome⟩ := sound_path (PInv_toChain hpinv) goal
  obtain ⟨hh1, hh2, hh3, hh4⟩ := hsome hgent
  have hse : okE maze start := ReachE_start hre
  refine ⟨p2, ?_, hh1, hh2, hh3, ?_⟩
  · unfold dfs
    rw [hs2]
    simp [hp2]
  · intro e he
    by_cases hes : e = start
    · rw [hes]
      exact hse
    · exact (hg.okG_iff_okE e).mp (hh4 e he hes)

theorem bfs_complete_len2 {maze : Grid} {start goal : Cell} {w h : Int}
    (hg : IsGrid maze w h) (hre : ReachE maze start goal) (hne : start ≠ goal) :
    ∀ {pa : List Cell}, ValidPathE maze start goal pa → 2 ≤ pa.length := by
  rintro pa ⟨h1, h2, _, _⟩
  match pa with
  | [] => simp at h1
  | [x] =>
      simp at h1 h2
      rw [← h1, ← h2] at hne
      simp at hne
  | x :: y :: rest => simp


theorem setCell_self (g : Grid) (c : Cell) (v : St) : setCell g c v c = some v := by
  simp [setCell]

theorem setCell_ne (g : Grid) (c x : Cell) (v : St) (hx : x ≠ c) :
    setCell g c v x = g x := by
  simp [setCell, hx]

theorem adj4_symm {c d : Cell} (hadj : adj4 c d) : adj4 d c := by
  obtain ⟨x, y⟩ := c
  obtain ⟨a, b⟩ := d
  rcases hadj with hcase | hcase | hcase | hcase <;>
    (injection hcase with h1 h2; unfold adj4; simp [Prod.ext_iff]; omega)

theorem ReachE_last {g : Grid} {s : Cell} :
    ∀ {c : Cell}, ReachE g s c → okE g c := by
  intro c hr
  induction hr with
  | refl hs => exact hs
  | step _ _ hok _ => exact hok

theorem ReachE_trans {g : Grid} {a b : Cell} (h1 : ReachE g a b) :
    ∀ {c : Cell}, ReachE g b c → ReachE g a c := by
  intro c h2
  induction h2 with
  | refl _ => exact h1
  | step _ hadj hok ih => exact ReachE.step ih hadj hok

theorem ReachE_symm {g : Grid} {a : Cell} :
    ∀ {b : Cell}, ReachE g a b → ReachE g b a := by
  intro b hr
  induction hr with
  | refl hs => exact ReachE.refl hs
  | @step c d hrc hadj hok ih =>
      refine ReachE_trans ?_ ih
      exact ReachE.step (ReachE.refl hok) (adj4_symm hadj) (ReachE_last hrc)

theorem ReachE_mono {g g2 : Grid}
    (hsub : ∀ x : Cell, g x = some St.empty → g2 x = some St.empty) :
    ∀ {a b : Cell}, ReachE g a b → ReachE g2 a b := by
  intro a b hr
  induction hr with
  | refl hs => exact ReachE.refl (hsub _ hs)
  | step _ hadj hok ih => exact ReachE.step ih hadj (hsub _ hok)

theorem mem_roomSet {w h : Int} {c : Cell} :
    c ∈ roomSet w h ↔ c.1 % 2 = 1 ∧ c.2 % 2 = 1 ∧
      1 ≤ c.1 ∧ c.1 ≤ w - 2 ∧ 1 ≤ c.2 ∧ c.2 ≤ h - 2 := by
  constructor
  · intro hc
    simp only [roomSet, Finset.mem_filter] at hc
    exact hc.2
  · intro hc
    simp only [roomSet, Finset.mem_filter]
    refine ⟨mem_rectI.mpr ?_, hc⟩
    omega

theorem carveNbrs_mem {w h : Int} {x y : Int} {V : Finset Cell}
    {n wc : Cell} (hmem : (n, wc) ∈ carveNbrs w h x y V) :
    n ∉ V ∧
    ((1 < y ∧ n = ((x, y - 2) : Cell) ∧ wc = ((x, y - 1) : Cell)) ∨
     (y < h - 2 ∧ n = ((x, y + 2) : Cell) ∧ wc = ((x, y + 1) : Cell)) ∨
     (1 < x ∧ n = ((x - 2, y) : Cell) ∧ wc = ((x - 1, y) : Cell)) ∨
     (x < w - 2 ∧ n = ((x + 2, y) : Cell) ∧ wc = ((x + 1, y) : Cell))) := by
  unfold carveNbrs at hmem
  rcases List.mem_append.mp hmem with h3 | h4
  · rcases List.mem_append.mp h3 with h1 | h2
    · rcases List.mem_append.mp h1 with h0 | h0'
      · by_cases hcond : 1 < y ∧ ((x, y - 2) : Cell) ∉ V
        · rw [if_pos hcond] at h0
          simp at h0
          exact ⟨h0.1 ▸ hcond.2, Or.inl ⟨hcond.1, h0.1, h0.2⟩⟩
        · rw [if_neg hcond] at h0
          simp at h0
      · by_cases hcond : y < h - 2 ∧ ((x, y + 2) : Cell) ∉ V
        · rw [if_pos hcond] at h0'
          simp at h0'
          exact ⟨h0'.1 ▸ hcond.2, Or.inr (Or.inl ⟨hcond.1, h0'.1, h0'.2⟩)⟩
        · rw [if_neg hcond] at h0'
          simp at h0'
    · by_cases hcond : 1 < x ∧ ((x - 2, y) : Cell) ∉ V
      · rw [if_pos hcond] at h2
        simp at h2
        exact ⟨h2.1 ▸ hcond.2, Or.inr (Or.inr (Or.inl ⟨hcond.1, h2.1, h2.2⟩))⟩
      · rw [if_neg hcond] at h2
        simp at h2
  · by_cases hcond : x < w - 2 ∧ ((x + 2, y) : Cell) ∉ V
    · rw [if_pos hcond] at h4
      simp at h4
      exact ⟨h4.1 ▸ hcond.2, Or.inr (Or.inr (Or.inr ⟨hcond.1, h4.1, h4.2⟩))⟩
    · rw [if_neg hcond] at h4
      simp at h4

theorem carveNbrs_nil {w h : Int} {x y : Int} {V : Finset Cell}
    (hnil : carveNbrs w h x y V = []) : closedRoom w h ((x, y) : Cell) V := by
  unfold carveNbrs at hnil
  have hblock : ∀ (P : Prop) (inst : Decidable P) (e : Cell × Cell),
      (if P then [e] else []) = [] → ¬P := by
    intro P inst e hif hP
    rw [if_pos hP] at hif
    simp at hif
  rcases List.append_eq_nil.mp hnil with ⟨h3, h4⟩
  rcases List.append_eq_nil.mp h3 with ⟨h1, h2⟩
  rcases List.append_eq_nil.mp h1 with ⟨h0, h0'⟩
  have c1 := hblock _ _ _ h0
  have c2 := hblock _ _ _ h0'
  have c3 := hblock _ _ _ h2
  have c4 := hblock _ _ _ h4
  refine ⟨?_, ?_, ?_, ?_⟩
  · intro hy
    by_contra hv
    exact c1 ⟨hy, hv⟩
  · intro hy
    by_contra hv
    exact c2 ⟨hy, hv⟩
  · intro hx2
    by_contra hv
    exact c3 ⟨hx2, hv⟩
  · intro hx2
    by_contra hv
    exact c4 ⟨hx2, hv⟩

theorem CInv_carve {w h : Int} (hwo : w % 2 = 1) (hho : h % 2 = 1)
    {s : CState} (hinv : CInv w h s) {c : Cell} (hc : c ∈ s.visited)
    {n wc : Cell} (hmem : (n, wc) ∈ carveNbrs w h c.1 c.2 s.visited) :
    CInv w h ⟨setCell (setCell s.maze wc St.empty) n St.empty,
      insert n s.visited, s.pos + 1⟩ ∧ n ∈ roomSet w h ∧ n ∉ s.visited := by
  obtain ⟨hnV, hcases⟩ := carveNbrs_mem hmem
  have hcr : c ∈ roomSet w h := hinv.hvis hc
  obtain ⟨x, y⟩ := c
  have hcrm : x % 2 = 1 ∧ y % 2 = 1 ∧ 1 ≤ x ∧ x ≤ w - 2 ∧ 1 ≤ y ∧
      y ≤ h - 2 := mem_roomSet.mp hcr
  have hfacts : n ∈ roomSet w h ∧ wc ∈ rectI w h ∧ wc ∉ roomSet w h ∧
      adj4 (x, y) wc ∧ adj4 wc n ∧ s.maze wc ≠ some St.empty ∧
      ((wc.1 % 2 = 1 ∧ ((wc.1, wc.2 - 1) : Cell) ∈ insert n s.visited ∧
        ((wc.1, wc.2 + 1) : Cell) ∈ insert n s.visited) ∨
       (wc.2 % 2 = 1 ∧ ((wc.1 - 1, wc.2) : Cell) ∈ insert n s.visited ∧
        ((wc.1 + 1, wc.2) : Cell) ∈ insert n s.visited)) := by
    rcases hcases with ⟨hb, hn, hwc⟩ | ⟨hb, hn, hwc⟩ | ⟨hb, hn, hwc⟩ | ⟨hb, hn, hwc⟩ <;>
      subst hn <;> subst hwc
    · refine ⟨mem_roomSet.mpr ?_, mem_rectI.mpr ?_, ?_, ?_, ?_, ?_, ?_⟩
      · show x % 2 = 1 ∧ (y - 2) % 2 = 1 ∧ 1 ≤ x ∧ x ≤ w - 2 ∧ 1 ≤ y - 2 ∧
          y - 2 ≤ h - 2
        omega
      · show 0 ≤ x ∧ x < w ∧ 0 ≤ y - 1 ∧ y - 1 < h
        omega
      · intro hmem2
        have h6 := mem_roomSet.mp hmem2
        have h7 : (y - 1) % 2 = 1 := h6.2.1
        omega
      · simp [adj4, Prod.ext_iff] <;> omega
      · simp [adj4, Prod.ext_iff] <;> omega
      · intro hemp
        rcases hinv.hwallE _ hemp (by
            intro hmem2
            have h6 := mem_roomSet.mp hmem2
            have h7 : (y - 1) % 2 = 1 := h6.2.1
            omega) with ⟨_, h1, _⟩ | ⟨hp2, _, _⟩
        · have he : (((x, y - 1) : Cell).1, ((x, y - 1) : Cell).2 - 1) =
              ((x, y - 2) : Cell) := by
            simp [Prod.ext_iff] <;> omega
          rw [he] at h1
          exact hnV h1
        · have h7 : (y - 1) % 2 = 1 := hp2
          omega
      · left
        refine ⟨hcrm.1, ?_, ?_⟩
        · show ((x, y - 1 - 1) : Cell) ∈ insert ((x, y - 2) : Cell) s.visited
          have h9 : y - 1 - 1 = y - 2 := by omega
          rw [h9]
          exact Finset.mem_insert_self _ _
        · show ((x, y - 1 + 1) : Cell) ∈ insert ((x, y - 2) : Cell) s.visited
          have h9 : y - 1 + 1 = y := by omega
          rw [h9]
          exact Finset.mem_insert_of_mem hc
    · refine ⟨mem_roomSet.mpr ?_, mem_rectI.mpr ?_, ?_, ?_, ?_, ?_, ?_⟩
      · show x % 2 = 1 ∧ (y + 2) % 2 = 1 ∧ 1 ≤ x ∧ x ≤ w - 2 ∧ 1 ≤ y + 2 ∧
          y + 2 ≤ h - 2
        omega
      · show 0 ≤ x ∧ x < w ∧ 0 ≤ y + 1 ∧ y + 1 < h
        omega
      · intro hmem2
        have h6 := mem_roomSet.mp hmem2
        have h7 : (y + 1) % 2 = 1 := h6.2.1
        omega
      · simp [adj4, Prod.ext_iff] <;> omega
      · simp [adj4, Prod.ext_iff] <;> omega
      · intro hemp
        rcases hinv.hwallE _ hemp (by
            intro hmem2
            have h6 := mem_roomSet.mp hmem2
            have h7 : (y + 1) % 2 = 1 := h6.2.1
            omega) with ⟨_, _, h1⟩ | ⟨hp2, _, _⟩
        · have he : (((x, y + 1) : Cell).1, ((x, y + 1) : Cell).2 + 1) =
              ((x, y + 2) : Cell) := by
            simp [Prod.ext_iff] <;> omega
          rw [he] at h1
          exact hnV h1
        · have h7 : (y + 1) % 2 = 1 := hp2
          omega
      · left
        refine ⟨hcrm.1, ?_, ?_⟩
        · show ((x, y + 1 - 1) : Cell) ∈ insert ((x, y + 2) : Cell) s.visited
          have h9 : y + 1 - 1 = y := by omega
          rw [h9]
          exact Finset.mem_insert_of_mem hc
        · show ((x, y + 1 + 1) : Cell) ∈ insert ((x, y + 2) : Cell) s.visited
          have h9 : y + 1 + 1 = y + 2 := by omega
          rw [h9]
          exact Finset.mem_insert_self _ _
    · refine ⟨mem_roomSet.mpr ?_, mem_rectI.mpr ?_, ?_, ?_, ?_, ?_, ?_⟩
      · show (x - 2) % 2 = 1 ∧ y % 2 = 1 ∧ 1 ≤ x - 2 ∧ x - 2 ≤ w - 2 ∧ 1 ≤ y ∧
          y ≤ h - 2
        omega
      · show 0 ≤ x - 1 ∧ x - 1 < w ∧ 0 ≤ y ∧ y < h
        omega
      · intro hmem2
        have h6 := mem_roomSet.mp hmem2
        have h7 : (x - 1) % 2 = 1 := h6.1
        omega
      · simp [adj4, Prod.ext_iff] <;> omega
      · simp [adj4, Prod.ext_iff] <;> omega
      · intro hemp
        rcases hinv.hwallE _ hemp (by
            intro hmem2
            have h6 := mem_roomSet.mp hmem2
            have h7 : (x - 1) % 2 = 1 := h6.1
            omega) with ⟨hp1, _, _⟩ | ⟨_, h1, _⟩
        · have h7 : (x - 1) % 2 = 1 := hp1
          omega
        · have he : (((x - 1, y) : Cell).1 - 1, ((x - 1, y) : Cell).2) =
              ((x - 2, y) : Cell) := by
            simp [Prod.ext_iff] <;> omega
          rw [he] at h1
          exact hnV h1
      · right
        refine ⟨hcrm.2.1, ?_, ?_⟩
        · show ((x - 1 - 1, y) : Cell) ∈ insert ((x - 2, y) : Cell) s.visited
          have h9 : x - 1 - 1 = x - 2 := by omega
          rw [h9]
          exact Finset.mem_insert_self _ _
        · show ((x - 1 + 1, y) : Cell) ∈ insert ((x - 2, y) : Cell) s.visited
          have h9 : x - 1 + 1 = x := by omega
          rw [h9]
          exact Finset.mem_insert_of_mem hc
    · refine ⟨mem_roomSet.mpr ?_, mem_rectI.mpr ?_, ?_, ?_, ?_, ?_, ?_⟩
      · show (x + 2) % 2 = 1 ∧ y % 2 = 1 ∧ 1 ≤ x + 2 ∧ x + 2 ≤ w - 2 ∧ 1 ≤ y ∧
          y ≤ h - 2
        omega
      · show 0 ≤ x + 1 ∧ x + 1 < w ∧ 0 ≤ y ∧ y < h
        omega
      · intro hmem2
        have h6 := mem_roomSet.mp hmem2
        have h7 : (x + 1) % 2 = 1 := h6.1
        omega
      · simp [adj4, Prod.ext_iff] <;> omega
      · simp [adj4, Prod.ext_iff] <;> omega
      · intro hemp
        rcases hinv.hwallE _ hemp (by
            intro hmem2
            have h6 := mem_roomSet.mp hmem2
            have h7 : (x + 1) % 2 = 1 := h6.1
            omega) with ⟨hp1, _, _⟩ | ⟨_, _, h1⟩
        · have h7 : (x + 1) % 2 = 1 := hp1
          omega
        · have he : (((x + 1, y) : Cell).1 + 1, ((x + 1, y) : Cell).2) =
              ((x + 2, y) : Cell) := by
            simp [Prod.ext_iff] <;> omega
          rw [he] at h1
          exact hnV h1
      · right
        refine ⟨hcrm.2.1, ?_, ?_⟩
        · show ((x + 1 - 1, y) : Cell) ∈ insert ((x + 2, y) : Cell) s.visited
          have h9 : x + 1 - 1 = x := by omega
          rw [h9]
          exact Finset.mem_insert_of_mem hc
        · show ((x + 1 + 1, y) : Cell) ∈ insert ((x + 2, y) : Cell) s.visited
          have h9 : x + 1 + 1 = x + 2 := by omega
          rw [h9]
          exact Finset.mem_insert_self _ _
  obtain ⟨hn_room, hwc_rect, hwc_nr, hadj_cw, hadj_wn, hwc_fresh, hwc_disj⟩ := hfacts
  have hn_rect : n ∈ rectI w h := Finset.filter_subset _ _ hn_room
  have hwc_ne_n : wc ≠ n := fun he => hwc_nr (he ▸ hn_room)
  have hroom_ne_wc : ∀ r ∈ roomSet w h, r ≠ wc := fun r hr he => hwc_nr (he ▸ hr)
  have hm2n : setCell (setCell s.maze wc St.empty) n St.empty n = some St.empty :=
    setCell_self _ _ _
  have hm2wc : setCell (setCell s.maze wc St.empty) n St.empty wc =
      some St.empty := by
    rw [setCell_ne _ _ _ _ hwc_ne_n]
    exact setCell_self _ _ _
  have hm2other : ∀ z : Cell, z ≠ n → z ≠ wc →
      setCell (setCell s.maze wc St.empty) n St.empty z = s.maze z := by
    intro z hzn hzw
    rw [setCell_ne _ _ _ _ hzn, setCell_ne _ _ _ _ hzw]
  have hmono2 : ∀ z : Cell, s.maze z = some St.empty →
      setCell (setCell s.maze wc St.empty) n St.empty z = some St.empty := by
    intro z hz
    by_cases hzn : z = n
    · rw [hzn]; exact hm2n
    · by_cases hzw : z = wc
      · rw [hzw]; exact hm2wc
      · rw [hm2other z hzn hzw]; exact hz
  have hc_empty : s.maze (x, y) = some St.empty := (hinv.hroomE _ hcr).mpr hc
  have hreach_c : ReachE (setCell (setCell s.maze wc St.empty) n St.empty)
      ((1 : Int), (1 : Int)) (x, y) :=
    ReachE_mono hmono2 (hinv.hconn _ hc_empty)
  have hreach_wc : ReachE (setCell (setCell s.maze wc St.empty) n St.empty)
      ((1 : Int), (1 : Int)) wc :=
    ReachE.step hreach_c hadj_cw hm2wc
  have hreach_n : ReachE (setCell (setCell s.maze wc St.empty) n St.empty)
      ((1 : Int), (1 : Int)) n :=
    ReachE.step hreach_wc hadj_wn hm2n
  refine ⟨⟨?_, ?_, ?_, ?_, ?_, ?_, ?_⟩, hn_room, hnV⟩
  · exact Finset.insert_subset hn_room hinv.hvis
  · exact Finset.mem_insert_of_mem hinv.hone
  · intro z
    show (setCell (setCell s.maze wc St.empty) n St.empty z).isSome ↔ z ∈ rectI w h
    by_cases hzn : z = n
    · rw [hzn]
      constructor
      · intro _; exact hn_rect
      · intro _; rw [hm2n]; simp
    · by_cases hzw : z = wc
      · rw [hzw]
        constructor
        · intro _; exact hwc_rect
        · intro _; rw [hm2wc]; simp
      · rw [hm2other z hzn hzw]
        exact hinv.hdense z
  · intro r hr
    show setCell (setCell s.maze wc St.empty) n St.empty r = some St.empty ↔
      r ∈ insert n s.visited
    by_cases hrn : r = n
    · rw [hrn]
      constructor
      · intro _; exact Finset.mem_insert_self _ _
      · intro _; exact hm2n
    · rw [hm2other r hrn (hroom_ne_wc r hr)]
      rw [hinv.hroomE r hr]
      constructor
      · exact fun h2 => Finset.mem_insert_of_mem h2
      · intro h2
        rcases Finset.mem_insert.mp h2 with h3 | h3
        · exact absurd h3 hrn
        · exact h3
  · intro z hz hznr
    have hz2 : setCell (setCell s.maze wc St.empty) n St.empty z =
      some St.empty := hz
    show (z.1 % 2 = 1 ∧ ((z.1, z.2 - 1) : Cell) ∈ insert n s.visited ∧
        ((z.1, z.2 + 1) : Cell) ∈ insert n s.visited) ∨
      (z.2 % 2 = 1 ∧ ((z.1 - 1, z.2) : Cell) ∈ insert n s.visited ∧
        ((z.1 + 1, z.2) : Cell) ∈ insert n s.visited)
    by_cases hzn : z = n
    · rw [hzn] at hznr
      exact absurd hn_room hznr
    · by_cases hzw : z = wc
      · rw [hzw]
        exact hwc_disj
      · rw [hm2other z hzn hzw] at hz2
        rcases hinv.hwallE z hz2 hznr with ⟨h1, h2, h3⟩ | ⟨h1, h2, h3⟩
        · exact Or.inl ⟨h1, Finset.mem_insert_of_mem h2,
            Finset.mem_insert_of_mem h3⟩
        · exact Or.inr ⟨h1, Finset.mem_insert_of_mem h2,
            Finset.mem_insert_of_mem h3⟩
  · show (emptyNonRoom w h (setCell (setCell s.maze wc St.empty) n St.empty)).card
      + 1 = (insert n s.visited).card
    have hset : emptyNonRoom w h (setCell (setCell s.maze wc St.empty) n St.empty) =
        insert wc (emptyNonRoom w h s.maze) := by
      apply Finset.ext
      intro z
      simp only [emptyNonRoom, Finset.mem_filter, Finset.mem_insert]
      constructor
      · rintro ⟨hzr, hze, hznr⟩
        by_cases hzw : z = wc
        · exact Or.inl hzw
        · by_cases hzn : z = n
          · rw [hzn] at hznr
            exact absurd hn_room hznr
          · rw [hm2other z hzn hzw] at hze
            exact Or.inr ⟨hzr, hze, hznr⟩
      · rintro (hzw | ⟨hzr, hze, hznr⟩)
        · rw [hzw]
          exact ⟨hwc_rect, hm2wc, hwc_nr⟩
        · refine ⟨hzr, ?_, hznr⟩
          exact hmono2 z hze
    rw [hset]
    have hwcold : wc ∉ emptyNonRoom w h s.maze := by
      intro hmem2
      simp only [emptyNonRoom, Finset.mem_filter] at hmem2
      exact hwc_fresh hmem2.2.1
    rw [Finset.card_insert_of_not_mem hwcold, Finset.card_insert_of_not_mem hnV]
    have := hinv.hcount
    omega
  · intro z hz
    have hz2 : setCell (setCell s.maze wc St.empty) n St.empty z =
      some St.empty := hz
    show ReachE (setCell (setCell s.maze wc St.empty) n St.empty) (1, 1) z
    by_cases hzn : z = n
    · rw [hzn]; exact hreach_n
    · by_cases hzw : z = wc
      · rw [hzw]; exact hreach_wc
      · rw [hm2other z hzn hzw] at hz2
        exact ReachE_mono hmono2 (hinv.hconn z hz2)

theorem closedRoom_mono {w h : Int} {r : Cell} {V V2 : Finset Cell}
    (hcl : closedRoom w h r V) (hsub : V ⊆ V2) : closedRoom w h r V2 :=
  ⟨fun h2 => hsub (hcl.1 h2), fun h2 => hsub (hcl.2.1 h2),
   fun h2 => hsub (hcl.2.2.1 h2), fun h2 => hsub (hcl.2.2.2 h2)⟩

theorem carve_main {ρ : Nat → Nat} {w h : Int} (hwo : w % 2 = 1)
    (hho : h % 2 = 1) :
    ∀ f : Nat,
      (∀ (c : Cell) (s : CState),
        CInv w h ⟨setCell s.maze c St.empty, s.visited, s.pos⟩ → c ∈ s.visited →
        2 * ((roomSet w h).card - s.visited.card) + 2 ≤ f →
        ∃ s2 : CState, carveVisit ρ w h f c s = some s2 ∧ CInv w h s2 ∧
          s.visited ⊆ s2.visited ∧ closedRoom w h c s2.visited ∧
          ∀ r ∈ s2.visited, r ∉ s.visited → closedRoom w h r s2.visited) ∧
      (∀ (c : Cell) (s : CState),
        CInv w h s → c ∈ s.visited →
        2 * ((roomSet w h).card - s.visited.card) + 1 ≤ f →
        ∃ s2 : CState, carveLoop ρ w h f c s = some s2 ∧ CInv w h s2 ∧
          s.visited ⊆ s2.visited ∧ closedRoom w h c s2.visited ∧
          ∀ r ∈ s2.visited, r ∉ s.visited → closedRoom w h r s2.visited) := by
  intro f
  induction f with
  | zero =>
      constructor <;> (intro c s _ _ hf; omega)
  | succ f ih =>
      obtain ⟨ihv, ihl⟩ := ih
      constructor
      · intro c s hinv hc hf
        obtain ⟨s2, hrun, h2, h3, h4, h5⟩ :=
          ihl c ⟨setCell s.maze c St.empty, s.visited, s.pos⟩ hinv hc
            (by dsimp only; omega)
        refine ⟨s2, ?_, h2, h3, h4, h5⟩
        rw [carveVisit]
        exact hrun
      · intro c s hinv hc hf
        by_cases hne : carveNbrs w h c.1 c.2 s.visited = []
        · refine ⟨s, ?_, hinv, Finset.Subset.refl _, ?_, ?_⟩
          · rw [carveLoop]
            exact dif_pos hne
          · exact carveNbrs_nil hne
          · intro r hr hnr
            exact absurd hr hnr
        · have hlp : ρ s.pos % (carveNbrs w h c.1 c.2 s.visited).length <
              (carveNbrs w h c.1 c.2 s.visited).length :=
            Nat.mod_lt _ (List.length_pos.mpr hne)
          obtain ⟨hinv1, hn_room, hnV⟩ := CInv_carve hwo hho hinv hc
            (List.get_mem (carveNbrs w h c.1 c.2 s.visited) _ hlp)
          have hcard : s.visited.card < (roomSet w h).card :=
            Finset.card_lt_card
              ((Finset.ssubset_iff_of_subset hinv.hvis).mpr
                ⟨_, hn_room, hnV⟩)
          have hcins : (insert ((carveNbrs w h c.1 c.2 s.visited).get
              ⟨ρ s.pos % (carveNbrs w h c.1 c.2 s.visited).length, hlp⟩).1
              s.visited).card = s.visited.card + 1 :=
            Finset.card_insert_of_not_mem hnV
          obtain ⟨s2, hrun2, hinv2, hsub2, hcl2, hnew2⟩ :=
            ihv ((carveNbrs w h c.1 c.2 s.visited).get
                ⟨ρ s.pos % (carveNbrs w h c.1 c.2 s.visited).length, hlp⟩).1
              ⟨setCell s.maze ((carveNbrs w h c.1 c.2 s.visited).get
                ⟨ρ s.pos % (carveNbrs w h c.1 c.2 s.visited).length, hlp⟩).2 St.empty,
               insert ((carveNbrs w h c.1 c.2 s.visited).get
                ⟨ρ s.pos % (carveNbrs w h c.1 c.2 s.visited).length, hlp⟩).1 s.visited,
               s.pos + 1⟩
              hinv1 (Finset.mem_insert_self _ _)
              (by dsimp only; rw [hcins]; omega)
          have hsub2b : insert ((carveNbrs w h c.1 c.2 s.visited).get
              ⟨ρ s.pos % (carveNbrs w h c.1 c.2 s.visited).length, hlp⟩).1
              s.visited ⊆ s2.visited := hsub2
          have hc2 : c ∈ s2.visited := hsub2b (Finset.mem_insert_of_mem hc)
          have hc2le : s.visited.card + 1 ≤ s2.visited.card := by
            rw [← hcins]
            exact Finset.card_le_card hsub2b
          have hs2le : s2.visited.card ≤ (roomSet w h).card :=
            Finset.card_le_card hinv2.hvis
          obtain ⟨s3, hrun3, hinv3, hsub3, hcl3, hnew3⟩ :=
            ihl c s2 hinv2 hc2 (by omega)
          refine ⟨s3, ?_, hinv3, ?_, hcl3, ?_⟩
          · have hstep : carveLoop ρ w h (f + 1) c s =
                match carveVisit ρ w h f
                    ((carveNbrs w h c.1 c.2 s.visited).get
                      ⟨ρ s.pos % (carveNbrs w h c.1 c.2 s.visited).length, hlp⟩).1
                    ⟨setCell s.maze ((carveNbrs w h c.1 c.2 s.visited).get
                      ⟨ρ s.pos % (carveNbrs w h c.1 c.2 s.visited).length, hlp⟩).2
                      St.empty,
                     insert ((carveNbrs w h c.1 c.2 s.visited).get
                      ⟨ρ s.pos % (carveNbrs w h c.1 c.2 s.visited).length, hlp⟩).1
                      s.visited,
                     s.pos + 1⟩ with
                  | none => none
                  | some s4 => carveLoop ρ w h f c s4 := by
              rw [carveLoop]
              rw [dif_neg hne]
            rw [hstep, hrun2]
            exact hrun3
          · exact fun x hx => hsub3 (hsub2b (Finset.mem_insert_of_mem hx))
          · intro r hr hnr
            by_cases hr2 : r ∈ s2.visited
            · by_cases hr1 : r ∈ insert ((carveNbrs w h c.1 c.2 s.visited).get
                  ⟨ρ s.pos % (carveNbrs w h c.1 c.2 s.visited).length, hlp⟩).1
                  s.visited
              · rcases Finset.mem_insert.mp hr1 with hrp | hrs
                · rw [hrp]
                  exact closedRoom_mono hcl2 hsub3
                · exact absurd hrs hnr
              · exact closedRoom_mono (hnew2 r hr2 hr1) hsub3
            · exact hnew3 r hr hr2

theorem roomSet_covered {w h : Int} (V : Finset Cell)
    (h1 : ((1 : Int), (1 : Int)) ∈ V)
    (hcl : ∀ r ∈ V, closedRoom w h r V) :
    ∀ r ∈ roomSet w h, r ∈ V := by
  have H : ∀ nn : Nat, ∀ r : Cell, r ∈ roomSet w h → (r.1 + r.2).toNat ≤ nn →
      r ∈ V := by
    intro nn
    induction nn with
    | zero =>
        intro r hr hm
        obtain ⟨x, y⟩ := r
        have h6 : x % 2 = 1 ∧ y % 2 = 1 ∧ 1 ≤ x ∧ x ≤ w - 2 ∧ 1 ≤ y ∧
            y ≤ h - 2 := mem_roomSet.mp hr
        have hm2 : (x + y).toNat ≤ 0 := hm
        omega
    | succ nn ih =>
        intro r hr hm
        obtain ⟨x, y⟩ := r
        have h6 : x % 2 = 1 ∧ y % 2 = 1 ∧ 1 ≤ x ∧ x ≤ w - 2 ∧ 1 ≤ y ∧
            y ≤ h - 2 := mem_roomSet.mp hr
        have hm2 : (x + y).toNat ≤ nn + 1 := hm
        by_cases hx1 : x = 1
        · by_cases hy1 : y = 1
          · subst hx1
            subst hy1
            exact h1
          · have hprev : ((x, y - 2) : Cell) ∈ roomSet w h := by
              refine mem_roomSet.mpr ?_
              show x % 2 = 1 ∧ (y - 2) % 2 = 1 ∧ 1 ≤ x ∧ x ≤ w - 2 ∧
                1 ≤ y - 2 ∧ y - 2 ≤ h - 2
              omega
            have hmem := ih (x, y - 2) hprev
              (by show (x + (y - 2)).toNat ≤ nn; omega)
            have hcl2 := (hcl _ hmem).2.1 (show y - 2 < h - 2 by omega)
            have h7 : ((x, y - 2 + 2) : Cell) ∈ V := hcl2
            rw [show y - 2 + 2 = y from by omega] at h7
            exact h7
        · have hprev : ((x - 2, y) : Cell) ∈ roomSet w h := by
            refine mem_roomSet.mpr ?_
            show (x - 2) % 2 = 1 ∧ y % 2 = 1 ∧ 1 ≤ x - 2 ∧ x - 2 ≤ w - 2 ∧
              1 ≤ y ∧ y ≤ h - 2
            omega
          have hmem := ih (x - 2, y) hprev
            (by show (x - 2 + y).toNat ≤ nn; omega)
          have hcl2 := (hcl _ hmem).2.2.2 (show x - 2 < w - 2 by omega)
          have h7 : ((x - 2 + 2, y) : Cell) ∈ V := hcl2
          rw [show x - 2 + 2 = x from by omega] at h7
          exact h7
  intro r hr
  exact H (r.1 + r.2).toNat r hr (Nat.le_refl _)

theorem carve_run (ρ : Nat → Nat) (w h : Int) (hw3 : 3 ≤ w) (hh3 : 3 ≤ h)
    (hwo : w % 2 = 1) (hho : h % 2 = 1) :
    ∀ fuel : Nat, 2 * (roomSet w h).card + 2 ≤ fuel →
    ∃ s2 : CState,
      carveVisit ρ w h fuel ((1 : Int), (1 : Int))
        ⟨fun c => if c ∈ rectI w h then some St.wall else none,
         {((1 : Int), (1 : Int))}, 0⟩ = some s2 ∧
      CInv w h s2 ∧ s2.visited = roomSet w h := by
  intro fuel hfuel
  have honeroom : ((1 : Int), (1 : Int)) ∈ roomSet w h := by
    refine mem_roomSet.mpr ?_
    show (1 : Int) % 2 = 1 ∧ (1 : Int) % 2 = 1 ∧ (1 : Int) ≤ 1 ∧
      (1 : Int) ≤ w - 2 ∧ (1 : Int) ≤ 1 ∧ (1 : Int) ≤ h - 2
    omega
  have honerect : ((1 : Int), (1 : Int)) ∈ rectI w h := by
    refine mem_rectI.mpr ?_
    show (0 : Int) ≤ 1 ∧ (1 : Int) < w ∧ (0 : Int) ≤ 1 ∧ (1 : Int) < h
    omega
  have hinit : CInv w h
      ⟨setCell (fun c => if c ∈ rectI w h then some St.wall else none)
        ((1 : Int), (1 : Int)) St.empty, {((1 : Int), (1 : Int))}, 0⟩ := by
    refine ⟨?_, ?_, ?_, ?_, ?_, ?_, ?_⟩
    · exact Finset.singleton_subset_iff.mpr honeroom
    · exact Finset.mem_singleton_self _
    · intro z
      show (setCell (fun c => if c ∈ rectI w h then some St.wall else none)
        ((1 : Int), (1 : Int)) St.empty z).isSome ↔ z ∈ rectI w h
      by_cases hz : z = ((1 : Int), (1 : Int))
      · rw [hz, setCell_self]
        simp only [Option.isSome_some, true_iff]
        exact honerect
      · rw [setCell_ne _ _ _ _ hz]
        by_cases hzr : z ∈ rectI w h
        · simp [hzr]
        · simp [hzr]
    · intro r hr
      show setCell (fun c => if c ∈ rectI w h then some St.wall else none)
        ((1 : Int), (1 : Int)) St.empty r = some St.empty ↔
        r ∈ ({((1 : Int), (1 : Int))} : Finset Cell)
      by_cases hz : r = ((1 : Int), (1 : Int))
      · rw [hz, setCell_self]
        simp
      · rw [setCell_ne _ _ _ _ hz]
        have hrr : r ∈ rectI w h := Finset.filter_subset _ _ hr
        rw [if_pos hrr]
        constructor
        · intro hcon
          exact absurd (Option.some.inj hcon) (by intro h2; cases h2)
        · intro hcon
          exact absurd (Finset.mem_singleton.mp hcon) hz
    · intro z hz hznr
      have hz2 : setCell (fun c => if c ∈ rectI w h then some St.wall else none)
        ((1 : Int), (1 : Int)) St.empty z = some St.empty := hz
      by_cases hzo : z = ((1 : Int), (1 : Int))
      · rw [hzo] at hznr
        exact absurd honeroom hznr
      · rw [setCell_ne _ _ _ _ hzo] at hz2
        by_cases hzr : z ∈ rectI w h
        · simp [hzr] at hz2
        · simp [hzr] at hz2
    · show (emptyNonRoom w h (setCell
        (fun c => if c ∈ rectI w h then some St.wall else none)
        ((1 : Int), (1 : Int)) St.empty)).card + 1 =
        ({((1 : Int), (1 : Int))} : Finset Cell).card
      have hemp : emptyNonRoom w h (setCell
          (fun c => if c ∈ rectI w h then some St.wall else none)
          ((1 : Int), (1 : Int)) St.empty) = ∅ := by
        refine Finset.eq_empty_of_forall_not_mem ?_
        intro z hz
        simp only [emptyNonRoom, Finset.mem_filter] at hz
        obtain ⟨hzr, hze, hznr⟩ := hz
        by_cases hzo : z = ((1 : Int), (1 : Int))
        · rw [hzo] at hznr
          exact absurd honeroom hznr
        · rw [setCell_ne _ _ _ _ hzo] at hze
          simp [hzr] at hze
      rw [hemp]
      simp
    · intro z hz
      have hz2 : setCell (fun c => if c ∈ rectI w h then some St.wall else none)
        ((1 : Int), (1 : Int)) St.empty z = some St.empty := hz
      by_cases hzo : z = ((1 : Int), (1 : Int))
      · rw [hzo]
        refine ReachE.refl ?_
        show setCell (fun c => if c ∈ rectI w h then some St.wall else none)
          ((1 : Int), (1 : Int)) St.empty ((1 : Int), (1 : Int)) = some St.empty
        exact setCell_self _ _ _
      · rw [setCell_ne _ _ _ _ hzo] at hz2
        by_cases hzr : z ∈ rectI w h
        · simp [hzr] at hz2
        · simp [hzr] at hz2
  obtain ⟨s2, hrun, hinv2, hsub, hcl1, hnew⟩ :=
    (carve_main hwo hho fuel).1 ((1 : Int), (1 : Int))
      ⟨fun c => if c ∈ rectI w h then some St.wall else none,
       {((1 : Int), (1 : Int))}, 0⟩
      hinit (Finset.mem_singleton_self _)
      (by
        have := Finset.card_singleton ((1 : Int), (1 : Int))
        dsimp only
        omega)
  refine ⟨s2, hrun, hinv2, ?_⟩
  refine Finset.Subset.antisymm hinv2.hvis ?_
  refine roomSet_covered s2.visited (hsub (Finset.mem_singleton_self _)) ?_
  intro r hr
  by_cases hro : r = ((1 : Int), (1 : Int))
  · rw [hro]
    exact hcl1
  · refine hnew r hr ?_
    intro hmem
    exact hro (Finset.mem_singleton.mp hmem)

theorem loopInject_isSome (ρ : Nat → Nat) (w h : Int) (hw : 3 ≤ w)
    (hh : 3 ≤ h) :
    ∀ (k : Nat) (g : Grid) (pos : Nat),
      (∀ x : Cell, (g x).isSome ↔ x ∈ rectI w h) →
      ∃ (g2 : Grid) (pos2 : Nat), loopInject ρ w h k g pos = some (g2, pos2) ∧
        (∀ x : Cell, (g2 x).isSome ↔ x ∈ rectI w h) := by
  intro k
  induction k with
  | zero =>
      intro g pos hd
      exact ⟨g, pos, rfl, hd⟩
  | succ k ih =>
      intro g pos hd
      set x : Int := 1 + (ρ pos % (w - 2).toNat : Nat) with hxdef
      set y : Int := 1 + (ρ (pos + 1) % (h - 2).toNat : Nat) with hydef
      have hmem : ((x, y) : Cell) ∈ rectI w h := by
        refine mem_rectI.mpr ?_
        have h1 : ρ pos % (w - 2).toNat < (w - 2).toNat :=
          Nat.mod_lt _ (by omega)
        have h2 : ρ (pos + 1) % (h - 2).toNat < (h - 2).toNat :=
          Nat.mod_lt _ (by omega)
        show 0 ≤ x ∧ x < w ∧ 0 ≤ y ∧ y < h
        rw [hxdef, hydef]
        omega
      obtain ⟨v, hv⟩ := Option.isSome_iff_exists.mp ((hd _).mpr hmem)
      have hd1 : ∀ z : Cell,
          ((if v = St.wall then setCell g (x, y) St.empty else g) z).isSome ↔
            z ∈ rectI w h := by
        intro z
        by_cases hvw : v = St.wall
        · rw [if_pos hvw]
          by_cases hz : z = ((x, y) : Cell)
          · rw [hz, setCell_self]
            simp [hmem]
          · rw [setCell_ne _ _ _ _ hz]
            exact hd z
        · rw [if_neg hvw]
          exact hd z
      obtain ⟨g2, pos2, hrun, hd2⟩ := ih
        (if v = St.wall then setCell g (x, y) St.empty else g) (pos + 2) hd1
      refine ⟨g2, pos2, ?_, hd2⟩
      rw [loopInject]
      rw [← hxdef, ← hydef, hv]
      exact hrun

theorem generate_maze_eq (f : Nat → Nat → Nat) (width height : Int)
    (seed loops : Nat) (σ : RandomState) :
    generate_maze f width height seed loops σ =
      match carveVisit (f seed) width height
          (2 * (width.toNat * height.toNat) + 2) ((1 : Int), (1 : Int))
          ⟨fun c => if c ∈ rectI width height then some St.wall else none,
           {((1 : Int), (1 : Int))}, 0⟩ with
      | none => none
      | some s =>
          match loopInject (f seed) width height loops s.maze s.pos with
          | none => none
          | some (g2, pos2) => some (g2, (f seed, pos2)) := rfl

theorem generate_run (f : Nat → Nat → Nat) (width height : Int)
    (seed loops : Nat) (σ : RandomState) (hw3 : 3 ≤ width) (hh3 : 3 ≤ height)
    (hwo : width % 2 = 1) (hho : height % 2 = 1) :
    ∃ (s2 : CState) (g2 : Grid) (pos2 : Nat),
      carveVisit (f seed) width height (2 * (width.toNat * height.toNat) + 2)
        ((1 : Int), (1 : Int))
        ⟨fun c => if c ∈ rectI width height then some St.wall else none,
         {((1 : Int), (1 : Int))}, 0⟩ = some s2 ∧
      CInv width height s2 ∧ s2.visited = roomSet width height ∧
      loopInject (f seed) width height loops s2.maze s2.pos = some (g2, pos2) ∧
      (∀ x : Cell, (g2 x).isSome ↔ x ∈ rectI width height) ∧
      generate_maze f width height seed loops σ = some (g2, (f seed, pos2)) := by
  have hrc : (roomSet width height).card ≤ width.toNat * height.toNat := by
    rw [← rectI_card]
    exact Finset.card_le_card (Finset.filter_subset _ _)
  obtain ⟨s2, hrun, hinv2, hvisit⟩ := carve_run (f seed) width height hw3 hh3
    hwo hho (2 * (width.toNat * height.toNat) + 2) (by omega)
  obtain ⟨g2, pos2, hrun2, hd2⟩ := loopInject_isSome (f seed) width height
    hw3 hh3 loops s2.maze s2.pos hinv2.hdense
  refine ⟨s2, g2, pos2, hrun, hinv2, hvisit, hrun2, hd2, ?_⟩
  rw [generate_maze_eq]
  simp only [hrun, hrun2]


theorem IsGrid_of_fn (w h : Int) (f : Cell → St) :
    IsGrid (fun c => if c ∈ rectI w h then some (f c) else none) w h := by
  intro c
  constructor
  · intro hc
    exact ⟨f c, by simp [hc]⟩
  · intro hc
    simp [hc]

theorem gridWall3_isGrid : IsGrid gridWall3 3 3 :=
  IsGrid_of_fn 3 3 (fun _ => St.wall)

theorem gridOpen3_isGrid : IsGrid gridOpen3 3 3 :=
  IsGrid_of_fn 3 3 (fun _ => St.empty)

theorem gridWalled3_isGrid : IsGrid gridWalled3 3 3 :=
  IsGrid_of_fn 3 3 (fun c => if c = ((1 : Int), (1 : Int)) then St.empty else St.wall)

theorem gridOpen3_reach :
    ReachE gridOpen3 ((1 : Int), (1 : Int)) ((2 : Int), (2 : Int)) := by
  have h1 : ReachE gridOpen3 ((1 : Int), (1 : Int)) ((1 : Int), (1 : Int)) :=
    ReachE.refl (by unfold okE; decide)
  have h2 : ReachE gridOpen3 ((1 : Int), (1 : Int)) ((2 : Int), (1 : Int)) :=
    ReachE.step h1 (by unfold adj4; decide) (by unfold okE; decide)
  exact ReachE.step h2 (by unfold adj4; decide) (by unfold okE; decide)

theorem gridWalled3_unreach :
    ¬ ReachE gridWalled3 ((1 : Int), (1 : Int)) ((2 : Int), (2 : Int)) := by
  intro hre
  have h2 := ReachE_last hre
  have h3 : gridWalled3 (2, 2) = some St.empty := h2
  rw [show gridWalled3 (2, 2) = some St.wall from by decide] at h3
  exact absurd (Option.some.inj h3) (by intro h4; cases h4)

/-! ### The claims -/

/-- C1 (amended): on a dense grid whose start cell is EMPTY, when the goal is
not reachable from the start through EMPTY cells, each of `bfs`, `dfs` and
`astar` returns the singleton path `[goal]` — not the empty path the claim
states: the backtracking walk `while node:` always appends `goal` itself
before the failing predecessor lookup ends the loop. -/
theorem claim_C1 {maze : Grid} {start goal : Cell} {w h : Int}
    (hg : IsGrid maze w h) (hse : okE maze start)
    (hur : ¬ ReachE maze start goal) :
    bfs maze start goal w h = some [goal] ∧
    dfs maze start goal w h = some [goal] ∧
    astar maze start goal w h = some [goal] :=
  ⟨bfs_unreach hg hse hur, dfs_unreach hg hse hur, astar_unreach hg hse hur⟩

/-- Witness for C1 at the 3×3 grid whose goal `(2, 2)` is walled off. -/
theorem claim_C1_witness :
    bfs gridWalled3 (1, 1) (2, 2) 3 3 = some [((2 : Int), (2 : Int))] ∧
    dfs gridWalled3 (1, 1) (2, 2) 3 3 = some [((2 : Int), (2 : Int))] ∧
    astar gridWalled3 (1, 1) (2, 2) 3 3 = some [((2 : Int), (2 : Int))] :=
  @claim_C1 gridWalled3 (1, 1) (2, 2) 3 3 gridWalled3_isGrid
    (by unfold okE; decide) gridWalled3_unreach

/-- Counterexample to C1: on the 3×3 grid with only `(1, 1)` EMPTY the goal
`(2, 2)` is unreachable through EMPTY cells, yet all three solvers return the
non-empty path `[(2, 2)]`. -/
theorem claim_C1_cex :
    ¬ ReachE gridWalled3 ((1 : Int), (1 : Int)) ((2 : Int), (2 : Int)) ∧
    bfs gridWalled3 (1, 1) (2, 2) 3 3 = some [((2 : Int), (2 : Int))] ∧
    dfs gridWalled3 (1, 1) (2, 2) 3 3 = some [((2 : Int), (2 : Int))] ∧
    astar gridWalled3 (1, 1) (2, 2) 3 3 = some [((2 : Int), (2 : Int))] ∧
    ([((2 : Int), (2 : Int))] : List Cell) ≠ [] :=
  ⟨gridWalled3_unreach, by decide, by decide, by decide, by decide⟩

/-- C2 (amended): every Path of at least two cells returned by `bfs`, `dfs` or
`astar` starts at `start`, ends at `goal`, has 4-adjacent consecutive cells,
and contains no WALL cell other than possibly the start itself (whose state
the solvers never examine); the non-empty singleton `[goal]` returned when the
goal was never reached can violate all of these, so the claim as stated over
all non-empty paths is false. -/
theorem claim_C2 (maze : Grid) (start goal : Cell) (w h : Int) :
    (∀ p : List Cell, bfs maze start goal w h = some p → 2 ≤ p.length →
      p.head? = some start ∧ p.getLast? = some goal ∧ List.Chain' adj4 p ∧
      ∀ e ∈ p, e ≠ start → maze e ≠ some St.wall) ∧
    (∀ p : List Cell, dfs maze start goal w h = some p → 2 ≤ p.length →
      p.head? = some start ∧ p.getLast? = some goal ∧ List.Chain' adj4 p ∧
      ∀ e ∈ p, e ≠ start → maze e ≠ some St.wall) ∧
    (∀ p : List Cell, astar maze start goal w h = some p → 2 ≤ p.length →
      p.head? = some start ∧ p.getLast? = some goal ∧ List.Chain' adj4 p ∧
      ∀ e ∈ p, e ≠ start → maze e ≠ some St.wall) := by
  refine ⟨?_, ?_, ?_⟩
  · intro p hp hlen
    obtain ⟨h1, h2, h3, h4⟩ := bfs_props hp hlen
    exact ⟨h1, h2, h3, fun e he hne => (h4 e he hne).2⟩
  · intro p hp hlen
    obtain ⟨h1, h2, h3, h4⟩ := dfs_props hp hlen
    exact ⟨h1, h2, h3, fun e he hne => (h4 e he hne).2⟩
  · intro p hp hlen
    obtain ⟨h1, h2, h3, h4⟩ := astar_props hp hlen
    exact ⟨h1, h2, h3, fun e he hne => (h4 e he hne).2⟩

/-- Witness for C2: the concrete 3-cell BFS path on the open 3×3 grid
satisfies every property of the amended claim. -/
theorem claim_C2_witness :
    ([((1 : Int), (1 : Int)), (2, 1), (2, 2)] : List Cell).head? =
      some ((1 : Int), (1 : Int)) ∧
    ([((1 : Int), (1 : Int)), (2, 1), (2, 2)] : List Cell).getLast? =
      some ((2 : Int), (2 : Int)) ∧
    List.Chain' adj4 ([((1 : Int), (1 : Int)), (2, 1), (2, 2)] : List Cell) ∧
    ∀ e ∈ ([((1 : Int), (1 : Int)), (2, 1), (2, 2)] : List Cell),
      e ≠ ((1 : Int), (1 : Int)) → gridOpen3 e ≠ some St.wall :=
  (claim_C2 gridOpen3 (1, 1) (2, 2) 3 3).1
    [((1 : Int), (1 : Int)), (2, 1), (2, 2)] (by decide) (by decide)

/-- Counterexample to C2: on the 3×3 grid with only `(1, 1)` EMPTY, `bfs`
returns the non-empty path `[(2, 2)]`, which does not start at the start cell
`(1, 1)` and whose only cell is a WALL cell. -/
theorem claim_C2_cex :
    bfs gridWalled3 (1, 1) (2, 2) 3 3 = some [((2 : Int), (2 : Int))] ∧
    ([((2 : Int), (2 : Int))] : List Cell) ≠ [] ∧
    ([((2 : Int), (2 : Int))] : List Cell).head? ≠ some ((1 : Int), (1 : Int)) ∧
    gridWalled3 (2, 2) = some St.wall :=
  ⟨by decide, by decide, by decide, by decide⟩

/-- C3: on a dense grid whose goal is reachable from the start through EMPTY
cells, all three solvers succeed, their paths are valid start-to-goal paths,
the BFS path has the minimum number of cells among all valid start-to-goal
paths, the A* path has the same length, and both are at most the length of
the DFS path. -/
theorem claim_C3 {maze : Grid} {start goal : Cell} {w h : Int}
    (hg : IsGrid maze w h) (hre : ReachE maze start goal) :
    ∃ (pb pa pd : List Cell),
      bfs maze start goal w h = some pb ∧
      astar maze start goal w h = some pa ∧
      dfs maze start goal w h = some pd ∧
      ValidPathE maze start goal pb ∧ ValidPathE maze start goal pa ∧
      ValidPathE maze start goal pd ∧
      (∀ q : List Cell, ValidPathE maze start goal q → pb.length ≤ q.length) ∧
      pa.length = pb.length ∧ pb.length ≤ pd.length := by
  obtain ⟨pb, hpb, hvb, hminb⟩ := bfs_optimal hg hre
  obtain ⟨pa, hpa, hva, hmina⟩ := astar_optimal hg hre
  obtain ⟨pd, hpd, hvd⟩ := dfs_complete_valid hg hre
  exact ⟨pb, pa, pd, hpb, hpa, hpd, hvb, hva, hvd, hminb,
    Nat.le_antisymm (hmina pb hvb) (hminb pa hva), hminb pd hvd⟩

/-- Witness for C3 on the open 3×3 grid, where the goal is reachable. -/
theorem claim_C3_witness :
    ∃ (pb pa pd : List Cell),
      bfs gridOpen3 (1, 1) (2, 2) 3 3 = some pb ∧
      astar gridOpen3 (1, 1) (2, 2) 3 3 = some pa ∧
      dfs gridOpen3 (1, 1) (2, 2) 3 3 = some pd ∧
      ValidPathE gridOpen3 (1, 1) (2, 2) pb ∧
      ValidPathE gridOpen3 (1, 1) (2, 2) pa ∧
      ValidPathE gridOpen3 (1, 1) (2, 2) pd ∧
      (∀ q : List Cell, ValidPathE gridOpen3 (1, 1) (2, 2) q →
        pb.length ≤ q.length) ∧
      pa.length = pb.length ∧ pb.length ≤ pd.length :=
  @claim_C3 gridOpen3 (1, 1) (2, 2) 3 3 gridOpen3_isGrid gridOpen3_reach

/-- C4: for every odd width in 9..61 and odd height in 9..41, every seed and
every pseudorandom family, `generate_maze` with `loops = 0` carves a perfect
maze: every room is EMPTY, the number of EMPTY non-room cells (the carved
connector walls) is the number of rooms minus one, and any two rooms are
mutually reachable through EMPTY cells. -/
theorem claim_C4 (f : Nat → Nat → Nat) (width height : Int) (seed : Nat)
    (σ : RandomState) (hw1 : 9 ≤ width) (hw2 : width ≤ 61)
    (hwo : width % 2 = 1) (hh1 : 9 ≤ height) (hh2 : height ≤ 41)
    (hho : height % 2 = 1) :
    ∃ (g : Grid) (σ2 : RandomState),
      generate_maze f width height seed 0 σ = some (g, σ2) ∧
      (∀ r ∈ roomSet width height, g r = some St.empty) ∧
      ((rectI width height).filter (fun c => g c = some St.empty ∧
        c ∉ roomSet width height)).card = (roomSet width height).card - 1 ∧
      (∀ r1 ∈ roomSet width height, ∀ r2 ∈ roomSet width height,
        ReachE g r1 r2) := by
  obtain ⟨s2, g2, pos2, hcarve, hinv, hvisit, hloop, hd2, hgen⟩ :=
    generate_run f width height seed 0 σ (by omega) (by omega) hwo hho
  have hl0 : loopInject (f seed) width height 0 s2.maze s2.pos =
      some (s2.maze, s2.pos) := rfl
  rw [hl0] at hloop
  injection hloop with hloop2
  injection hloop2 with hg2 hpos2
  subst hg2
  refine ⟨s2.maze, (f seed, pos2), hgen, ?_, ?_, ?_⟩
  · intro r hr
    exact (hinv.hroomE r hr).mpr (by rw [hvisit]; exact hr)
  · have hcnt : (emptyNonRoom width height s2.maze).card + 1 =
        s2.visited.card := hinv.hcount
    rw [hvisit] at hcnt
    show (emptyNonRoom width height s2.maze).card =
      (roomSet width height).card - 1
    omega
  · intro r1 hr1 r2 hr2
    have he1 : s2.maze r1 = some St.empty :=
      (hinv.hroomE r1 hr1).mpr (by rw [hvisit]; exact hr1)
    have he2 : s2.maze r2 = some St.empty :=
      (hinv.hroomE r2 hr2).mpr (by rw [hvisit]; exact hr2)
    exact ReachE_trans (ReachE_symm (hinv.hconn r1 he1)) (hinv.hconn r2 he2)

/-- Witness for C4 at width = height = 9, seed 1, an arbitrary concrete
pseudorandom family and generator state. -/
theorem claim_C4_witness :
    ∃ (g : Grid) (σ2 : RandomState),
      generate_maze (fun _ _ => 0) 9 9 1 0 ((fun _ => 0), 0) = some (g, σ2) ∧
      (∀ r ∈ roomSet 9 9, g r = some St.empty) ∧
      ((rectI 9 9).filter (fun c => g c = some St.empty ∧
        c ∉ roomSet 9 9)).card = (roomSet 9 9).card - 1 ∧
      (∀ r1 ∈ roomSet 9 9, ∀ r2 ∈ roomSet 9 9, ReachE g r1 r2) :=
  claim_C4 (fun _ _ => 0) 9 9 1 ((fun _ => 0), 0) (by decide) (by decide)
    (by decide) (by decide) (by decide) (by decide)

/-- C5: the maze returned by `generate_maze` is a deterministic function of
the pseudorandom family, width, height, seed and loop count: the state of the
global generator before the call (which `random.seed` overwrites) has no
influence, so two calls with identical arguments return identical grids,
cell for cell. -/
theorem claim_C5 (f : Nat → Nat → Nat) (width height : Int)
    (seed loops : Nat) (σ1 σ2 : RandomState) :
    generate_maze f width height seed loops σ1 =
      generate_maze f width height seed loops σ2 ∧
    ∀ (g1 g2 : Grid) (r1 r2 : RandomState),
      generate_maze f width height seed loops σ1 = some (g1, r1) →
      generate_maze f width height seed loops σ2 = some (g2, r2) →
      ∀ c : Cell, g1 c = g2 c := by
  have he : generate_maze f width height seed loops σ1 =
      generate_maze f width height seed loops σ2 := rfl
  refine ⟨he, ?_⟩
  intro g1 g2 r1 r2 h1 h2 c
  rw [← he, h1] at h2
  injection h2 with h3
  injection h3 with h4 h5
  rw [h4]

/-- C6: within a `generate_maze` run, the loop-injection phase only turns
WALL cells EMPTY (so every cell EMPTY after carving is still EMPTY in the
final grid), every changed cell is interior (`1 ≤ x ≤ width−2`,
`1 ≤ y ≤ height−2`), and the number of changed cells is at most the loop
count. -/
theorem claim_C6 (f : Nat → Nat → Nat) (width height : Int)
    (seed loops : Nat) (σ : RandomState) (hw3 : 3 ≤ width) (hh3 : 3 ≤ height)
    (hwo : width % 2 = 1) (hho : height % 2 = 1) :
    ∃ (s2 : CState) (g2 : Grid) (pos2 : Nat),
      carveVisit (f seed) width height (2 * (width.toNat * height.toNat) + 2)
        ((1 : Int), (1 : Int))
        ⟨fun c => if c ∈ rectI width height then some St.wall else none,
         {((1 : Int), (1 : Int))}, 0⟩ = some s2 ∧
      loopInject (f seed) width height loops s2.maze s2.pos =
        some (g2, pos2) ∧
      generate_maze f width height seed loops σ = some (g2, (f seed, pos2)) ∧
      (∀ c : Cell, s2.maze c = some St.empty → g2 c = some St.empty) ∧
      (∀ c : Cell, g2 c ≠ s2.maze c → s2.maze c = some St.wall ∧
        g2 c = some St.empty ∧ 1 ≤ c.1 ∧ c.1 ≤ width - 2 ∧ 1 ≤ c.2 ∧
        c.2 ≤ height - 2) ∧
      ((rectI width height).filter (fun c => g2 c ≠ s2.maze c)).card ≤ loops := by
  obtain ⟨s2, g2, pos2, hcarve, hinv, hvisit, hloop, hd2, hgen⟩ :=
    generate_run f width height seed loops σ hw3 hh3 hwo hho
  obtain ⟨hm, hc, hn⟩ := loopInject_spec (f seed) width height hw3 hh3 loops
    s2.maze s2.pos g2 pos2 hloop
  exact ⟨s2, g2, pos2, hcarve, hloop, hgen, hm, hc, hn⟩

/-- Witness for C6 at width = height = 9, seed 1, loop count 5. -/
theorem claim_C6_witness :
    ∃ (s2 : CState) (g2 : Grid) (pos2 : Nat),
      carveVisit ((fun _ _ => 0) 1) 9 9 (2 * ((9 : Int).toNat * (9 : Int).toNat) + 2)
        ((1 : Int), (1 : Int))
        ⟨fun c => if c ∈ rectI 9 9 then some St.wall else none,
         {((1 : Int), (1 : Int))}, 0⟩ = some s2 ∧
      loopInject ((fun _ _ => 0) 1) 9 9 5 s2.maze s2.pos = some (g2, pos2) ∧
      generate_maze (fun _ _ => 0) 9 9 1 5 ((fun _ => 0), 0) =
        some (g2, ((fun _ _ => 0) 1, pos2)) ∧
      (∀ c : Cell, s2.maze c = some St.empty → g2 c = some St.empty) ∧
      (∀ c : Cell, g2 c ≠ s2.maze c → s2.maze c = some St.wall ∧
        g2 c = some St.empty ∧ 1 ≤ c.1 ∧ c.1 ≤ (9 : Int) - 2 ∧ 1 ≤ c.2 ∧
        c.2 ≤ (9 : Int) - 2) ∧
      ((rectI 9 9).filter (fun c => g2 c ≠ s2.maze c)).card ≤ 5 :=
  claim_C6 (fun _ _ => 0) 9 9 1 5 ((fun _ => 0), 0) (by decide) (by decide)
    (by decide) (by decide)

/-- C7: on a dense grid the renderer succeeds and produces, for each of the
`height` rows, the `width` cell symbols chosen by the spec's precedence
(start, then goal, then path excluding the endpoints, then wall, then empty)
followed by a newline symbol. -/
theorem claim_C7 {maze : Grid} {w h : Int} (path : List Cell)
    (start goal : Cell) (hg : IsGrid maze w h) :
    render_maze maze w h path start goal =
      some (((List.range h.toNat).map (fun y : Nat =>
        ((List.range w.toNat).map (fun x : Nat =>
          specSymD maze path start goal ((x : Int), (y : Int)))) ++
          [Disp.newlineS])).flatten) := by
  have hys : ∀ y ∈ (List.range h.toNat).map (fun n : Nat => (n : Int)),
      0 ≤ y ∧ y < h := by
    intro y hy
    simp only [List.mem_map, List.mem_range] at hy
    obtain ⟨k, hk, rfl⟩ := hy
    omega
  unfold render_maze renderRun
  rw [renderRun_eq hg path start goal _ [] hys]
  simp [List.map_map, Function.comp_def]

/-- Witness for C7: rendering the BFS path of the open 3×3 grid. -/
theorem claim_C7_witness :
    render_maze gridOpen3 3 3 [((1 : Int), (1 : Int)), (2, 1), (2, 2)]
      (1, 1) (2, 2) =
      some (((List.range (3 : Int).toNat).map (fun y : Nat =>
        ((List.range (3 : Int).toNat).map (fun x : Nat =>
          specSymD gridOpen3 [((1 : Int), (1 : Int)), (2, 1), (2, 2)]
            (1, 1) (2, 2) ((x : Int), (y : Int)))) ++
          [Disp.newlineS])).flatten) :=
  @claim_C7 gridOpen3 3 3 [((1 : Int), (1 : Int)), (2, 1), (2, 2)]
    (1, 1) (2, 2) gridOpen3_isGrid

/-- C8: the solvers and the renderer never write the maze dict they are
given: whatever final state any of the loops reaches, its maze component maps
every cell to the same state as the input grid. -/
theorem claim_C8 (maze : Grid) (start goal : Cell) (w h : Int)
    (path : List Cell) :
    (∀ (fuel : Nat) (s2 : SState),
      bfsAux goal w h fuel ⟨maze, [start], [(start, none)]⟩ = some s2 →
      ∀ c : Cell, s2.maze c = maze c) ∧
    (∀ (fuel : Nat) (s2 : SState),
      dfsAux goal w h fuel ⟨maze, [start], [(start, none)]⟩ = some s2 →
      ∀ c : Cell, s2.maze c = maze c) ∧
    (∀ (fuel : Nat) (s2 : AState),
      astarAux goal w h fuel
        ⟨maze, [(0, start)], [(start, 0)], [(start, none)]⟩ = some s2 →
      ∀ c : Cell, s2.maze c = maze c) ∧
    (∀ st : Grid × List Disp,
      renderRun maze w h path start goal = some st →
      ∀ c : Cell, st.1 c = maze c) := by
  refine ⟨?_, ?_, ?_, ?_⟩
  · intro fuel s2 hrun c
    rw [bfsAux_maze hrun]
  · intro fuel s2 hrun c
    rw [dfsAux_maze hrun]
  · intro fuel s2 hrun c
    rw [astarAux_maze hrun]
  · intro st hrun c
    rw [renderRun_fst hrun]

/-- C9: on a dense grid with in-bounds start and goal, none of the three
solvers ever fails a lookup: each returns a result (`isSome`), because every
`maze[(nx, ny)]` access is guarded by the bounds check and, in `astar`,
`g[current]` is defined for every popped cell. -/
theorem claim_C9 {maze : Grid} {start goal : Cell} {w h : Int}
    (hg : IsGrid maze w h) (hs : start ∈ rectI w h) (hgo : goal ∈ rectI w h) :
    (bfs maze start goal w h).isSome ∧ (dfs maze start goal w h).isSome ∧
    (astar maze start goal w h).isSome :=
  ⟨bfs_isSome maze start goal w h hg, dfs_isSome maze start goal w h hg,
   astar_isSome maze start goal w h hg⟩

/-- Witness for C9 on the all-wall 3×3 grid. -/
theorem claim_C9_witness :
    (bfs gridWall3 (1, 1) (2, 2) 3 3).isSome ∧
    (dfs gridWall3 (1, 1) (2, 2) 3 3).isSome ∧
    (astar gridWall3 (1, 1) (2, 2) 3 3).isSome :=
  @claim_C9 gridWall3 (1, 1) (2, 2) 3 3 gridWall3_isGrid (by decide) (by decide)

/-- C10: for every odd width in 9..61 and odd height in 9..41, every seed,
every loop count and every pseudorandom family, `generate_maze` terminates
with a result; moreover the recursive carve visits each room at most once, so
any fuel of twice the number of rooms plus two already suffices for it. -/
theorem claim_C10 (f : Nat → Nat → Nat) (width height : Int)
    (seed loops : Nat) (σ : RandomState) (hw1 : 9 ≤ width) (hw2 : width ≤ 61)
    (hwo : width % 2 = 1) (hh1 : 9 ≤ height) (hh2 : height ≤ 41)
    (hho : height % 2 = 1) :
    (generate_maze f width height seed loops σ).isSome ∧
    ∀ fuel : Nat, 2 * (roomSet width height).card + 2 ≤ fuel →
      (carveVisit (f seed) width height fuel ((1 : Int), (1 : Int))
        ⟨fun c => if c ∈ rectI width height then some St.wall else none,
         {((1 : Int), (1 : Int))}, 0⟩).isSome := by
  constructor
  · obtain ⟨s2, g2, pos2, _, _, _, _, _, hgen⟩ :=
      generate_run f width height seed loops σ (by omega) (by omega) hwo hho
    rw [hgen]
    rfl
  · intro fuel hfuel
    obtain ⟨s2, hrun, _, _⟩ := carve_run (f seed) width height (by omega)
      (by omega) hwo hho fuel hfuel
    rw [hrun]
    rfl

/-- Witness for C10 at width = height = 9, seed 1, loop count 7. -/
theorem claim_C10_witness :
    (generate_maze (fun _ _ => 0) 9 9 1 7 ((fun _ => 0), 0)).isSome ∧
    ∀ fuel : Nat, 2 * (roomSet 9 9).card + 2 ≤ fuel →
      (carveVisit ((fun _ _ => 0) 1) 9 9 fuel ((1 : Int), (1 : Int))
        ⟨fun c => if c ∈ rectI 9 9 then some St.wall else none,
         {((1 : Int), (1 : Int))}, 0⟩).isSome :=
  claim_C10 (fun _ _ => 0) 9 9 1 7 ((fun _ => 0), 0) (by decide) (by decide)
    (by decide) (by decide) (by decide) (by decide)
